import Mathlib

/-!
TP2: three matrix-addition designs (eager, CRTP, virtual dispatch).

Shallow embedding of `MatrixSimple.cpp`, `MatrixCRTP.cpp`, `MatrixVirtual.cpp`
and `InstanceCounter.hpp`.

* `unsigned` is a natural number below `2 ^ 32`; every `unsigned` operation of the
  source is followed by an explicit reduction `u32`.
* `double` is read in exact arithmetic, as a rational number.
* `std::vector<double>` is a list; `operator[]` past the end is undefined behaviour,
  which the embedding reports as `Err.undefined_behaviour`.
* `int` counters are integers; `++` on `INT_MAX` is undefined behaviour.
-/

namespace TP2

/-- Values of type `double`, in exact arithmetic. -/
abbrev Val := ℚ

/-- Reduction of an `unsigned` result modulo `2 ^ 32`. -/
def u32 (n : Nat) : Nat := n % 2 ^ 32

/-- Largest value of an `int`. -/
def INT_MAX : Int := 2 ^ 31 - 1

/-- Ways in which an operation of the programs fails: the two exceptions thrown by
the eager variant, and undefined behaviour (a vector access past the end, or a signed
overflow). -/
inductive Err where
  | out_of_range
  | invalid_argument
  | undefined_behaviour
deriving DecidableEq, Repr

deriving instance DecidableEq for Except

/-- The reading `v[i]` of a `std::vector<double>`. -/
def vecGet (v : List Val) (i : Nat) : Except Err Val :=
  match v[i]? with
  | some x => .ok x
  | none => .error .undefined_behaviour

/-- The writing `v[i] = x` of a `std::vector<double>`. -/
def vecSet (v : List Val) (i : Nat) (x : Val) : Except Err (List Val) :=
  if i < v.length then .ok (v.set i x) else .error .undefined_behaviour

/-- The loop `for (unsigned i = start; ...; ++i) body`, run for `n` iterations:
`forLoop body n start s` runs `body start`, `body (start + 1)`, ... and stops at the first
failure. The loops of the source are `forLoop body bound 0`: the counter stays below
`bound < 2 ^ 32`, so `++i` never wraps. -/
def forLoop {σ : Type} (body : Nat → σ → Except Err σ) : Nat → Nat → σ → Except Err σ
  | 0, _, s => .ok s
  | n + 1, i, s =>
    match body i s with
    | .ok t => forLoop body n (i + 1) t
    | .error e => .error e

/-- The class `Matrix`: the three programs declare the same three fields
(`rows_`, `cols_` and the buffer `data_`). -/
structure Matrix where
  rows_ : Nat
  cols_ : Nat
  data_ : List Val
deriving DecidableEq, Repr

namespace Matrix

/-- The accessor `rows()`. -/
def rows (m : Matrix) : Nat := m.rows_

/-- The accessor `cols()`. -/
def cols (m : Matrix) : Nat := m.cols_

/-- The constructor `Matrix(rows, cols, init_val)`, the same in the three programs:
the buffer has `rows * cols` entries, the product being computed in `unsigned`. -/
def new (rows cols : Nat) (init_val : Val) : Matrix :=
  ⟨rows, cols, List.replicate (u32 (rows * cols)) init_val⟩

/-- The constructor `Matrix(rows, cols)` with the default fill `0.0`. -/
def newDefault (rows cols : Nat) : Matrix := new rows cols 0

/-- The method `sum()`: `std::accumulate(begin, end, 0.0)`, the same in the three
programs. -/
def sum (m : Matrix) : Val := m.data_.foldl (fun acc x => acc + x) 0

/-- The position `row * cols_ + col` in the buffer, computed in `unsigned`. -/
def index (m : Matrix) (row col : Nat) : Nat := u32 (u32 (row * m.cols_) + col)

/-- A matrix as the programs build them: both dimensions are `unsigned` and the buffer
has the length the constructors give it. -/
def WF (m : Matrix) : Prop :=
  m.rows_ < 2 ^ 32 ∧ m.cols_ < 2 ^ 32 ∧ m.data_.length = u32 (m.rows_ * m.cols_)

instance (m : Matrix) : Decidable m.WF := by unfold WF; infer_instance

/-- A matrix of shape `(r, c)` as the programs build them. -/
def HasShape (r c : Nat) (m : Matrix) : Prop :=
  m.WF ∧ m.rows_ = r ∧ m.cols_ = c

instance (r c : Nat) (m : Matrix) : Decidable (m.HasShape r c) := by
  unfold HasShape; infer_instance

end Matrix

/-! ## The eager variant (`MatrixSimple.cpp`) -/

namespace Simple

/-- The read-only `operator()(row, col)` of `MatrixSimple.cpp`. -/
def Matrix.get (m : Matrix) (row col : Nat) : Except Err Val :=
  if row ≥ m.rows_ ∨ col ≥ m.cols_ then .error .out_of_range
  else vecGet m.data_ (m.index row col)

/-- The mutable `operator()(row, col)` of `MatrixSimple.cpp`: the reference it returns
is the position of the entry in the buffer. -/
def Matrix.ref (m : Matrix) (row col : Nat) : Except Err Nat :=
  if row ≥ m.rows_ ∨ col ≥ m.cols_ then .error .out_of_range
  else if m.index row col < m.data_.length then .ok (m.index row col)
  else .error .undefined_behaviour

/-- Reading through the reference returned by the mutable `operator()`. -/
def Matrix.getMut (m : Matrix) (row col : Nat) : Except Err Val :=
  match Matrix.ref m row col with
  | .ok i => vecGet m.data_ i
  | .error e => .error e

/-- The assignment `m(row, col) = x` through the mutable `operator()`. -/
def Matrix.assign (m : Matrix) (row col : Nat) (x : Val) : Except Err Matrix :=
  match Matrix.ref m row col with
  | .ok i => .ok ⟨m.rows_, m.cols_, m.data_.set i x⟩
  | .error e => .error e

/-- The objects `operator+` works on: its two operands and the local `result`. -/
structure PlusState where
  a : Matrix
  b : Matrix
  result : Matrix
deriving DecidableEq, Repr

/-- The statement `result(i, j) = a(i, j) + b(i, j)`. -/
def plusBody (i j : Nat) (s : PlusState) : Except Err PlusState :=
  match Matrix.get s.a i j with
  | .error e => .error e
  | .ok x =>
    match Matrix.get s.b i j with
    | .error e => .error e
    | .ok y =>
      match Matrix.assign s.result i j (x + y) with
      | .error e => .error e
      | .ok r => .ok ⟨s.a, s.b, r⟩

/-- The two nested loops of `operator+`. -/
def plusLoops (s : PlusState) : Except Err PlusState :=
  forLoop (fun i s1 => forLoop (fun j s2 => plusBody i j s2) s1.a.cols 0 s1) s.a.rows 0 s

/-- The function `operator+` of `MatrixSimple.cpp`, with the final state of its operands. -/
def operator_plus_state (a b : Matrix) : Except Err PlusState :=
  if a.rows ≠ b.rows ∨ a.cols ≠ b.cols then .error .invalid_argument
  else plusLoops ⟨a, b, Matrix.newDefault a.rows a.cols⟩

/-- The function `operator+` of `MatrixSimple.cpp`: the matrix it returns. -/
def operator_plus (a b : Matrix) : Except Err Matrix :=
  match operator_plus_state a b with
  | .ok s => .ok s.result
  | .error e => .error e

end Simple

/-! ## The CRTP variant (`MatrixCRTP.cpp`) -/

namespace CRTP

/-- The expressions `MatrixExpr<Derived>` of `MatrixCRTP.cpp`: a `Matrix`, or a
`MatrixAdd<M1, M2>` holding its two operands `left_` and `right_`. The fields `rows_` and
`cols_` of an addition node are set once, by its constructor, to `left.rows()` and
`left.cols()`; `rows` and `cols` below compute them from the left operand. -/
inductive MatrixExpr where
  | matrix (m : Matrix)
  | add (left_ right_ : MatrixExpr)
deriving DecidableEq, Repr

namespace MatrixExpr

/-- The accessor `rows()`. -/
def rows : MatrixExpr → Nat
  | .matrix m => m.rows_
  | .add left_ _ => left_.rows

/-- The accessor `cols()`. -/
def cols : MatrixExpr → Nat
  | .matrix m => m.cols_
  | .add left_ _ => left_.cols

/-- The read-only `operator()(row, col)`: `data_[row * cols_ + col]` for a `Matrix`,
`left_(row, col) + right_(row, col)` for a `MatrixAdd`. -/
def call : MatrixExpr → Nat → Nat → Except Err Val
  | .matrix m, row, col => vecGet m.data_ (m.index row col)
  | .add left_ right_, row, col =>
    match left_.call row col with
    | .error e => .error e
    | .ok x =>
      match right_.call row col with
      | .error e => .error e
      | .ok y => .ok (x + y)

end MatrixExpr

/-- The function `operator+` of `MatrixCRTP.cpp`: it builds the node `MatrixAdd(left, right)`. -/
def operator_plus (left right : MatrixExpr) : MatrixExpr := .add left right

/-- The statement `data_[i * expr.cols() + j] = expr(i, j)`. -/
def storeBody (expr : MatrixExpr) (i j : Nat) (data : List Val) : Except Err (List Val) :=
  match expr.call i j with
  | .error e => .error e
  | .ok x => vecSet data (u32 (u32 (i * expr.cols) + j)) x

/-- The constructor `Matrix(const MatrixExpr<Expr>& expr)` of `MatrixCRTP.cpp`. -/
def Matrix.ofExpr (expr : MatrixExpr) : Except Err Matrix :=
  match forLoop (fun i d1 => forLoop (fun j d2 => storeBody expr i j d2) expr.cols 0 d1)
      expr.rows 0 (List.replicate (u32 (expr.rows * expr.cols)) 0) with
  | .ok d => .ok ⟨expr.rows, expr.cols, d⟩
  | .error e => .error e

/-- The statement `data_[i * expr.cols() + j] = expr(i, j)`, with the record of the
positions of the buffer written so far. -/
def storeBodyTraced (expr : MatrixExpr) (i j : Nat) (s : List Val × List Nat) :
    Except Err (List Val × List Nat) :=
  match storeBody expr i j s.1 with
  | .ok d => .ok (d, s.2 ++ [u32 (u32 (i * expr.cols) + j)])
  | .error e => .error e

/-- The constructor `Matrix(const MatrixExpr<Expr>& expr)` of `MatrixCRTP.cpp`, with the
record of the positions of the buffer it writes, in order. -/
def Matrix.ofExprTraced (expr : MatrixExpr) : Except Err (Matrix × List Nat) :=
  match forLoop (fun i s1 => forLoop (fun j s2 => storeBodyTraced expr i j s2) expr.cols 0 s1)
      expr.rows 0 (List.replicate (u32 (expr.rows * expr.cols)) 0, []) with
  | .ok s => .ok (⟨expr.rows, expr.cols, s.1⟩, s.2)
  | .error e => .error e

/-- The assignment `m(row, col) = x` through the mutable `operator()` of `MatrixCRTP.cpp`. -/
def Matrix.assign (m : Matrix) (row col : Nat) (x : Val) : Except Err Matrix :=
  match vecSet m.data_ (m.index row col) x with
  | .ok d => .ok ⟨m.rows_, m.cols_, d⟩
  | .error e => .error e

/-- The left-associated chain `a + b1 + b2 + ...` as `MatrixCRTP.cpp` builds it. -/
def chain (a : Matrix) (bs : List Matrix) : MatrixExpr :=
  bs.foldl (fun e b => operator_plus e (.matrix b)) (.matrix a)

end CRTP

/-! ## The virtual-dispatch variant (`MatrixVirtual.cpp`) -/

namespace Virtual

/-- The class hierarchy under `MatrixExpr` in `MatrixVirtual.cpp`: a `Matrix`, or a
`MatrixAdd` holding its two operands `left_` and `right_`. The fields `rows_` and `cols_`
of an addition node are set once, by its constructor, to `left.rows()` and `left.cols()`;
`rows` and `cols` below compute them from the left operand. -/
inductive MatrixExpr where
  | matrix (m : Matrix)
  | add (left_ right_ : MatrixExpr)
deriving DecidableEq, Repr

namespace MatrixExpr

/-- The accessor `rows()`. -/
def rows : MatrixExpr → Nat
  | .matrix m => m.rows_
  | .add left_ _ => left_.rows

/-- The accessor `cols()`. -/
def cols : MatrixExpr → Nat
  | .matrix m => m.cols_
  | .add left_ _ => left_.cols

/-- The virtual `operator()(row, col)`, dispatched on the class of the object. -/
def call : MatrixExpr → Nat → Nat → Except Err Val
  | .matrix m, row, col => vecGet m.data_ (m.index row col)
  | .add left_ right_, row, col =>
    match left_.call row col with
    | .error e => .error e
    | .ok x =>
      match right_.call row col with
      | .error e => .error e
      | .ok y => .ok (x + y)

end MatrixExpr

/-- The function `operator+` of `MatrixVirtual.cpp`: it builds the node `MatrixAdd(left, right)`. -/
def operator_plus (left right : MatrixExpr) : MatrixExpr := .add left right

/-- The statement `data_[i * cols_ + j] = expr(i, j)`, where `cols_` is the field of the
matrix under construction. -/
def storeBody (expr : MatrixExpr) (cols_ : Nat) (i j : Nat) (data : List Val) :
    Except Err (List Val) :=
  match expr.call i j with
  | .error e => .error e
  | .ok x => vecSet data (u32 (u32 (i * cols_) + j)) x

/-- The constructor `Matrix(const MatrixExpr& expr)` of `MatrixVirtual.cpp`. -/
def Matrix.ofExpr (expr : MatrixExpr) : Except Err Matrix :=
  let rows_ := expr.rows
  let cols_ := expr.cols
  match forLoop (fun i d1 => forLoop (fun j d2 => storeBody expr cols_ i j d2) cols_ 0 d1)
      rows_ 0 (List.replicate (u32 (rows_ * cols_)) 0) with
  | .ok d => .ok ⟨rows_, cols_, d⟩
  | .error e => .error e

/-- The statement `data_[i * cols_ + j] = expr(i, j)`, with the record of the positions
of the buffer written so far. -/
def storeBodyTraced (expr : MatrixExpr) (cols_ : Nat) (i j : Nat) (s : List Val × List Nat) :
    Except Err (List Val × List Nat) :=
  match storeBody expr cols_ i j s.1 with
  | .ok d => .ok (d, s.2 ++ [u32 (u32 (i * cols_) + j)])
  | .error e => .error e

/-- The constructor `Matrix(const MatrixExpr& expr)` of `MatrixVirtual.cpp`, with the
record of the positions of the buffer it writes, in order. -/
def Matrix.ofExprTraced (expr : MatrixExpr) : Except Err (Matrix × List Nat) :=
  let rows_ := expr.rows
  let cols_ := expr.cols
  match forLoop (fun i s1 => forLoop (fun j s2 => storeBodyTraced expr cols_ i j s2) cols_ 0 s1)
      rows_ 0 (List.replicate (u32 (rows_ * cols_)) 0, []) with
  | .ok s => .ok (⟨rows_, cols_, s.1⟩, s.2)
  | .error e => .error e

/-- The assignment `m(row, col) = x` through the mutable `operator()` of `MatrixVirtual.cpp`. -/
def Matrix.assign (m : Matrix) (row col : Nat) (x : Val) : Except Err Matrix :=
  match vecSet m.data_ (m.index row col) x with
  | .ok d => .ok ⟨m.rows_, m.cols_, d⟩
  | .error e => .error e

/-- The left-associated chain `a + b1 + b2 + ...` as `MatrixVirtual.cpp` builds it. -/
def chain (a : Matrix) (bs : List Matrix) : MatrixExpr :=
  bs.foldl (fun e b => operator_plus e (.matrix b)) (.matrix a)

end Virtual

namespace Simple

/-- The left-associated chain `a + b1 + b2 + ...` as `MatrixSimple.cpp` evaluates it:
each `+` is computed at once, on the result of the additions before it. -/
def chain : Matrix → List Matrix → Except Err Matrix
  | a, [] => .ok a
  | a, b :: bs =>
    match operator_plus a b with
    | .ok r => chain r bs
    | .error e => .error e

end Simple

/-! ## Instance counters (`InstanceCounter.hpp` and the counter classes of the programs) -/

/-- What happens to a tracked object. It is constructed by the constructor written in the
counter class (`construction`), or as a copy of another object (`copy`): no counter class
declares a copy constructor, so that the one the language generates is used, for a move as
well since the classes declare a destructor. Or it is destroyed (`destruction`), whichever
way it was constructed. -/
inductive Event where
  | construction
  | copy
  | destruction
deriving DecidableEq, Repr

/-- The increment `++n` of an `int`: undefined on `INT_MAX`. -/
def incr (n : Int) : Except Err Int :=
  if n < INT_MAX then .ok (n + 1) else .error .undefined_behaviour

/-- The two static counters of `CompteurInstances<T>`, for one tracked type `T`. -/
structure CompteurInstances where
  compteurCreation : Int
  compteurDestruction : Int
deriving DecidableEq, Repr

namespace CompteurInstances

/-- The initial values of the static counters. -/
def init : CompteurInstances := ⟨0, 0⟩

/-- The constructor `CompteurInstances()`: `++compteurCreation`. -/
def construct (s : CompteurInstances) : Except Err CompteurInstances :=
  match incr s.compteurCreation with
  | .ok n => .ok ⟨n, s.compteurDestruction⟩
  | .error e => .error e

/-- The copy constructor of `CompteurInstances<T>`, generated by the language: the class has
no non-static member to copy and the static counters are not touched. -/
def copy (s : CompteurInstances) : Except Err CompteurInstances := .ok s

/-- The destructor: `++compteurDestruction`. -/
def destruct (s : CompteurInstances) : Except Err CompteurInstances :=
  match incr s.compteurDestruction with
  | .ok n => .ok ⟨s.compteurCreation, n⟩
  | .error e => .error e

/-- The query `instancesExistantes()`: the subtraction of two `int`, undefined when the
difference is not an `int`. -/
def instancesExistantes (s : CompteurInstances) : Except Err Int :=
  if -INT_MAX - 1 ≤ s.compteurCreation - s.compteurDestruction
      ∧ s.compteurCreation - s.compteurDestruction ≤ INT_MAX then
    .ok (s.compteurCreation - s.compteurDestruction)
  else .error .undefined_behaviour

/-- The query `totalCreations()`. -/
def totalCreations (s : CompteurInstances) : Int := s.compteurCreation

/-- The query `totalDestructions()`. -/
def totalDestructions (s : CompteurInstances) : Int := s.compteurDestruction

/-- One construction, copy or destruction of a tracked object. -/
def step (s : CompteurInstances) : Event → Except Err CompteurInstances
  | .construction => s.construct
  | .copy => s.copy
  | .destruction => s.destruct

/-- A sequence of constructions, copies and destructions, in order. -/
def run : List Event → CompteurInstances → Except Err CompteurInstances
  | [], s => .ok s
  | ev :: evs, s =>
    match s.step ev with
    | .ok t => run evs t
    | .error e => .error e

end CompteurInstances

/-- The two static counters of `InstanceCounter<T>` (and of `MatrixAddCounter`), for one
tracked type. -/
structure InstanceCounter where
  created_count_ : Int
  deleted_count_ : Int
deriving DecidableEq, Repr

namespace InstanceCounter

/-- The initial values of the static counters. -/
def init : InstanceCounter := ⟨0, 0⟩

/-- The constructor `InstanceCounter()`: `++created_count_`. -/
def construct (s : InstanceCounter) : Except Err InstanceCounter :=
  match incr s.created_count_ with
  | .ok n => .ok ⟨n, s.deleted_count_⟩
  | .error e => .error e

/-- The copy constructor of `InstanceCounter<T>` (and of `MatrixAddCounter`), generated by
the language: the class has no non-static member to copy and the static counters are not
touched. -/
def copy (s : InstanceCounter) : Except Err InstanceCounter := .ok s

/-- The destructor: `++deleted_count_`. -/
def destruct (s : InstanceCounter) : Except Err InstanceCounter :=
  match incr s.deleted_count_ with
  | .ok n => .ok ⟨s.created_count_, n⟩
  | .error e => .error e

/-- The query `created_count()`. -/
def created_count (s : InstanceCounter) : Int := s.created_count_

/-- The query `deleted_count()`. -/
def deleted_count (s : InstanceCounter) : Int := s.deleted_count_

/-- One construction, copy or destruction of a tracked object. -/
def step (s : InstanceCounter) : Event → Except Err InstanceCounter
  | .construction => s.construct
  | .copy => s.copy
  | .destruction => s.destruct

/-- A sequence of constructions, copies and destructions, in order. -/
def run : List Event → InstanceCounter → Except Err InstanceCounter
  | [], s => .ok s
  | ev :: evs, s =>
    match s.step ev with
    | .ok t => run evs t
    | .error e => .error e

end InstanceCounter

/-! ## The sums of the expression classes -/

/-- The method `MatrixExpr<Derived>::sum()` of `MatrixCRTP.cpp`: two nested loops over
`rows_` and `cols_` adding `(*this)(i, j)` to `total`. -/
def CRTP.MatrixExpr.sum (e : CRTP.MatrixExpr) : Except Err Val :=
  forLoop (fun i t1 => forLoop (fun j t2 =>
      match e.call i j with
      | .ok x => .ok (t2 + x)
      | .error er => .error er) e.cols 0 t1) e.rows 0 0

/-- The base-class method `MatrixExpr::sum()` of `MatrixVirtual.cpp`, the one a `MatrixAdd`
inherits: two nested loops over `rows_` and `cols_` adding `(*this)(i, j)` to `total`. -/
def Virtual.MatrixExpr.sum (e : Virtual.MatrixExpr) : Except Err Val :=
  forLoop (fun i t1 => forLoop (fun j t2 =>
      match e.call i j with
      | .ok x => .ok (t2 + x)
      | .error er => .error er) e.cols 0 t1) e.rows 0 0

/-! ## The statements of the programs, with their counters -/

/-- The static counters of a lazy program: the pair of `InstanceCounter<Matrix>` and the
pair of the addition nodes (`MatrixAddCounter` in `MatrixCRTP.cpp`,
`InstanceCounter<MatrixAdd>` in `MatrixVirtual.cpp`). Each pair is a pair of static
members of its own class. -/
structure Counters where
  matrix : InstanceCounter
  matrixAdd : InstanceCounter
deriving DecidableEq, Repr

namespace Counters

/-- The counters when the program starts. -/
def init : Counters := ⟨InstanceCounter.init, InstanceCounter.init⟩

/-- The construction of a `Matrix`: the constructor of its base `InstanceCounter<Matrix>`
runs. -/
def constructMatrix (s : Counters) : Except Err Counters :=
  match s.matrix.construct with
  | .ok t => .ok ⟨t, s.matrixAdd⟩
  | .error e => .error e

/-- The destruction of a `Matrix`: the destructor of its base `InstanceCounter<Matrix>`
runs. -/
def destructMatrix (s : Counters) : Except Err Counters :=
  match s.matrix.destruct with
  | .ok t => .ok ⟨t, s.matrixAdd⟩
  | .error e => .error e

/-- The construction of an addition node: the constructor of its counting base runs. -/
def constructMatrixAdd (s : Counters) : Except Err Counters :=
  match s.matrixAdd.construct with
  | .ok t => .ok ⟨s.matrix, t⟩
  | .error e => .error e

/-- The destruction of an addition node: the destructor of its counting base runs. -/
def destructMatrixAdd (s : Counters) : Except Err Counters :=
  match s.matrixAdd.destruct with
  | .ok t => .ok ⟨s.matrix, t⟩
  | .error e => .error e

/-- The destruction of `n` addition nodes, the temporaries of a full expression. -/
def destructNodes : Nat → Counters → Except Err Counters
  | 0, s => .ok s
  | n + 1, s =>
    match s.destructMatrixAdd with
    | .ok t => destructNodes n t
    | .error e => .error e

end Counters

/-- What a lazy program prints, the times apart: the three sums and the four counters. -/
structure LazyOutput where
  res1_sum : Val
  res2_sum : Val
  res3_sum : Val
  matrix_created : Int
  matrix_deleted : Int
  matrixAdd_created : Int
  matrixAdd_deleted : Int
deriving DecidableEq, Repr

/-- What the eager program prints, the times apart: the three sums and the two counters. -/
structure EagerOutput where
  res1_sum : Val
  res2_sum : Val
  res3_sum : Val
  matrix_created : Int
  matrix_deleted : Int
deriving DecidableEq, Repr

namespace CRTP

/-- The definition `Matrix m{rows, cols, init_val}`, with the counters. -/
def Matrix.new_counted (rows cols : Nat) (init_val : Val) (s : Counters) :
    Except Err (Matrix × Counters) :=
  match s.constructMatrix with
  | .ok t => .ok (Matrix.new rows cols init_val, t)
  | .error e => .error e

/-- The function `operator+` of `MatrixCRTP.cpp`, with the counters: the node it returns is
constructed once, in place. -/
def operator_plus_counted (left right : MatrixExpr) (s : Counters) :
    Except Err (MatrixExpr × Counters) :=
  match s.constructMatrixAdd with
  | .ok t => .ok (operator_plus left right, t)
  | .error e => .error e

/-- The expression `e + b1 + b2 + ...`, built from the left, with the counters. -/
def chain_counted (e : MatrixExpr) : List Matrix → Counters → Except Err (MatrixExpr × Counters)
  | [], s => .ok (e, s)
  | b :: bs, s =>
    match operator_plus_counted e (.matrix b) s with
    | .ok (e2, t) => chain_counted e2 bs t
    | .error er => .error er

/-- The constructor `Matrix(const MatrixExpr<Expr>& expr)`, with the counters: the base
`InstanceCounter<Matrix>` is constructed, then the buffer is filled. -/
def Matrix.ofExpr_counted (expr : MatrixExpr) (s : Counters) : Except Err (Matrix × Counters) :=
  match s.constructMatrix with
  | .error e => .error e
  | .ok t =>
    match Matrix.ofExpr expr with
    | .ok R => .ok (R, t)
    | .error e => .error e

/-- The statement `Matrix res{ a + b + b1 + b2 + ... };` of `MatrixCRTP.cpp`: the nodes are
built, `res` is constructed from the expression, and the nodes, temporaries of the full
expression, are destroyed when the statement ends. -/
def declare (a b : Matrix) (bs : List Matrix) (s : Counters) : Except Err (Matrix × Counters) :=
  match chain_counted (.matrix a) (b :: bs) s with
  | .error e => .error e
  | .ok (e, t) =>
    match Matrix.ofExpr_counted e t with
    | .error er => .error er
    | .ok (R, u) =>
      match u.destructNodes (bs.length + 1) with
      | .ok w => .ok (R, w)
      | .error er => .error er

/-- The body of `main` in `MatrixCRTP.cpp`, the clock apart, for a value `size` of its
constant and a fill `fill` of `m1`. -/
def main_with (size : Nat) (fill : Val) : Except Err LazyOutput :=
  match Matrix.new_counted size size fill Counters.init with
  | .error e => .error e
  | .ok (m1, s0) =>
    match declare m1 m1 [] s0 with
    | .error e => .error e
    | .ok (res1, s1) =>
      match declare m1 m1 [m1, m1] s1 with
      | .error e => .error e
      | .ok (res2, s2) =>
        match declare m1 m1 [m1, m1, m1, m1] s2 with
        | .error e => .error e
        | .ok (res3, s3) =>
          .ok ⟨res1.sum, res2.sum, res3.sum, s3.matrix.created_count, s3.matrix.deleted_count,
            s3.matrixAdd.created_count, s3.matrixAdd.deleted_count⟩

/-- The function `main` of `MatrixCRTP.cpp`: `size` is `10000` and `m1` is filled with `1.e-5`. -/
def main : Except Err LazyOutput := main_with 10000 (1 / 100000)

end CRTP

namespace Virtual

/-- The definition `Matrix m{rows, cols, init_val}`, with the counters. -/
def Matrix.new_counted (rows cols : Nat) (init_val : Val) (s : Counters) :
    Except Err (Matrix × Counters) :=
  match s.constructMatrix with
  | .ok t => .ok (Matrix.new rows cols init_val, t)
  | .error e => .error e

/-- The function `operator+` of `MatrixVirtual.cpp`, with the counters: the node it returns
is constructed once, in place. -/
def operator_plus_counted (left right : MatrixExpr) (s : Counters) :
    Except Err (MatrixExpr × Counters) :=
  match s.constructMatrixAdd with
  | .ok t => .ok (operator_plus left right, t)
  | .error e => .error e

/-- The expression `e + b1 + b2 + ...`, built from the left, with the counters. -/
def chain_counted (e : MatrixExpr) : List Matrix → Counters → Except Err (MatrixExpr × Counters)
  | [], s => .ok (e, s)
  | b :: bs, s =>
    match operator_plus_counted e (.matrix b) s with
    | .ok (e2, t) => chain_counted e2 bs t
    | .error er => .error er

/-- The constructor `Matrix(const MatrixExpr& expr)`, with the counters: the base
`InstanceCounter<Matrix>` is constructed, then the buffer is filled. -/
def Matrix.ofExpr_counted (expr : MatrixExpr) (s : Counters) : Except Err (Matrix × Counters) :=
  match s.constructMatrix with
  | .error e => .error e
  | .ok t =>
    match Matrix.ofExpr expr with
    | .ok R => .ok (R, t)
    | .error e => .error e

/-- The statement `Matrix res{ a + b + b1 + b2 + ... };` of `MatrixVirtual.cpp`: the nodes
are built, `res` is constructed from the expression, and the nodes, temporaries of the full
expression, are destroyed when the statement ends. -/
def declare (a b : Matrix) (bs : List Matrix) (s : Counters) : Except Err (Matrix × Counters) :=
  match chain_counted (.matrix a) (b :: bs) s with
  | .error e => .error e
  | .ok (e, t) =>
    match Matrix.ofExpr_counted e t with
    | .error er => .error er
    | .ok (R, u) =>
      match u.destructNodes (bs.length + 1) with
      | .ok w => .ok (R, w)
      | .error er => .error er

/-- The body of `main` in `MatrixVirtual.cpp`, the clock apart, for a value `size` of its
constant and a fill `fill` of `m1`. -/
def main_with (size : Nat) (fill : Val) : Except Err LazyOutput :=
  match Matrix.new_counted size size fill Counters.init with
  | .error e => .error e
  | .ok (m1, s0) =>
    match declare m1 m1 [] s0 with
    | .error e => .error e
    | .ok (res1, s1) =>
      match declare m1 m1 [m1, m1] s1 with
      | .error e => .error e
      | .ok (res2, s2) =>
        match declare m1 m1 [m1, m1, m1, m1] s2 with
        | .error e => .error e
        | .ok (res3, s3) =>
          .ok ⟨res1.sum, res2.sum, res3.sum, s3.matrix.created_count, s3.matrix.deleted_count,
            s3.matrixAdd.created_count, s3.matrixAdd.deleted_count⟩

/-- The function `main` of `MatrixVirtual.cpp`: `size` is `10000` and `m1` is filled with `1.e-5`. -/
def main : Except Err LazyOutput := main_with 10000 (1 / 100000)

end Virtual

namespace Simple

/-- The definition `Matrix m{rows, cols, init_val}`, with the counters of
`InstanceCounter<Matrix>`. -/
def Matrix.new_counted (rows cols : Nat) (init_val : Val) (s : InstanceCounter) :
    Except Err (Matrix × InstanceCounter) :=
  match s.construct with
  | .ok t => .ok (Matrix.new rows cols init_val, t)
  | .error e => .error e

/-- The function `operator+` of `MatrixSimple.cpp`, with the counters: after the shape
check the local `result` is constructed and filled; it is returned in place, with neither
a copy nor a destruction, as in the recorded run. -/
def operator_plus_counted (a b : Matrix) (s : InstanceCounter) :
    Except Err (Matrix × InstanceCounter) :=
  if a.rows ≠ b.rows ∨ a.cols ≠ b.cols then .error .invalid_argument
  else
    match s.construct with
    | .error e => .error e
    | .ok t =>
      match plusLoops ⟨a, b, Matrix.newDefault a.rows a.cols⟩ with
      | .ok st => .ok (st.result, t)
      | .error e => .error e

/-- The additions `cur + b1 + b2 + ...`, evaluated from the left, with the counters:
every intermediate result joins the temporaries `temps` of the full expression. -/
def chain_counted (cur : Matrix) (temps : List Matrix) :
    List Matrix → InstanceCounter → Except Err (Matrix × List Matrix × InstanceCounter)
  | [], s => .ok (cur, temps, s)
  | b :: bs, s =>
    match operator_plus_counted cur b s with
    | .ok (r, t) => chain_counted r (temps ++ [cur]) bs t
    | .error e => .error e

/-- The statement `Matrix res{ a + b + b1 + b2 + ... };` of `MatrixSimple.cpp`: the
additions are evaluated, the last result is `res` itself, and the temporaries are
destroyed when the statement ends. The statement gives `res`, the temporaries it had,
and the counters. -/
def declare (a b : Matrix) (bs : List Matrix) (s : InstanceCounter) :
    Except Err (Matrix × List Matrix × InstanceCounter) :=
  match operator_plus_counted a b s with
  | .error e => .error e
  | .ok (r1, t) =>
    match chain_counted r1 [] bs t with
    | .error e => .error e
    | .ok (res, temps, u) =>
      match InstanceCounter.run (List.replicate temps.length .destruction) u with
      | .ok w => .ok (res, temps, w)
      | .error e => .error e

/-- The body of `main` in `MatrixSimple.cpp`, the clock apart, for a value `size` of its
constant and a fill `fill` of `m1`. -/
def main_with (size : Nat) (fill : Val) : Except Err EagerOutput :=
  match Matrix.new_counted size size fill InstanceCounter.init with
  | .error e => .error e
  | .ok (m1, s0) =>
    match declare m1 m1 [] s0 with
    | .error e => .error e
    | .ok (res1, _, s1) =>
      match declare m1 m1 [m1, m1] s1 with
      | .error e => .error e
      | .ok (res2, _, s2) =>
        match declare m1 m1 [m1, m1, m1, m1] s2 with
        | .error e => .error e
        | .ok (res3, _, s3) =>
          .ok ⟨res1.sum, res2.sum, res3.sum, s3.created_count, s3.deleted_count⟩

/-- The function `main` of `MatrixSimple.cpp`: `size` is `10000` and `m1` is filled with
`1.e-5`. -/
def main : Except Err EagerOutput := main_with 10000 (1 / 100000)

end Simple

/-! ## Proof-side notions -/

/-- The entry of row `i` and column `j` of the buffer, in row-major order with exact
indices; `0` past the end. -/
def Matrix.elem (m : Matrix) (i j : Nat) : Val := m.data_.getD (i * m.cols_ + j) 0

/-- A matrix of shape `(r, c)` whose buffer has the `r * c` entries of that shape. -/
def Matrix.Shaped (r c : Nat) (m : Matrix) : Prop :=
  m.rows_ = r ∧ m.cols_ = c ∧ m.data_.length = r * c

/-- How a computation ends: `P` holds of its result, or `Q` of its failure. -/
def Ends {α : Type} (x : Except Err α) (P : α → Prop) (Q : Err → Prop) : Prop :=
  match x with
  | .ok a => P a
  | .error e => Q e

/-- The entries below position `k` of the buffer `d` are those given by `g`. -/
def FilledTo (g : Nat → Nat → Val) (c k : Nat) (d : List Val) : Prop :=
  ∀ p, p < k → d[p]? = some (g (p / c) (p % c))

/-- An expression of `MatrixCRTP.cpp` all of whose matrices have the shape `(r, c)`. -/
def CRTP.MatrixExpr.Over (r c : Nat) : CRTP.MatrixExpr → Prop
  | .matrix m => m.HasShape r c
  | .add left_ right_ => Over r c left_ ∧ Over r c right_

/-- The exact value of an expression of `MatrixCRTP.cpp` at `(i, j)`: the sum of the
entries of its matrices there, in the order of the tree. -/
def CRTP.MatrixExpr.val : CRTP.MatrixExpr → Nat → Nat → Val
  | .matrix m, i, j => m.elem i j
  | .add left_ right_, i, j => val left_ i j + val right_ i j

/-- An expression of `MatrixVirtual.cpp` all of whose matrices have the shape `(r, c)`. -/
def Virtual.MatrixExpr.Over (r c : Nat) : Virtual.MatrixExpr → Prop
  | .matrix m => m.HasShape r c
  | .add left_ right_ => Over r c left_ ∧ Over r c right_

/-- The exact value of an expression of `MatrixVirtual.cpp` at `(i, j)`: the sum of the
entries of its matrices there, in the order of the tree. -/
def Virtual.MatrixExpr.val : Virtual.MatrixExpr → Nat → Nat → Val
  | .matrix m, i, j => m.elem i j
  | .add left_ right_, i, j => val left_ i j + val right_ i j

/-- The exact value at `(i, j)` of the left-associated chain `a + b1 + b2 + ...`. -/
def chainVal (a : Matrix) (bs : List Matrix) (i j : Nat) : Val :=
  bs.foldl (fun acc b => acc + b.elem i j) (a.elem i j)

/-! ## Loops -/

theorem Ends.ok_iff {α : Type} (x : Except Err α) (P : α → Prop) :
    Ends x P (fun _ => False) ↔ ∃ a, x = .ok a ∧ P a := by
  cases x <;> simp [Ends]

theorem forLoop_rule {σ : Type} (body : Nat → σ → Except Err σ) (P : Nat → σ → Prop)
    (Q : Err → Prop) :
    ∀ (n i : Nat) (s : σ), P i s →
      (∀ k t, i ≤ k → k < i + n → P k t → Ends (body k t) (P (k + 1)) Q) →
      Ends (forLoop body n i s) (P (i + n)) Q := by
  intro n
  induction n with
  | zero => intro i s h _; simpa [forLoop, Ends] using h
  | succ n ih =>
    intro i s h step
    have h1 := step i s (Nat.le_refl i) (by omega) h
    unfold forLoop
    cases hb : body i s with
    | error e => rw [hb] at h1; simpa [Ends] using h1
    | ok t =>
      rw [hb] at h1
      have h2 := ih (i + 1) t h1 (fun k u hk hk2 hP => step k u (by omega) (by omega) hP)
      have e : i + 1 + n = i + (n + 1) := by omega
      rw [e] at h2
      exact h2

theorem nested_rule {σ : Type} (body : Nat → Nat → σ → Except Err σ) (cb : σ → Nat)
    (r c : Nat) (P : Nat → σ → Prop) (Q : Err → Prop)
    (hcb : ∀ k s, P k s → cb s = c)
    (step : ∀ i j s, i < r → j < c → P (i * c + j) s →
      Ends (body i j s) (P (i * c + j + 1)) Q)
    (s : σ) (h0 : P 0 s) :
    Ends (forLoop (fun i s1 => forLoop (fun j s2 => body i j s2) (cb s1) 0 s1) r 0 s)
      (P (r * c)) Q := by
  have h := forLoop_rule (fun i s1 => forLoop (fun j s2 => body i j s2) (cb s1) 0 s1)
    (fun i t => P (i * c) t) Q r 0 s (by simpa using h0) (by
      intro i t _ hi hP
      have hi2 : i < r := by omega
      have hP : P (i * c) t := hP
      show Ends (forLoop (fun j s2 => body i j s2) (cb t) 0 t) (P ((i + 1) * c)) Q
      rw [hcb _ _ hP]
      have h1 := forLoop_rule (fun j s2 => body i j s2) (fun j u => P (i * c + j) u) Q c 0 t
        (by simpa using hP) (by
          intro j u _ hj hPu
          exact step i j u hi2 (by omega) hPu)
      have e : i * c + (0 + c) = (i + 1) * c := by ring
      simp only [e] at h1
      exact h1)
  simpa using h

/-! ## Indices and buffers -/

theorem flat_lt {r c i j : Nat} (hi : i < r) (hj : j < c) : i * c + j < r * c := by
  have h1 : (i + 1) * c ≤ r * c := Nat.mul_le_mul_right c hi
  have h2 : (i + 1) * c = i * c + c := by ring
  omega

theorem flat_div {c i j : Nat} (hj : j < c) : (i * c + j) / c = i := by
  have hc : 0 < c := by omega
  rw [Nat.add_comm, Nat.add_mul_div_right _ _ hc, Nat.div_eq_of_lt hj]
  omega

theorem flat_mod {c i j : Nat} (hj : j < c) : (i * c + j) % c = j := by
  rw [Nat.add_comm, Nat.add_mul_mod_self_right, Nat.mod_eq_of_lt hj]

theorem u32_flat {r c i j : Nat} (hrc : r * c < 2 ^ 32) (hi : i < r) (hj : j < c) :
    u32 (u32 (i * c) + j) = i * c + j := by
  have h := flat_lt hi hj
  unfold u32
  rw [Nat.mod_eq_of_lt (by omega), Nat.mod_eq_of_lt (by omega)]

theorem vecGet_ok {v : List Val} {i : Nat} (h : i < v.length) :
    vecGet v i = .ok (v.getD i 0) := by
  simp [vecGet, List.getD, List.getElem?_eq_getElem h]

theorem vecGet_of_getElem? {v : List Val} {i : Nat} {x : Val} (h : v[i]? = some x) :
    vecGet v i = .ok x := by
  simp [vecGet, h]

theorem Matrix.index_flat {m : Matrix} {r c i j : Nat} (hm : m.Shaped r c)
    (hrc : r * c < 2 ^ 32) (hi : i < r) (hj : j < c) : m.index i j = i * c + j := by
  unfold Matrix.index
  rw [hm.2.1]
  exact u32_flat hrc hi hj

theorem Matrix.read_ok {m : Matrix} {r c i j : Nat} (hm : m.Shaped r c)
    (hrc : r * c < 2 ^ 32) (hi : i < r) (hj : j < c) :
    vecGet m.data_ (m.index i j) = .ok (m.elem i j) := by
  rw [Matrix.index_flat hm hrc hi hj, Matrix.elem, hm.2.1]
  exact vecGet_ok (by rw [hm.2.2]; exact flat_lt hi hj)

theorem FilledTo.step {g : Nat → Nat → Val} {r c i j : Nat} {d : List Val}
    (hi : i < r) (hj : j < c) (hlen : d.length = r * c) (h : FilledTo g c (i * c + j) d) :
    FilledTo g c (i * c + j + 1) (d.set (i * c + j) (g i j)) := by
  intro p hp
  by_cases hpk : p = i * c + j
  · subst hpk
    have hlt : i * c + j < d.length := by rw [hlen]; exact flat_lt hi hj
    rw [flat_div hj, flat_mod hj]
    simp [List.getElem?_set_self, hlt]
  · rw [List.getElem?_set_ne (fun e => hpk e.symm)]
    exact h p (by omega)

theorem FilledTo.elem {g : Nat → Nat → Val} {r c i j : Nat} {m : Matrix}
    (hm : m.Shaped r c) (h : FilledTo g c (r * c) m.data_) (hi : i < r) (hj : j < c) :
    m.elem i j = g i j := by
  have h1 := h (i * c + j) (flat_lt hi hj)
  rw [flat_div hj, flat_mod hj] at h1
  simp [Matrix.elem, hm.2.1, List.getD, h1]

/-- The two nested storing loops of the converting constructors: when the source `f`
gives `g i j` at every position of the shape `(r, c)` and `r * c` fits in `unsigned`, the
loops end well and leave a buffer of the same length holding `g`. -/
theorem store_loops (f : Nat → Nat → Except Err Val) (g : Nat → Nat → Val) (r c : Nat)
    (hrc : r * c < 2 ^ 32) (hf : ∀ i j, i < r → j < c → f i j = .ok (g i j))
    (d0 : List Val) (hlen : d0.length = r * c) :
    ∃ d, forLoop (fun i d1 => forLoop (fun j d2 =>
        match f i j with
        | .error e => .error e
        | .ok x => vecSet d2 (u32 (u32 (i * c) + j)) x) c 0 d1) r 0 d0 = .ok d
      ∧ d.length = r * c ∧ FilledTo g c (r * c) d := by
  have h := nested_rule (fun i j d2 =>
        match f i j with
        | .error e => .error e
        | .ok x => vecSet d2 (u32 (u32 (i * c) + j)) x) (fun _ => c) r c
      (fun k d => d.length = r * c ∧ FilledTo g c k d) (fun _ => False)
      (fun _ _ _ => rfl)
      (by
        intro i j d hi hj hP
        obtain ⟨hl, hfill⟩ := hP
        have hlt : i * c + j < d.length := by rw [hl]; exact flat_lt hi hj
        simp only [hf i j hi hj, u32_flat hrc hi hj, vecSet, hlt, if_true, Ends]
        exact ⟨by simp [hl], FilledTo.step hi hj hl hfill⟩)
      d0 ⟨hlen, fun p hp => absurd hp (Nat.not_lt_zero p)⟩
  exact (Ends.ok_iff _ _).1 h

theorem FilledTo.ext {g : Nat → Nat → Val} {c n : Nat} {d1 d2 : List Val}
    (h1 : FilledTo g c n d1) (h2 : FilledTo g c n d2) (l1 : d1.length = n)
    (l2 : d2.length = n) : d1 = d2 := by
  apply List.ext_getElem?
  intro p
  by_cases hp : p < n
  · rw [h1 p hp, h2 p hp]
  · rw [List.getElem?_eq_none (by omega), List.getElem?_eq_none (by omega)]

/-- The storing loops with their record: they write the positions `0`, `1`, ...,
`r * c - 1`, in this order, and leave the buffer the untraced loops leave. -/
theorem store_loops_traced (f : Nat → Nat → Except Err Val) (g : Nat → Nat → Val) (r c : Nat)
    (hrc : r * c < 2 ^ 32) (hf : ∀ i j, i < r → j < c → f i j = .ok (g i j))
    (d0 : List Val) (hlen : d0.length = r * c) :
    ∃ d, forLoop (fun i (s1 : List Val × List Nat) => forLoop (fun j s2 =>
        match (match f i j with
          | .error e => Except.error e
          | .ok x => vecSet s2.1 (u32 (u32 (i * c) + j)) x : Except Err (List Val)) with
        | .ok d => .ok (d, s2.2 ++ [u32 (u32 (i * c) + j)])
        | .error e => .error e) c 0 s1) r 0 (d0, []) = .ok (d, List.range (r * c))
      ∧ forLoop (fun i d1 => forLoop (fun j d2 =>
        match f i j with
        | .error e => .error e
        | .ok x => vecSet d2 (u32 (u32 (i * c) + j)) x) c 0 d1) r 0 d0 = .ok d
      ∧ d.length = r * c ∧ FilledTo g c (r * c) d := by
  have h := nested_rule (fun i j (s2 : List Val × List Nat) =>
        match (match f i j with
          | .error e => Except.error e
          | .ok x => vecSet s2.1 (u32 (u32 (i * c) + j)) x : Except Err (List Val)) with
        | .ok d => .ok (d, s2.2 ++ [u32 (u32 (i * c) + j)])
        | .error e => .error e) (fun _ => c) r c
      (fun k s => s.1.length = r * c ∧ FilledTo g c k s.1 ∧ s.2 = List.range k) (fun _ => False)
      (fun _ _ _ => rfl)
      (by
        intro i j s hi hj hP
        obtain ⟨hl, hfill, hlog⟩ := hP
        have hlt : i * c + j < s.1.length := by rw [hl]; exact flat_lt hi hj
        simp only [hf i j hi hj, u32_flat hrc hi hj, vecSet, hlt, if_true, Ends]
        exact ⟨by simp [hl], FilledTo.step hi hj hl hfill, by rw [hlog, List.range_succ]⟩)
      (d0, []) ⟨hlen, fun p hp => absurd hp (Nat.not_lt_zero p), by simp⟩
  obtain ⟨⟨d, l⟩, hs, hl, hfill, hlog⟩ := (Ends.ok_iff _ _).1 h
  obtain ⟨d2, hd2, hl2, hfill2⟩ := store_loops f g r c hrc hf d0 hlen
  have e : d2 = d := FilledTo.ext hfill2 hfill hl2 hl
  subst e
  simp only at hlog
  subst hlog
  exact ⟨d2, hs, hd2, hl2, hfill2⟩

theorem foldl_add_replicate (n : Nat) (x0 x : Val) :
    (List.replicate n x).foldl (fun acc y => acc + y) x0 = x0 + n * x := by
  induction n generalizing x0 with
  | zero => simp
  | succ n ih =>
    rw [List.replicate_succ, List.foldl_cons, ih]
    push_cast
    ring

theorem count_range_of_lt {n p : Nat} (h : p < n) : (List.range n).count p = 1 :=
  List.count_eq_one_of_mem (List.nodup_range n) (List.mem_range.2 h)

theorem chainVal_cons (a b : Matrix) (bs : List Matrix) (i j : Nat) (x : Val)
    (hx : x = a.elem i j + b.elem i j) :
    bs.foldl (fun acc m => acc + m.elem i j) x = chainVal a (b :: bs) i j := by
  simp [chainVal, hx]

theorem chainVal_replicate (m : Matrix) (n : Nat) (i j : Nat) :
    chainVal m (List.replicate n m) i j = (n + 1) * m.elem i j := by
  have h : ∀ (k : Nat) (x0 : Val),
      (List.replicate k m).foldl (fun acc b => acc + b.elem i j) x0 = x0 + k * m.elem i j := by
    intro k
    induction k with
    | zero => intro x0; simp
    | succ k ih =>
      intro x0
      rw [List.replicate_succ, List.foldl_cons, ih]
      push_cast
      ring
  rw [chainVal, h]
  ring

/-! ## Shapes -/

theorem u32_of_lt {n : Nat} (h : n < 2 ^ 32) : u32 n = n := Nat.mod_eq_of_lt h

theorem hasShape_shaped {m : Matrix} {r c : Nat} (h : m.HasShape r c)
    (hrc : r * c < 2 ^ 32) : m.Shaped r c := by
  obtain ⟨⟨_, _, hl⟩, hr, hc⟩ := h
  subst hr; subst hc
  exact ⟨rfl, rfl, by rw [hl, u32_of_lt hrc]⟩

theorem hasShape_rows_lt {m : Matrix} {r c : Nat} (h : m.HasShape r c) : r < 2 ^ 32 := by
  obtain ⟨⟨h1, _, _⟩, hr, _⟩ := h
  omega

theorem hasShape_cols_lt {m : Matrix} {r c : Nat} (h : m.HasShape r c) : c < 2 ^ 32 := by
  obtain ⟨⟨_, h2, _⟩, _, hc⟩ := h
  omega

theorem shaped_hasShape {m : Matrix} {r c : Nat} (h : m.Shaped r c)
    (hr : r < 2 ^ 32) (hc : c < 2 ^ 32) (hrc : r * c < 2 ^ 32) : m.HasShape r c := by
  obtain ⟨h1, h2, h3⟩ := h
  refine ⟨⟨by omega, by omega, ?_⟩, h1, h2⟩
  rw [h1, h2, h3, u32_of_lt hrc]

theorem Matrix.new_hasShape (r c : Nat) (v : Val) (hr : r < 2 ^ 32) (hc : c < 2 ^ 32) :
    (Matrix.new r c v).HasShape r c :=
  ⟨⟨hr, hc, by simp [Matrix.new]⟩, rfl, rfl⟩

/-! ## The CRTP variant -/

namespace CRTP

theorem over_rows_eq_crtp {r c : Nat} : ∀ {e : MatrixExpr}, e.Over r c → e.rows = r
  | .matrix _, h => h.2.1
  | .add l _, h => show l.rows = r from over_rows_eq_crtp h.1

theorem over_cols_eq_crtp {r c : Nat} : ∀ {e : MatrixExpr}, e.Over r c → e.cols = c
  | .matrix _, h => h.2.2
  | .add l _, h => show l.cols = c from over_cols_eq_crtp h.1

theorem over_rows_lt_crtp {r c : Nat} : ∀ {e : MatrixExpr}, e.Over r c → r < 2 ^ 32
  | .matrix _, h => hasShape_rows_lt h
  | .add _ _, h => over_rows_lt_crtp h.1

theorem over_cols_lt_crtp {r c : Nat} : ∀ {e : MatrixExpr}, e.Over r c → c < 2 ^ 32
  | .matrix _, h => hasShape_cols_lt h
  | .add _ _, h => over_cols_lt_crtp h.1

theorem expr_call_ok_crtp {r c : Nat} (hrc : r * c < 2 ^ 32) {i j : Nat} (hi : i < r)
    (hj : j < c) : ∀ {e : MatrixExpr}, e.Over r c → e.call i j = .ok (e.val i j)
  | .matrix m, h => by
    simpa [MatrixExpr.call, MatrixExpr.val] using Matrix.read_ok (hasShape_shaped h hrc) hrc hi hj
  | .add l r2, h => by
    simp [MatrixExpr.call, MatrixExpr.val, expr_call_ok_crtp hrc hi hj h.1,
      expr_call_ok_crtp hrc hi hj h.2]

theorem ofExpr_ok_crtp {r c : Nat} (hrc : r * c < 2 ^ 32) {e : MatrixExpr}
    (h : e.Over r c) :
    ∃ R, Matrix.ofExpr e = .ok R ∧ R.HasShape r c
      ∧ ∀ i j, i < r → j < c → R.elem i j = e.val i j := by
  obtain ⟨d, hd, hl, hfill⟩ := store_loops (fun i j => e.call i j) e.val r c hrc
    (fun i j hi hj => expr_call_ok_crtp hrc hi hj h) (List.replicate (u32 (r * c)) 0)
    (by simp [u32_of_lt hrc])
  have hS : Matrix.Shaped r c ⟨r, c, d⟩ := ⟨rfl, rfl, hl⟩
  refine ⟨⟨r, c, d⟩, ?_, shaped_hasShape hS (over_rows_lt_crtp h) (over_cols_lt_crtp h) hrc, ?_⟩
  · unfold Matrix.ofExpr storeBody
    rw [(over_rows_eq_crtp h), (over_cols_eq_crtp h), hd]
  · intro i j hi hj
    exact FilledTo.elem hS hfill hi hj

end CRTP

/-! ## The virtual-dispatch variant -/

namespace Virtual

theorem over_rows_eq_virtual {r c : Nat} : ∀ {e : MatrixExpr}, e.Over r c → e.rows = r
  | .matrix _, h => h.2.1
  | .add l _, h => show l.rows = r from over_rows_eq_virtual h.1

theorem over_cols_eq_virtual {r c : Nat} : ∀ {e : MatrixExpr}, e.Over r c → e.cols = c
  | .matrix _, h => h.2.2
  | .add l _, h => show l.cols = c from over_cols_eq_virtual h.1

theorem over_rows_lt_virtual {r c : Nat} : ∀ {e : MatrixExpr}, e.Over r c → r < 2 ^ 32
  | .matrix _, h => hasShape_rows_lt h
  | .add _ _, h => over_rows_lt_virtual h.1

theorem over_cols_lt_virtual {r c : Nat} : ∀ {e : MatrixExpr}, e.Over r c → c < 2 ^ 32
  | .matrix _, h => hasShape_cols_lt h
  | .add _ _, h => over_cols_lt_virtual h.1

theorem expr_call_ok_virtual {r c : Nat} (hrc : r * c < 2 ^ 32) {i j : Nat} (hi : i < r)
    (hj : j < c) : ∀ {e : MatrixExpr}, e.Over r c → e.call i j = .ok (e.val i j)
  | .matrix m, h => by
    simpa [MatrixExpr.call, MatrixExpr.val] using Matrix.read_ok (hasShape_shaped h hrc) hrc hi hj
  | .add l r2, h => by
    simp [MatrixExpr.call, MatrixExpr.val, expr_call_ok_virtual hrc hi hj h.1,
      expr_call_ok_virtual hrc hi hj h.2]

theorem ofExpr_ok_virtual {r c : Nat} (hrc : r * c < 2 ^ 32) {e : MatrixExpr}
    (h : e.Over r c) :
    ∃ R, Matrix.ofExpr e = .ok R ∧ R.HasShape r c
      ∧ ∀ i j, i < r → j < c → R.elem i j = e.val i j := by
  obtain ⟨d, hd, hl, hfill⟩ := store_loops (fun i j => e.call i j) e.val r c hrc
    (fun i j hi hj => expr_call_ok_virtual hrc hi hj h) (List.replicate (u32 (r * c)) 0)
    (by simp [u32_of_lt hrc])
  have hS : Matrix.Shaped r c ⟨r, c, d⟩ := ⟨rfl, rfl, hl⟩
  refine ⟨⟨r, c, d⟩, ?_, shaped_hasShape hS (over_rows_lt_virtual h) (over_cols_lt_virtual h) hrc, ?_⟩
  · unfold Matrix.ofExpr storeBody
    simp only [(over_rows_eq_virtual h), (over_cols_eq_virtual h), hd]
  · intro i j hi hj
    exact FilledTo.elem hS hfill hi hj

end Virtual

/-! ## The eager variant -/

namespace Simple

theorem Matrix.get_ok {m : Matrix} {r c i j : Nat} (hm : m.Shaped r c)
    (hrc : r * c < 2 ^ 32) (hi : i < r) (hj : j < c) :
    Matrix.get m i j = .ok (m.elem i j) := by
  have h1 : ¬ (i ≥ m.rows_ ∨ j ≥ m.cols_) := by rw [hm.1, hm.2.1]; omega
  simp only [Matrix.get, h1, if_false]
  exact Matrix.read_ok hm hrc hi hj

theorem Matrix.ref_ok {m : Matrix} {r c i j : Nat} (hm : m.Shaped r c)
    (hrc : r * c < 2 ^ 32) (hi : i < r) (hj : j < c) :
    Matrix.ref m i j = .ok (i * c + j) := by
  have h1 : ¬ (i ≥ m.rows_ ∨ j ≥ m.cols_) := by rw [hm.1, hm.2.1]; omega
  have h2 : i * c + j < m.data_.length := by rw [hm.2.2]; exact flat_lt hi hj
  simp only [Matrix.ref, h1, if_false, Matrix.index_flat hm hrc hi hj, h2, if_true]

theorem Matrix.assign_ok {m : Matrix} {r c i j : Nat} (hm : m.Shaped r c)
    (hrc : r * c < 2 ^ 32) (hi : i < r) (hj : j < c) (x : Val) :
    Matrix.assign m i j x = .ok ⟨m.rows_, m.cols_, m.data_.set (i * c + j) x⟩ := by
  simp only [Matrix.assign, Matrix.ref_ok hm hrc hi hj]

theorem operator_plus_state_ok {a b : Matrix} {r c : Nat} (ha : a.HasShape r c)
    (hb : b.HasShape r c) (hrc : r * c < 2 ^ 32) :
    ∃ s, operator_plus_state a b = .ok s ∧ s.a = a ∧ s.b = b ∧ s.result.HasShape r c
      ∧ ∀ i j, i < r → j < c → s.result.elem i j = a.elem i j + b.elem i j := by
  have hsa := hasShape_shaped ha hrc
  have hsb := hasShape_shaped hb hrc
  have h := nested_rule plusBody (fun s => s.a.cols) r c
      (fun k s => s.a = a ∧ s.b = b ∧ s.result.Shaped r c
        ∧ FilledTo (fun i j => a.elem i j + b.elem i j) c k s.result.data_)
      (fun _ => False)
      (by intro k s hP; show s.a.cols = c; rw [hP.1]; exact hsa.2.1)
      (by
        intro i j s hi hj hP
        obtain ⟨h1, h2, h3, h4⟩ := hP
        simp only [plusBody, h1, h2, Matrix.get_ok hsa hrc hi hj, Matrix.get_ok hsb hrc hi hj,
          Matrix.assign_ok h3 hrc hi hj, Ends]
        refine ⟨trivial, trivial, ⟨h3.1, h3.2.1, by simp [h3.2.2]⟩, ?_⟩
        exact @FilledTo.step (fun i j => a.elem i j + b.elem i j) r c i j _ hi hj h3.2.2 h4)
      ⟨a, b, Matrix.newDefault a.rows a.cols⟩
      ⟨rfl, rfl, ⟨hsa.1, hsa.2.1, by
        simp [Matrix.newDefault, Matrix.new, Matrix.rows, Matrix.cols, hsa.1, hsa.2.1,
          u32_of_lt hrc]⟩,
        fun p hp => absurd hp (Nat.not_lt_zero p)⟩
  obtain ⟨s, hs, h1, h2, h3, h4⟩ := (Ends.ok_iff _ _).1 h
  refine ⟨s, ?_, h1, h2, shaped_hasShape h3 (hasShape_rows_lt ha) (hasShape_cols_lt ha) hrc, ?_⟩
  · have hne : ¬ (a.rows ≠ b.rows ∨ a.cols ≠ b.cols) := by
      simp [Matrix.rows, Matrix.cols, hsa.1, hsa.2.1, hsb.1, hsb.2.1]
    simp only [operator_plus_state, hne, if_false, plusLoops]
    have e : a.rows = r := hsa.1
    rw [← e] at hs
    exact hs
  · intro i j hi hj
    exact FilledTo.elem h3 h4 hi hj

theorem operator_plus_ok {a b : Matrix} {r c : Nat} (ha : a.HasShape r c)
    (hb : b.HasShape r c) (hrc : r * c < 2 ^ 32) :
    ∃ R, operator_plus a b = .ok R ∧ R.HasShape r c
      ∧ ∀ i j, i < r → j < c → R.elem i j = a.elem i j + b.elem i j := by
  obtain ⟨s, hs, _, _, h3, h4⟩ := operator_plus_state_ok ha hb hrc
  exact ⟨s.result, by simp [operator_plus, hs], h3, h4⟩

end Simple

/-! ## Materialisation with its record, and chains -/

namespace CRTP

theorem ofExprTraced_ok_crtp {r c : Nat} (hrc : r * c < 2 ^ 32) {e : MatrixExpr}
    (h : e.Over r c) :
    ∃ R, Matrix.ofExpr e = .ok R ∧ Matrix.ofExprTraced e = .ok (R, List.range (r * c))
      ∧ R.HasShape r c ∧ ∀ i j, i < r → j < c → R.elem i j = e.val i j := by
  obtain ⟨d, hd, hd2, hl, hfill⟩ := store_loops_traced (fun i j => e.call i j) e.val r c hrc
    (fun i j hi hj => expr_call_ok_crtp hrc hi hj h) (List.replicate (u32 (r * c)) 0)
    (by simp [u32_of_lt hrc])
  have hS : Matrix.Shaped r c ⟨r, c, d⟩ := ⟨rfl, rfl, hl⟩
  refine ⟨⟨r, c, d⟩, ?_, ?_, shaped_hasShape hS (over_rows_lt_crtp h) (over_cols_lt_crtp h) hrc, ?_⟩
  · unfold Matrix.ofExpr storeBody
    simp only [(over_rows_eq_crtp h), (over_cols_eq_crtp h), hd2]
  · unfold Matrix.ofExprTraced storeBodyTraced storeBody
    simp only [(over_rows_eq_crtp h), (over_cols_eq_crtp h), hd]
  · intro i j hi hj
    exact FilledTo.elem hS hfill hi hj

theorem matrix_call_ok_crtp {r c : Nat} (hrc : r * c < 2 ^ 32) {R : Matrix} (h : R.HasShape r c)
    {i j : Nat} (hi : i < r) (hj : j < c) :
    (MatrixExpr.matrix R).call i j = .ok (R.elem i j) :=
  expr_call_ok_crtp hrc hi hj (show (MatrixExpr.matrix R).Over r c from h)

theorem foldl_over_crtp {r c : Nat} : ∀ (bs : List Matrix) (e : MatrixExpr), e.Over r c →
    (∀ b ∈ bs, b.HasShape r c) →
    (bs.foldl (fun e b => operator_plus e (.matrix b)) e).Over r c
  | [], _, he, _ => he
  | b :: bs, e, he, hbs => by
    rw [List.foldl_cons]
    exact foldl_over_crtp bs _ ⟨he, hbs b (List.mem_cons_self b bs)⟩
      (fun x hx => hbs x (List.mem_cons_of_mem b hx))

theorem foldl_val_crtp (i j : Nat) : ∀ (bs : List Matrix) (e : MatrixExpr),
    (bs.foldl (fun e b => operator_plus e (.matrix b)) e).val i j
      = bs.foldl (fun acc b => acc + b.elem i j) (e.val i j)
  | [], _ => rfl
  | b :: bs, e => by
    rw [List.foldl_cons, List.foldl_cons, foldl_val_crtp i j bs]
    rfl

theorem chain_over_crtp {r c : Nat} {a : Matrix} {bs : List Matrix} (ha : a.HasShape r c)
    (hbs : ∀ b ∈ bs, b.HasShape r c) : (chain a bs).Over r c :=
  foldl_over_crtp bs (.matrix a) ha hbs

theorem chain_val_crtp (a : Matrix) (bs : List Matrix) (i j : Nat) :
    (chain a bs).val i j = chainVal a bs i j :=
  foldl_val_crtp i j bs (.matrix a)

/-- The materialised chain: a matrix of the common shape holding the exact sums. -/
theorem chain_ok_crtp {r c : Nat} (hrc : r * c < 2 ^ 32) {a : Matrix} {bs : List Matrix}
    (ha : a.HasShape r c) (hbs : ∀ b ∈ bs, b.HasShape r c) :
    ∃ R, Matrix.ofExpr (chain a bs) = .ok R ∧ R.HasShape r c
      ∧ ∀ i j, i < r → j < c → (MatrixExpr.matrix R).call i j = .ok (chainVal a bs i j) := by
  obtain ⟨R, hR, hS, hv⟩ := ofExpr_ok_crtp hrc (chain_over_crtp ha hbs)
  refine ⟨R, hR, hS, ?_⟩
  intro i j hi hj
  rw [matrix_call_ok_crtp hrc hS hi hj, hv i j hi hj, chain_val_crtp]

end CRTP

namespace Virtual

theorem ofExprTraced_ok_virtual {r c : Nat} (hrc : r * c < 2 ^ 32) {e : MatrixExpr}
    (h : e.Over r c) :
    ∃ R, Matrix.ofExpr e = .ok R ∧ Matrix.ofExprTraced e = .ok (R, List.range (r * c))
      ∧ R.HasShape r c ∧ ∀ i j, i < r → j < c → R.elem i j = e.val i j := by
  obtain ⟨d, hd, hd2, hl, hfill⟩ := store_loops_traced (fun i j => e.call i j) e.val r c hrc
    (fun i j hi hj => expr_call_ok_virtual hrc hi hj h) (List.replicate (u32 (r * c)) 0)
    (by simp [u32_of_lt hrc])
  have hS : Matrix.Shaped r c ⟨r, c, d⟩ := ⟨rfl, rfl, hl⟩
  refine ⟨⟨r, c, d⟩, ?_, ?_, shaped_hasShape hS (over_rows_lt_virtual h) (over_cols_lt_virtual h) hrc, ?_⟩
  · unfold Matrix.ofExpr storeBody
    simp only [(over_rows_eq_virtual h), (over_cols_eq_virtual h), hd2]
  · unfold Matrix.ofExprTraced storeBodyTraced storeBody
    simp only [(over_rows_eq_virtual h), (over_cols_eq_virtual h), hd]
  · intro i j hi hj
    exact FilledTo.elem hS hfill hi hj

theorem matrix_call_ok_virtual {r c : Nat} (hrc : r * c < 2 ^ 32) {R : Matrix} (h : R.HasShape r c)
    {i j : Nat} (hi : i < r) (hj : j < c) :
    (MatrixExpr.matrix R).call i j = .ok (R.elem i j) :=
  expr_call_ok_virtual hrc hi hj (show (MatrixExpr.matrix R).Over r c from h)

theorem foldl_over_virtual {r c : Nat} : ∀ (bs : List Matrix) (e : MatrixExpr), e.Over r c →
    (∀ b ∈ bs, b.HasShape r c) →
    (bs.foldl (fun e b => operator_plus e (.matrix b)) e).Over r c
  | [], _, he, _ => he
  | b :: bs, e, he, hbs => by
    rw [List.foldl_cons]
    exact foldl_over_virtual bs _ ⟨he, hbs b (List.mem_cons_self b bs)⟩
      (fun x hx => hbs x (List.mem_cons_of_mem b hx))

theorem foldl_val_virtual (i j : Nat) : ∀ (bs : List Matrix) (e : MatrixExpr),
    (bs.foldl (fun e b => operator_plus e (.matrix b)) e).val i j
      = bs.foldl (fun acc b => acc + b.elem i j) (e.val i j)
  | [], _ => rfl
  | b :: bs, e => by
    rw [List.foldl_cons, List.foldl_cons, foldl_val_virtual i j bs]
    rfl

theorem chain_over_virtual {r c : Nat} {a : Matrix} {bs : List Matrix} (ha : a.HasShape r c)
    (hbs : ∀ b ∈ bs, b.HasShape r c) : (chain a bs).Over r c :=
  foldl_over_virtual bs (.matrix a) ha hbs

theorem chain_val_virtual (a : Matrix) (bs : List Matrix) (i j : Nat) :
    (chain a bs).val i j = chainVal a bs i j :=
  foldl_val_virtual i j bs (.matrix a)

/-- The materialised chain: a matrix of the common shape holding the exact sums. -/
theorem chain_ok_virtual {r c : Nat} (hrc : r * c < 2 ^ 32) {a : Matrix} {bs : List Matrix}
    (ha : a.HasShape r c) (hbs : ∀ b ∈ bs, b.HasShape r c) :
    ∃ R, Matrix.ofExpr (chain a bs) = .ok R ∧ R.HasShape r c
      ∧ ∀ i j, i < r → j < c → (MatrixExpr.matrix R).call i j = .ok (chainVal a bs i j) := by
  obtain ⟨R, hR, hS, hv⟩ := ofExpr_ok_virtual hrc (chain_over_virtual ha hbs)
  refine ⟨R, hR, hS, ?_⟩
  intro i j hi hj
  rw [matrix_call_ok_virtual hrc hS hi hj, hv i j hi hj, chain_val_virtual]

end Virtual

namespace Simple

/-- The eager chain: a matrix of the common shape holding the exact sums. -/
theorem chain_ok_simple {r c : Nat} (hrc : r * c < 2 ^ 32) : ∀ (bs : List Matrix) (a : Matrix),
    a.HasShape r c → (∀ b ∈ bs, b.HasShape r c) →
    ∃ R, chain a bs = .ok R ∧ R.HasShape r c
      ∧ ∀ i j, i < r → j < c → Matrix.get R i j = .ok (chainVal a bs i j)
  | [], a, ha, _ => by
    refine ⟨a, rfl, ha, ?_⟩
    intro i j hi hj
    rw [Matrix.get_ok (hasShape_shaped ha hrc) hrc hi hj]
    rfl
  | b :: bs, a, ha, hbs => by
    obtain ⟨R1, h1, hS1, hv1⟩ := operator_plus_ok ha (hbs b (List.mem_cons_self b bs)) hrc
    obtain ⟨R, h2, hS, hv⟩ := chain_ok_simple hrc bs R1 hS1 (fun x hx => hbs x (List.mem_cons_of_mem b hx))
    refine ⟨R, by simp [chain, h1, h2], hS, ?_⟩
    intro i j hi hj
    rw [hv i j hi hj, chainVal, chainVal_cons a b bs i j _ (hv1 i j hi hj)]

end Simple

/-! ## Failures of the eager variant -/

namespace Simple

theorem vecGet_error {v : List Val} {i : Nat} {e : Err} (h : vecGet v i = .error e) :
    e = .undefined_behaviour := by
  unfold vecGet at h
  split at h
  · cases h
  · cases h; rfl

theorem get_out_of_range (m : Matrix) (row col : Nat) :
    Matrix.get m row col = .error .out_of_range ↔ row ≥ m.rows ∨ col ≥ m.cols := by
  unfold Matrix.get Matrix.rows Matrix.cols
  by_cases h : row ≥ m.rows_ ∨ col ≥ m.cols_
  · simp [h]
  · simp only [h, if_false, iff_false]
    intro h2
    have := vecGet_error h2
    cases this

theorem ref_out_of_range (m : Matrix) (row col : Nat) :
    Matrix.ref m row col = .error .out_of_range ↔ row ≥ m.rows ∨ col ≥ m.cols := by
  unfold Matrix.ref Matrix.rows Matrix.cols
  by_cases h : row ≥ m.rows_ ∨ col ≥ m.cols_
  · simp [h]
  · simp only [h, if_false, iff_false]
    split <;> simp

theorem getMut_out_of_range (m : Matrix) (row col : Nat) :
    Matrix.getMut m row col = .error .out_of_range ↔ row ≥ m.rows ∨ col ≥ m.cols := by
  rw [← ref_out_of_range]
  unfold Matrix.getMut
  cases h : Matrix.ref m row col with
  | error e => simp
  | ok i =>
    simp only [reduceCtorEq, iff_false]
    intro h2
    have := vecGet_error h2
    cases this

theorem assign_out_of_range (m : Matrix) (row col : Nat) (x : Val) :
    Matrix.assign m row col x = .error .out_of_range ↔ row ≥ m.rows ∨ col ≥ m.cols := by
  rw [← ref_out_of_range]
  unfold Matrix.assign
  cases h : Matrix.ref m row col <;> simp

theorem get_inside {m : Matrix} {row col : Nat} (hr : row < m.rows_) (hc : col < m.cols_) :
    Ends (Matrix.get m row col) (fun _ => True) (fun e => e = .undefined_behaviour) := by
  cases h : Matrix.get m row col with
  | ok x => trivial
  | error e =>
    have h1 : ¬ (row ≥ m.rows_ ∨ col ≥ m.cols_) := by omega
    simp only [Matrix.get, h1, if_false] at h
    exact vecGet_error h

theorem assign_inside {m : Matrix} {row col : Nat} (x : Val) (hr : row < m.rows_)
    (hc : col < m.cols_) :
    Ends (Matrix.assign m row col x)
      (fun t => t.rows_ = m.rows_ ∧ t.cols_ = m.cols_ ∧ t.data_.length = m.data_.length)
      (fun e => e = .undefined_behaviour) := by
  have h1 : ¬ (row ≥ m.rows_ ∨ col ≥ m.cols_) := by omega
  by_cases h2 : m.index row col < m.data_.length
  · simp [Matrix.assign, Matrix.ref, h1, h2, Ends]
  · simp [Matrix.assign, Matrix.ref, h1, h2, Ends]

theorem assign_keeps {m t : Matrix} {row col : Nat} {x : Val}
    (h : Matrix.assign m row col x = .ok t) :
    t.rows_ = m.rows_ ∧ t.cols_ = m.cols_ ∧ t.data_.length = m.data_.length := by
  unfold Matrix.assign at h
  cases hr : Matrix.ref m row col with
  | error e => rw [hr] at h; cases h
  | ok i =>
    rw [hr] at h
    cases h
    simp

/-- Whatever the buffers, `operator+` on operands of equal dimensions either returns a
matrix with the dimensions and the buffer length of a fresh matrix, its operands
unchanged, or runs into undefined behaviour: it throws neither exception. -/
theorem operator_plus_state_post (a b : Matrix) (hr : a.rows = b.rows) (hc : a.cols = b.cols) :
    Ends (operator_plus_state a b)
      (fun s => s.a = a ∧ s.b = b ∧ s.result.rows_ = a.rows_ ∧ s.result.cols_ = a.cols_
        ∧ s.result.data_.length = u32 (a.rows_ * a.cols_))
      (fun e => e = .undefined_behaviour) := by
  have hne : ¬ (a.rows ≠ b.rows ∨ a.cols ≠ b.cols) := by simp [hr, hc]
  simp only [operator_plus_state, hne, if_false, plusLoops]
  have h := nested_rule plusBody (fun s => s.a.cols) a.rows a.cols
      (fun _ s => s.a = a ∧ s.b = b ∧ s.result.rows_ = a.rows_ ∧ s.result.cols_ = a.cols_
        ∧ s.result.data_.length = u32 (a.rows_ * a.cols_))
      (fun e => e = .undefined_behaviour)
      (by intro k s hP; show s.a.cols = a.cols; rw [hP.1])
      (by
        intro i j s hi hj hP
        obtain ⟨h1, h2, h3, h4, h5⟩ := hP
        have hib : i < b.rows_ := by rw [show b.rows_ = a.rows from hr.symm]; exact hi
        have hjb : j < b.cols_ := by rw [show b.cols_ = a.cols from hc.symm]; exact hj
        have ga := @get_inside a i j hi hj
        have gb := @get_inside b i j hib hjb
        cases hga : Matrix.get a i j with
        | error e =>
          rw [hga] at ga
          simp only [plusBody, h1, hga, Ends]
          exact ga
        | ok x =>
          cases hgb : Matrix.get b i j with
          | error e =>
            rw [hgb] at gb
            simp only [plusBody, h1, h2, hga, hgb, Ends]
            exact gb
          | ok y =>
            have hs := @assign_inside s.result i j (x + y) (by rw [h3]; exact hi)
              (by rw [h4]; exact hj)
            cases hr2 : Matrix.assign s.result i j (x + y) with
            | error e =>
              rw [hr2] at hs
              simp only [plusBody, h1, h2, hga, hgb, hr2, Ends]
              exact hs
            | ok t =>
              rw [hr2] at hs
              obtain ⟨t1, t2, t3⟩ := hs
              simp only [plusBody, h1, h2, hga, hgb, hr2, Ends]
              exact ⟨trivial, trivial, t1.trans h3, t2.trans h4, t3.trans h5⟩)
      ⟨a, b, Matrix.newDefault a.rows a.cols⟩
      ⟨rfl, rfl, rfl, rfl, by simp [Matrix.newDefault, Matrix.new, Matrix.rows, Matrix.cols]⟩
  exact h

theorem operator_plus_invalid (a b : Matrix) :
    operator_plus a b = .error .invalid_argument ↔ a.rows ≠ b.rows ∨ a.cols ≠ b.cols := by
  by_cases hne : a.rows ≠ b.rows ∨ a.cols ≠ b.cols
  · simp [operator_plus, operator_plus_state, hne]
  · simp only [hne, iff_false]
    have h1 : a.rows = b.rows := by
      by_contra h; exact hne (Or.inl h)
    have h2 : a.cols = b.cols := by
      by_contra h; exact hne (Or.inr h)
    have h := operator_plus_state_post a b h1 h2
    unfold operator_plus
    cases hs : operator_plus_state a b with
    | ok s => simp
    | error e =>
      rw [hs] at h
      have h3 : e = .undefined_behaviour := h
      subst h3
      simp

theorem operator_plus_no_out_of_range (a b : Matrix) (hr : a.rows = b.rows)
    (hc : a.cols = b.cols) : operator_plus a b ≠ .error .out_of_range := by
  have h := operator_plus_state_post a b hr hc
  unfold operator_plus
  cases hs : operator_plus_state a b with
  | ok s => simp
  | error e =>
    rw [hs] at h
    have h3 : e = .undefined_behaviour := h
    subst h3
    simp

end Simple

/-! ## Buffer lengths -/

/-- The storing loops never change the length of the buffer, whatever the source gives. -/
theorem store_loops_length (f : Nat → Nat → Except Err Val) (r c cw : Nat) (d0 : List Val) :
    Ends (forLoop (fun i d1 => forLoop (fun j d2 =>
        match f i j with
        | .error e => .error e
        | .ok x => vecSet d2 (u32 (u32 (i * cw) + j)) x) c 0 d1) r 0 d0)
      (fun d => d.length = d0.length) (fun _ => True) := by
  apply nested_rule (fun i j d2 =>
        match f i j with
        | .error e => .error e
        | .ok x => vecSet d2 (u32 (u32 (i * cw) + j)) x) (fun _ => c) r c
      (fun _ d => d.length = d0.length) (fun _ => True) (fun _ _ _ => rfl)
  · intro i j d _ _ hP
    cases hf : f i j with
    | error e => simp [Ends]
    | ok x =>
      by_cases h : u32 (u32 (i * cw) + j) < d.length
      · simpa [vecSet, h, Ends] using hP
      · simp [vecSet, h, Ends]
  · rfl

theorem vecSet_keeps {v w : List Val} {i : Nat} {x : Val} (h : vecSet v i x = .ok w) :
    w.length = v.length := by
  unfold vecSet at h
  split at h
  · cases h; simp
  · cases h

theorem ofExpr_keeps_crtp {e : CRTP.MatrixExpr} {R : Matrix} (h : CRTP.Matrix.ofExpr e = .ok R) :
    R.rows = e.rows ∧ R.cols = e.cols ∧ R.data_.length = u32 (e.rows * e.cols) := by
  have hl := store_loops_length (fun i j => e.call i j) e.rows e.cols e.cols
    (List.replicate (u32 (e.rows * e.cols)) 0)
  unfold CRTP.Matrix.ofExpr CRTP.storeBody at h
  cases hd : forLoop (fun i d1 => forLoop (fun j d2 =>
        match e.call i j with
        | .error e => .error e
        | .ok x => vecSet d2 (u32 (u32 (i * e.cols) + j)) x) e.cols 0 d1) e.rows 0
      (List.replicate (u32 (e.rows * e.cols)) 0) with
  | error err => rw [hd] at h; cases h
  | ok d =>
    rw [hd] at h hl
    cases h
    exact ⟨rfl, rfl, by simpa [Ends] using hl⟩

theorem ofExpr_keeps_virtual {e : Virtual.MatrixExpr} {R : Matrix}
    (h : Virtual.Matrix.ofExpr e = .ok R) :
    R.rows = e.rows ∧ R.cols = e.cols ∧ R.data_.length = u32 (e.rows * e.cols) := by
  have hl := store_loops_length (fun i j => e.call i j) e.rows e.cols e.cols
    (List.replicate (u32 (e.rows * e.cols)) 0)
  unfold Virtual.Matrix.ofExpr Virtual.storeBody at h
  cases hd : forLoop (fun i d1 => forLoop (fun j d2 =>
        match e.call i j with
        | .error e => .error e
        | .ok x => vecSet d2 (u32 (u32 (i * e.cols) + j)) x) e.cols 0 d1) e.rows 0
      (List.replicate (u32 (e.rows * e.cols)) 0) with
  | error err => simp only [hd] at h; cases h
  | ok d =>
    simp only [hd] at h
    rw [hd] at hl
    cases h
    exact ⟨rfl, rfl, by simpa [Ends] using hl⟩

theorem assign_keeps_crtp {m t : Matrix} {row col : Nat} {x : Val}
    (h : CRTP.Matrix.assign m row col x = .ok t) :
    t.rows = m.rows ∧ t.cols = m.cols ∧ t.data_.length = m.data_.length := by
  unfold CRTP.Matrix.assign at h
  cases hv : vecSet m.data_ (m.index row col) x with
  | error e => rw [hv] at h; cases h
  | ok d =>
    rw [hv] at h
    cases h
    exact ⟨rfl, rfl, vecSet_keeps hv⟩

theorem assign_keeps_virtual {m t : Matrix} {row col : Nat} {x : Val}
    (h : Virtual.Matrix.assign m row col x = .ok t) :
    t.rows = m.rows ∧ t.cols = m.cols ∧ t.data_.length = m.data_.length := by
  unfold Virtual.Matrix.assign at h
  cases hv : vecSet m.data_ (m.index row col) x with
  | error e => rw [hv] at h; cases h
  | ok d =>
    rw [hv] at h
    cases h
    exact ⟨rfl, rfl, vecSet_keeps hv⟩

theorem operator_plus_keeps {a b : Matrix} {s : Simple.PlusState}
    (h : Simple.operator_plus_state a b = .ok s) :
    s.a = a ∧ s.b = b ∧ s.result.rows = a.rows ∧ s.result.cols = a.cols
      ∧ s.result.data_.length = u32 (a.rows * a.cols) := by
  by_cases hne : a.rows ≠ b.rows ∨ a.cols ≠ b.cols
  · simp [Simple.operator_plus_state, hne] at h
  · have h1 : a.rows = b.rows := by
      by_contra h2; exact hne (Or.inl h2)
    have h2 : a.cols = b.cols := by
      by_contra h3; exact hne (Or.inr h3)
    have hp := Simple.operator_plus_state_post a b h1 h2
    rw [h] at hp
    exact hp

/-! ## Counters -/

theorem incr_ok {n : Int} (h : n < INT_MAX) : incr n = .ok (n + 1) := by
  simp [incr, h]

theorem incr_error {n : Int} (h : ¬ n < INT_MAX) : incr n = .error .undefined_behaviour := by
  simp [incr, h]

theorem incr_le {n k : Int} (h : incr n = .ok k) : k = n + 1 := by
  unfold incr at h
  split at h
  · cases h; rfl
  · cases h

namespace InstanceCounter

theorem step_mono_ic {s t : InstanceCounter} {ev : Event} (h : s.step ev = .ok t) :
    s.created_count_ ≤ t.created_count_ ∧ s.deleted_count_ ≤ t.deleted_count_ := by
  cases ev with
  | construction =>
    simp only [step, construct] at h
    cases hi : incr s.created_count_ with
    | error e => rw [hi] at h; cases h
    | ok k =>
      rw [hi] at h
      cases h
      have := incr_le hi
      exact ⟨by simp only; omega, le_refl _⟩
  | copy =>
    simp only [step, copy] at h
    cases h
    exact ⟨le_refl _, le_refl _⟩
  | destruction =>
    simp only [step, destruct] at h
    cases hi : incr s.deleted_count_ with
    | error e => rw [hi] at h; cases h
    | ok k =>
      rw [hi] at h
      cases h
      have := incr_le hi
      exact ⟨le_refl _, by simp only; omega⟩

theorem run_mono_ic : ∀ (evs : List Event) (s t : InstanceCounter), run evs s = .ok t →
    s.created_count_ ≤ t.created_count_ ∧ s.deleted_count_ ≤ t.deleted_count_
  | [], s, t, h => by
    cases h
    exact ⟨le_refl _, le_refl _⟩
  | ev :: evs, s, t, h => by
    unfold run at h
    cases hs : s.step ev with
    | error e => rw [hs] at h; cases h
    | ok u =>
      rw [hs] at h
      have h1 := step_mono_ic hs
      have h2 := run_mono_ic evs u t h
      exact ⟨le_trans h1.1 h2.1, le_trans h1.2 h2.2⟩

theorem run_counts_ic : ∀ (evs : List Event) (s : InstanceCounter),
    s.created_count_ + evs.count .construction ≤ INT_MAX →
    s.deleted_count_ + evs.count .destruction ≤ INT_MAX →
    run evs s = .ok ⟨s.created_count_ + evs.count .construction,
      s.deleted_count_ + evs.count .destruction⟩
  | [], s, _, _ => by simp [run]
  | .construction :: evs, s, h1, h2 => by
    simp only [List.count_cons_self, Nat.cast_add, Nat.cast_one] at h1
    have h3 : (List.count Event.destruction (Event.construction :: evs))
        = List.count Event.destruction evs := by
      rw [List.count_cons_of_ne (by decide)]
    rw [h3] at h2 ⊢
    have hlt : s.created_count_ < INT_MAX := by
      have : (0 : Int) ≤ (List.count Event.construction evs : Int) := Int.ofNat_nonneg _
      omega
    simp only [run, step, construct, incr_ok hlt]
    rw [run_counts_ic evs ⟨s.created_count_ + 1, s.deleted_count_⟩ (by simp only; omega) h2]
    simp only [List.count_cons_self, Nat.cast_add, Nat.cast_one]
    congr 2
    omega
  | .copy :: evs, s, h1, h2 => by
    have h3 : (List.count Event.construction (Event.copy :: evs))
        = List.count Event.construction evs := by
      rw [List.count_cons_of_ne (by decide)]
    have h4 : (List.count Event.destruction (Event.copy :: evs))
        = List.count Event.destruction evs := by
      rw [List.count_cons_of_ne (by decide)]
    rw [h3] at h1 ⊢
    rw [h4] at h2 ⊢
    simp only [run, step, copy]
    exact run_counts_ic evs s h1 h2
  | .destruction :: evs, s, h1, h2 => by
    simp only [List.count_cons_self, Nat.cast_add, Nat.cast_one] at h2
    have h3 : (List.count Event.construction (Event.destruction :: evs))
        = List.count Event.construction evs := by
      rw [List.count_cons_of_ne (by decide)]
    rw [h3] at h1 ⊢
    have hlt : s.deleted_count_ < INT_MAX := by
      have : (0 : Int) ≤ (List.count Event.destruction evs : Int) := Int.ofNat_nonneg _
      omega
    simp only [run, step, destruct, incr_ok hlt]
    rw [run_counts_ic evs ⟨s.created_count_, s.deleted_count_ + 1⟩ h1 (by simp only; omega)]
    simp only [List.count_cons_self, Nat.cast_add, Nat.cast_one]
    congr 2
    omega

theorem run_overflow_ic : ∀ (k : Nat) (s : InstanceCounter), s.created_count_ ≤ INT_MAX →
    INT_MAX < s.created_count_ + k →
    run (List.replicate k .construction) s = .error .undefined_behaviour
  | 0, s, h1, h2 => by
    simp only [Nat.cast_zero, add_zero] at h2
    omega
  | k + 1, s, h1, h2 => by
    rw [List.replicate_succ]
    by_cases hlt : s.created_count_ < INT_MAX
    · simp only [run, step, construct, incr_ok hlt]
      exact run_overflow_ic k ⟨s.created_count_ + 1, s.deleted_count_⟩ (by simp only; omega)
        (by simp only; push_cast at h2; omega)
    · simp only [run, step, construct, incr_error hlt]

theorem run_constructions (k : Nat) (h : (k : Int) ≤ INT_MAX) :
    run (List.replicate k .construction) init = .ok ⟨k, 0⟩ := by
  have h1 := run_counts_ic (List.replicate k .construction) init
    (by simpa [init, List.count_replicate_self] using h)
    (by
      have hm : (2 : Int) ^ 31 - 1 = 2147483647 := by norm_num
      simp [init, List.count_replicate, INT_MAX, hm])
  rw [h1]
  simp [init, List.count_replicate]

end InstanceCounter

namespace CompteurInstances

theorem step_mono_ci {s t : CompteurInstances} {ev : Event} (h : s.step ev = .ok t) :
    s.compteurCreation ≤ t.compteurCreation ∧ s.compteurDestruction ≤ t.compteurDestruction := by
  cases ev with
  | construction =>
    simp only [step, construct] at h
    cases hi : incr s.compteurCreation with
    | error e => rw [hi] at h; cases h
    | ok k =>
      rw [hi] at h
      cases h
      have := incr_le hi
      exact ⟨by simp only; omega, le_refl _⟩
  | copy =>
    simp only [step, copy] at h
    cases h
    exact ⟨le_refl _, le_refl _⟩
  | destruction =>
    simp only [step, destruct] at h
    cases hi : incr s.compteurDestruction with
    | error e => rw [hi] at h; cases h
    | ok k =>
      rw [hi] at h
      cases h
      have := incr_le hi
      exact ⟨le_refl _, by simp only; omega⟩

theorem run_mono_ci : ∀ (evs : List Event) (s t : CompteurInstances), run evs s = .ok t →
    s.compteurCreation ≤ t.compteurCreation ∧ s.compteurDestruction ≤ t.compteurDestruction
  | [], s, t, h => by
    cases h
    exact ⟨le_refl _, le_refl _⟩
  | ev :: evs, s, t, h => by
    unfold run at h
    cases hs : s.step ev with
    | error e => rw [hs] at h; cases h
    | ok u =>
      rw [hs] at h
      have h1 := step_mono_ci hs
      have h2 := run_mono_ci evs u t h
      exact ⟨le_trans h1.1 h2.1, le_trans h1.2 h2.2⟩

theorem run_counts_ci : ∀ (evs : List Event) (s : CompteurInstances),
    s.compteurCreation + evs.count .construction ≤ INT_MAX →
    s.compteurDestruction + evs.count .destruction ≤ INT_MAX →
    run evs s = .ok ⟨s.compteurCreation + evs.count .construction,
      s.compteurDestruction + evs.count .destruction⟩
  | [], s, _, _ => by simp [run]
  | .construction :: evs, s, h1, h2 => by
    simp only [List.count_cons_self, Nat.cast_add, Nat.cast_one] at h1
    have h3 : (List.count Event.destruction (Event.construction :: evs))
        = List.count Event.destruction evs := by
      rw [List.count_cons_of_ne (by decide)]
    rw [h3] at h2 ⊢
    have hlt : s.compteurCreation < INT_MAX := by
      have : (0 : Int) ≤ (List.count Event.construction evs : Int) := Int.ofNat_nonneg _
      omega
    simp only [run, step, construct, incr_ok hlt]
    rw [run_counts_ci evs ⟨s.compteurCreation + 1, s.compteurDestruction⟩ (by simp only; omega) h2]
    simp only [List.count_cons_self, Nat.cast_add, Nat.cast_one]
    congr 2
    omega
  | .copy :: evs, s, h1, h2 => by
    have h3 : (List.count Event.construction (Event.copy :: evs))
        = List.count Event.construction evs := by
      rw [List.count_cons_of_ne (by decide)]
    have h4 : (List.count Event.destruction (Event.copy :: evs))
        = List.count Event.destruction evs := by
      rw [List.count_cons_of_ne (by decide)]
    rw [h3] at h1 ⊢
    rw [h4] at h2 ⊢
    simp only [run, step, copy]
    exact run_counts_ci evs s h1 h2
  | .destruction :: evs, s, h1, h2 => by
    simp only [List.count_cons_self, Nat.cast_add, Nat.cast_one] at h2
    have h3 : (List.count Event.construction (Event.destruction :: evs))
        = List.count Event.construction evs := by
      rw [List.count_cons_of_ne (by decide)]
    rw [h3] at h1 ⊢
    have hlt : s.compteurDestruction < INT_MAX := by
      have : (0 : Int) ≤ (List.count Event.destruction evs : Int) := Int.ofNat_nonneg _
      omega
    simp only [run, step, destruct, incr_ok hlt]
    rw [run_counts_ci evs ⟨s.compteurCreation, s.compteurDestruction + 1⟩ h1 (by simp only; omega)]
    simp only [List.count_cons_self, Nat.cast_add, Nat.cast_one]
    congr 2
    omega

theorem run_overflow_ci : ∀ (k : Nat) (s : CompteurInstances), s.compteurCreation ≤ INT_MAX →
    INT_MAX < s.compteurCreation + k →
    run (List.replicate k .construction) s = .error .undefined_behaviour
  | 0, s, h1, h2 => by
    simp only [Nat.cast_zero, add_zero] at h2
    omega
  | k + 1, s, h1, h2 => by
    rw [List.replicate_succ]
    by_cases hlt : s.compteurCreation < INT_MAX
    · simp only [run, step, construct, incr_ok hlt]
      exact run_overflow_ci k ⟨s.compteurCreation + 1, s.compteurDestruction⟩ (by simp only; omega)
        (by simp only; push_cast at h2; omega)
    · simp only [run, step, construct, incr_error hlt]

end CompteurInstances

theorem CompteurInstances.instancesExistantes_ok {s : CompteurInstances}
    (h1 : 0 ≤ s.compteurCreation) (h2 : s.compteurCreation ≤ INT_MAX)
    (h3 : 0 ≤ s.compteurDestruction) (h4 : s.compteurDestruction ≤ INT_MAX) :
    s.instancesExistantes = .ok (s.compteurCreation - s.compteurDestruction) := by
  have h : -INT_MAX - 1 ≤ s.compteurCreation - s.compteurDestruction
      ∧ s.compteurCreation - s.compteurDestruction ≤ INT_MAX := by
    constructor <;> omega
  simp only [CompteurInstances.instancesExistantes, h, and_self, if_true]

/-! ## Claims -/

/-- C1. Cross-variant equivalence: for a left-associated chain `a + b1 + ... + bn` of
matrices of one shape `(r, c)` with `r * c < 2 ^ 32`, the matrix materialised from the CRTP
expression, the matrix materialised from the virtual-dispatch expression and the matrix
returned by the eager chain of `operator+` all exist, have the shape `(r, c)`, and hold the
same value at every `(i, j)` with `i < r` and `j < c`. -/
theorem cross_variant_equivalence (r c : Nat) (hrc : r * c < 2 ^ 32) (a : Matrix)
    (bs : List Matrix) (ha : a.HasShape r c) (hbs : ∀ b ∈ bs, b.HasShape r c) :
    ∃ R1 R2 R3, CRTP.Matrix.ofExpr (CRTP.chain a bs) = .ok R1
      ∧ Virtual.Matrix.ofExpr (Virtual.chain a bs) = .ok R2
      ∧ Simple.chain a bs = .ok R3
      ∧ (R1.rows = r ∧ R1.cols = c) ∧ (R2.rows = r ∧ R2.cols = c) ∧ (R3.rows = r ∧ R3.cols = c)
      ∧ ∀ i j, i < r → j < c → ∃ x, (CRTP.MatrixExpr.matrix R1).call i j = .ok x
          ∧ (Virtual.MatrixExpr.matrix R2).call i j = .ok x
          ∧ Simple.Matrix.get R3 i j = .ok x := by
  obtain ⟨R1, h1, s1, v1⟩ := CRTP.chain_ok_crtp hrc ha hbs
  obtain ⟨R2, h2, s2, v2⟩ := Virtual.chain_ok_virtual hrc ha hbs
  obtain ⟨R3, h3, s3, v3⟩ := Simple.chain_ok_simple hrc bs a ha hbs
  exact ⟨R1, R2, R3, h1, h2, h3, ⟨s1.2.1, s1.2.2⟩, ⟨s2.2.1, s2.2.2⟩, ⟨s3.2.1, s3.2.2⟩,
    fun i j hi hj => ⟨chainVal a bs i j, v1 i j hi hj, v2 i j hi hj, v3 i j hi hj⟩⟩

/-- Witness of C1: the chain of three 2x2 matrices filled with 1, 2 and 3. -/
theorem cross_variant_equivalence_witness :
    2 * 2 < 2 ^ 32 ∧ (Matrix.new 2 2 1).HasShape 2 2
      ∧ (∀ b ∈ [Matrix.new 2 2 2, Matrix.new 2 2 3], b.HasShape 2 2)
      ∧ ∃ R1 R2 R3,
        CRTP.Matrix.ofExpr (CRTP.chain (Matrix.new 2 2 1) [Matrix.new 2 2 2, Matrix.new 2 2 3])
          = .ok R1
        ∧ Virtual.Matrix.ofExpr
            (Virtual.chain (Matrix.new 2 2 1) [Matrix.new 2 2 2, Matrix.new 2 2 3]) = .ok R2
        ∧ Simple.chain (Matrix.new 2 2 1) [Matrix.new 2 2 2, Matrix.new 2 2 3] = .ok R3
        ∧ (R1.rows = 2 ∧ R1.cols = 2) ∧ (R2.rows = 2 ∧ R2.cols = 2) ∧ (R3.rows = 2 ∧ R3.cols = 2)
        ∧ ∀ i j, i < 2 → j < 2 → ∃ x, (CRTP.MatrixExpr.matrix R1).call i j = .ok x
            ∧ (Virtual.MatrixExpr.matrix R2).call i j = .ok x
            ∧ Simple.Matrix.get R3 i j = .ok x :=
  ⟨by decide, by decide, by decide,
    cross_variant_equivalence 2 2 (by decide) (Matrix.new 2 2 1)
      [Matrix.new 2 2 2, Matrix.new 2 2 3] (by decide) (by decide)⟩

/-- C2, as the code has it. Lazy variants (CRTP and virtual): for matrices `A` and `B` of
one shape `(r, c)` with `r * c < 2 ^ 32`, the addition node `A + B` gives
`A(i, j) + B(i, j)` at every `i < r`, `j < c`, and the matrix materialised from `A + B`
exists, has the shape `(r, c)` and holds `A(i, j) + B(i, j)` at every such `(i, j)`. -/
theorem lazy_add_elementwise (r c : Nat) (hrc : r * c < 2 ^ 32) (A B : Matrix)
    (hA : A.HasShape r c) (hB : B.HasShape r c) :
    ((∀ i j, i < r → j < c → ∃ x y, (CRTP.MatrixExpr.matrix A).call i j = .ok x
        ∧ (CRTP.MatrixExpr.matrix B).call i j = .ok y
        ∧ (CRTP.operator_plus (.matrix A) (.matrix B)).call i j = .ok (x + y))
      ∧ ∃ R, CRTP.Matrix.ofExpr (CRTP.operator_plus (.matrix A) (.matrix B)) = .ok R
        ∧ R.rows = r ∧ R.cols = c
        ∧ ∀ i j, i < r → j < c → ∃ x y, (CRTP.MatrixExpr.matrix A).call i j = .ok x
          ∧ (CRTP.MatrixExpr.matrix B).call i j = .ok y
          ∧ (CRTP.MatrixExpr.matrix R).call i j = .ok (x + y))
    ∧ ((∀ i j, i < r → j < c → ∃ x y, (Virtual.MatrixExpr.matrix A).call i j = .ok x
        ∧ (Virtual.MatrixExpr.matrix B).call i j = .ok y
        ∧ (Virtual.operator_plus (.matrix A) (.matrix B)).call i j = .ok (x + y))
      ∧ ∃ R, Virtual.Matrix.ofExpr (Virtual.operator_plus (.matrix A) (.matrix B)) = .ok R
        ∧ R.rows = r ∧ R.cols = c
        ∧ ∀ i j, i < r → j < c → ∃ x y, (Virtual.MatrixExpr.matrix A).call i j = .ok x
          ∧ (Virtual.MatrixExpr.matrix B).call i j = .ok y
          ∧ (Virtual.MatrixExpr.matrix R).call i j = .ok (x + y)) := by
  refine ⟨⟨?_, ?_⟩, ⟨?_, ?_⟩⟩
  · intro i j hi hj
    exact ⟨A.elem i j, B.elem i j, CRTP.matrix_call_ok_crtp hrc hA hi hj,
      CRTP.matrix_call_ok_crtp hrc hB hi hj,
      CRTP.expr_call_ok_crtp hrc hi hj
        (show (CRTP.operator_plus (.matrix A) (.matrix B)).Over r c from ⟨hA, hB⟩)⟩
  · obtain ⟨R, hR, hS, hv⟩ := CRTP.ofExpr_ok_crtp hrc
      (show (CRTP.operator_plus (.matrix A) (.matrix B)).Over r c from ⟨hA, hB⟩)
    refine ⟨R, hR, hS.2.1, hS.2.2, ?_⟩
    intro i j hi hj
    refine ⟨A.elem i j, B.elem i j, CRTP.matrix_call_ok_crtp hrc hA hi hj,
      CRTP.matrix_call_ok_crtp hrc hB hi hj, ?_⟩
    rw [CRTP.matrix_call_ok_crtp hrc hS hi hj, hv i j hi hj]
    rfl
  · intro i j hi hj
    exact ⟨A.elem i j, B.elem i j, Virtual.matrix_call_ok_virtual hrc hA hi hj,
      Virtual.matrix_call_ok_virtual hrc hB hi hj,
      Virtual.expr_call_ok_virtual hrc hi hj
        (show (Virtual.operator_plus (.matrix A) (.matrix B)).Over r c from ⟨hA, hB⟩)⟩
  · obtain ⟨R, hR, hS, hv⟩ := Virtual.ofExpr_ok_virtual hrc
      (show (Virtual.operator_plus (.matrix A) (.matrix B)).Over r c from ⟨hA, hB⟩)
    refine ⟨R, hR, hS.2.1, hS.2.2, ?_⟩
    intro i j hi hj
    refine ⟨A.elem i j, B.elem i j, Virtual.matrix_call_ok_virtual hrc hA hi hj,
      Virtual.matrix_call_ok_virtual hrc hB hi hj, ?_⟩
    rw [Virtual.matrix_call_ok_virtual hrc hS hi hj, hv i j hi hj]
    rfl

/-- Witness of C2: a 2x3 matrix filled with 1 plus a 2x3 matrix filled with 2. -/
theorem lazy_add_elementwise_witness :
    2 * 3 < 2 ^ 32 ∧ (Matrix.new 2 3 1).HasShape 2 3 ∧ (Matrix.new 2 3 2).HasShape 2 3
      ∧ ∃ R, CRTP.Matrix.ofExpr
          (CRTP.operator_plus (.matrix (Matrix.new 2 3 1)) (.matrix (Matrix.new 2 3 2))) = .ok R
        ∧ R.rows = 2 ∧ R.cols = 3
        ∧ ∀ i j, i < 2 → j < 3 → ∃ x y,
          (CRTP.MatrixExpr.matrix (Matrix.new 2 3 1)).call i j = .ok x
          ∧ (CRTP.MatrixExpr.matrix (Matrix.new 2 3 2)).call i j = .ok y
          ∧ (CRTP.MatrixExpr.matrix R).call i j = .ok (x + y) :=
  ⟨by decide, by decide, by decide,
    (lazy_add_elementwise 2 3 (by decide) (Matrix.new 2 3 1) (Matrix.new 2 3 2)
      (by decide) (by decide)).1.2⟩

/-- Counterexample to C2 as stated: two matrices of the shape `(65536, 65536)`, whose
buffers are empty because `65536 * 65536` is `0` in `unsigned`. The position `(0, 0)` is
inside the shape, yet the addition node has no value there and the materialisation fails,
in both lazy variants. -/
theorem lazy_add_wrapped_shape :
    (Matrix.new 65536 65536 0).HasShape 65536 65536
      ∧ (CRTP.operator_plus (.matrix (Matrix.new 65536 65536 0))
          (.matrix (Matrix.new 65536 65536 0))).call 0 0 = .error .undefined_behaviour
      ∧ CRTP.Matrix.ofExpr (CRTP.operator_plus (.matrix (Matrix.new 65536 65536 0))
          (.matrix (Matrix.new 65536 65536 0))) = .error .undefined_behaviour
      ∧ (Virtual.operator_plus (.matrix (Matrix.new 65536 65536 0))
          (.matrix (Matrix.new 65536 65536 0))).call 0 0 = .error .undefined_behaviour
      ∧ Virtual.Matrix.ofExpr (Virtual.operator_plus (.matrix (Matrix.new 65536 65536 0))
          (.matrix (Matrix.new 65536 65536 0))) = .error .undefined_behaviour := by
  refine ⟨by decide, by decide, by decide, by decide, by decide⟩

/-- C3, as the code has it. Eager variant: for matrices `A` and `B` of one shape `(r, c)`
with `r * c < 2 ^ 32`, `operator+(A, B)` returns without error a matrix `R` of shape `(r, c)`
with `R(i, j) = A(i, j) + B(i, j)` at every `i < r`, `j < c`, and its operands are unchanged
when it returns. -/
theorem eager_add_elementwise (r c : Nat) (hrc : r * c < 2 ^ 32) (A B : Matrix)
    (hA : A.HasShape r c) (hB : B.HasShape r c) :
    ∃ s, Simple.operator_plus_state A B = .ok s ∧ Simple.operator_plus A B = .ok s.result
      ∧ s.result.rows = r ∧ s.result.cols = c
      ∧ (∀ i j, i < r → j < c → ∃ x y, Simple.Matrix.get A i j = .ok x
          ∧ Simple.Matrix.get B i j = .ok y ∧ Simple.Matrix.get s.result i j = .ok (x + y))
      ∧ s.a = A ∧ s.b = B := by
  obtain ⟨s, hs, h1, h2, h3, h4⟩ := Simple.operator_plus_state_ok hA hB hrc
  refine ⟨s, hs, by simp [Simple.operator_plus, hs], h3.2.1, h3.2.2, ?_, h1, h2⟩
  intro i j hi hj
  refine ⟨A.elem i j, B.elem i j, Simple.Matrix.get_ok (hasShape_shaped hA hrc) hrc hi hj,
    Simple.Matrix.get_ok (hasShape_shaped hB hrc) hrc hi hj, ?_⟩
  rw [Simple.Matrix.get_ok (hasShape_shaped h3 hrc) hrc hi hj, h4 i j hi hj]

/-- Witness of C3: a 3x2 matrix filled with 1 plus a 3x2 matrix filled with 5. -/
theorem eager_add_elementwise_witness :
    3 * 2 < 2 ^ 32 ∧ (Matrix.new 3 2 1).HasShape 3 2 ∧ (Matrix.new 3 2 5).HasShape 3 2
      ∧ ∃ s, Simple.operator_plus_state (Matrix.new 3 2 1) (Matrix.new 3 2 5) = .ok s
        ∧ Simple.operator_plus (Matrix.new 3 2 1) (Matrix.new 3 2 5) = .ok s.result
        ∧ s.result.rows = 3 ∧ s.result.cols = 2
        ∧ (∀ i j, i < 3 → j < 2 → ∃ x y, Simple.Matrix.get (Matrix.new 3 2 1) i j = .ok x
            ∧ Simple.Matrix.get (Matrix.new 3 2 5) i j = .ok y
            ∧ Simple.Matrix.get s.result i j = .ok (x + y))
        ∧ s.a = Matrix.new 3 2 1 ∧ s.b = Matrix.new 3 2 5 :=
  ⟨by decide, by decide, by decide,
    eager_add_elementwise 3 2 (by decide) (Matrix.new 3 2 1) (Matrix.new 3 2 5)
      (by decide) (by decide)⟩

/-- Counterexample to C3 as stated: on two matrices of the shape `(65536, 65536)`, whose
buffers are empty because `65536 * 65536` is `0` in `unsigned`, `operator+` passes the
shape check and the bounds check of `(0, 0)`, then reads past the buffer: it returns no
matrix. -/
theorem eager_add_wrapped_shape :
    (Matrix.new 65536 65536 0).HasShape 65536 65536
      ∧ Simple.operator_plus (Matrix.new 65536 65536 0) (Matrix.new 65536 65536 0)
        = .error .undefined_behaviour := by
  refine ⟨by decide, by decide⟩

/-- C4, as the code has it. N-way chain: for a matrix `M` of shape `(r, c)` with
`r * c < 2 ^ 32` and `N >= 2`, the left-associated chain `M + M + ... + M` with `N`
occurrences of `M` gives, in each of the three variants, a matrix of the shape of `M` whose
element `(i, j)` is `N * M(i, j)`. For `M = Matrix(2, 2, 1.0)` and `N = 4` the result is the
2x2 matrix filled with `4.0`. -/
theorem chain_of_copies (r c : Nat) (hrc : r * c < 2 ^ 32) (M : Matrix) (hM : M.HasShape r c)
    (N : Nat) (hN : 2 ≤ N) :
    (∃ R1 R2 R3, CRTP.Matrix.ofExpr (CRTP.chain M (List.replicate (N - 1) M)) = .ok R1
      ∧ Virtual.Matrix.ofExpr (Virtual.chain M (List.replicate (N - 1) M)) = .ok R2
      ∧ Simple.chain M (List.replicate (N - 1) M) = .ok R3
      ∧ (R1.rows = M.rows ∧ R1.cols = M.cols) ∧ (R2.rows = M.rows ∧ R2.cols = M.cols)
      ∧ (R3.rows = M.rows ∧ R3.cols = M.cols)
      ∧ ∀ i j, i < r → j < c → ∃ x, (CRTP.MatrixExpr.matrix M).call i j = .ok x
          ∧ (Virtual.MatrixExpr.matrix M).call i j = .ok x
          ∧ Simple.Matrix.get M i j = .ok x
          ∧ (CRTP.MatrixExpr.matrix R1).call i j = .ok (N * x)
          ∧ (Virtual.MatrixExpr.matrix R2).call i j = .ok (N * x)
          ∧ Simple.Matrix.get R3 i j = .ok (N * x))
    ∧ CRTP.Matrix.ofExpr (CRTP.chain (Matrix.new 2 2 1) (List.replicate 3 (Matrix.new 2 2 1)))
        = .ok (Matrix.new 2 2 4)
    ∧ Virtual.Matrix.ofExpr
        (Virtual.chain (Matrix.new 2 2 1) (List.replicate 3 (Matrix.new 2 2 1)))
        = .ok (Matrix.new 2 2 4)
    ∧ Simple.chain (Matrix.new 2 2 1) (List.replicate 3 (Matrix.new 2 2 1))
        = .ok (Matrix.new 2 2 4) := by
  refine ⟨?_, by decide!, by decide!, by decide!⟩
  have hbs : ∀ b ∈ List.replicate (N - 1) M, b.HasShape r c := by
    intro b hb
    rw [List.eq_of_mem_replicate hb]
    exact hM
  obtain ⟨R1, h1, s1, v1⟩ := CRTP.chain_ok_crtp hrc hM hbs
  obtain ⟨R2, h2, s2, v2⟩ := Virtual.chain_ok_virtual hrc hM hbs
  obtain ⟨R3, h3, s3, v3⟩ := Simple.chain_ok_simple hrc _ M hM hbs
  have hcast : (((N - 1 : Nat) : Val) + 1) = (N : Val) := by
    have : N - 1 + 1 = N := by omega
    exact_mod_cast this
  have hval : ∀ i j, chainVal M (List.replicate (N - 1) M) i j = N * M.elem i j := by
    intro i j
    rw [chainVal_replicate, hcast]
  refine ⟨R1, R2, R3, h1, h2, h3, ⟨s1.2.1.trans hM.2.1.symm, s1.2.2.trans hM.2.2.symm⟩,
    ⟨s2.2.1.trans hM.2.1.symm, s2.2.2.trans hM.2.2.symm⟩,
    ⟨s3.2.1.trans hM.2.1.symm, s3.2.2.trans hM.2.2.symm⟩, ?_⟩
  intro i j hi hj
  refine ⟨M.elem i j, CRTP.matrix_call_ok_crtp hrc hM hi hj,
    Virtual.matrix_call_ok_virtual hrc hM hi hj,
    Simple.Matrix.get_ok (hasShape_shaped hM hrc) hrc hi hj, ?_, ?_, ?_⟩
  · rw [v1 i j hi hj, hval]
  · rw [v2 i j hi hj, hval]
  · rw [v3 i j hi hj, hval]

/-- Witness of C4: the 3-way chain of a 2x2 matrix filled with 5. -/
theorem chain_of_copies_witness :
    2 * 2 < 2 ^ 32 ∧ (Matrix.new 2 2 5).HasShape 2 2 ∧ 2 ≤ 3
      ∧ ∃ R1 R2 R3,
        CRTP.Matrix.ofExpr (CRTP.chain (Matrix.new 2 2 5) (List.replicate (3 - 1) (Matrix.new 2 2 5)))
          = .ok R1
        ∧ Virtual.Matrix.ofExpr
            (Virtual.chain (Matrix.new 2 2 5) (List.replicate (3 - 1) (Matrix.new 2 2 5))) = .ok R2
        ∧ Simple.chain (Matrix.new 2 2 5) (List.replicate (3 - 1) (Matrix.new 2 2 5)) = .ok R3
        ∧ (R1.rows = (Matrix.new 2 2 5).rows ∧ R1.cols = (Matrix.new 2 2 5).cols)
        ∧ (R2.rows = (Matrix.new 2 2 5).rows ∧ R2.cols = (Matrix.new 2 2 5).cols)
        ∧ (R3.rows = (Matrix.new 2 2 5).rows ∧ R3.cols = (Matrix.new 2 2 5).cols)
        ∧ ∀ i j, i < 2 → j < 2 → ∃ x, (CRTP.MatrixExpr.matrix (Matrix.new 2 2 5)).call i j = .ok x
            ∧ (Virtual.MatrixExpr.matrix (Matrix.new 2 2 5)).call i j = .ok x
            ∧ Simple.Matrix.get (Matrix.new 2 2 5) i j = .ok x
            ∧ (CRTP.MatrixExpr.matrix R1).call i j = .ok ((3 : Nat) * x)
            ∧ (Virtual.MatrixExpr.matrix R2).call i j = .ok ((3 : Nat) * x)
            ∧ Simple.Matrix.get R3 i j = .ok ((3 : Nat) * x) :=
  ⟨by decide, by decide, by decide,
    (chain_of_copies 2 2 (by decide) (Matrix.new 2 2 5) (by decide) 3 (by decide)).1⟩

/-- Counterexample to C4 as stated: for `M = Matrix(65536, 65536, 1.0)`, whose buffer is
empty because `65536 * 65536` is `0` in `unsigned`, the chain `M + M` gives no matrix in any
of the three variants. -/
theorem chain_of_copies_wrapped_shape :
    (Matrix.new 65536 65536 1).HasShape 65536 65536
      ∧ CRTP.Matrix.ofExpr (CRTP.chain (Matrix.new 65536 65536 1)
          (List.replicate (2 - 1) (Matrix.new 65536 65536 1))) = .error .undefined_behaviour
      ∧ Virtual.Matrix.ofExpr (Virtual.chain (Matrix.new 65536 65536 1)
          (List.replicate (2 - 1) (Matrix.new 65536 65536 1))) = .error .undefined_behaviour
      ∧ Simple.chain (Matrix.new 65536 65536 1)
          (List.replicate (2 - 1) (Matrix.new 65536 65536 1)) = .error .undefined_behaviour := by
  refine ⟨by decide, by decide, by decide, by decide⟩

/-- C5, as the code has it. For all dimensions `r`, `c` with `r * c < 2 ^ 32` and every fill
value `v`, the matrix built by `Matrix(r, c, v)` (the same constructor and the same `sum()`
in the three programs) has `sum() = r * c * v`; with the default fill the sum is `0`,
whatever the dimensions. -/
theorem fresh_sum (r c : Nat) (v : Val) :
    (r * c < 2 ^ 32 → (Matrix.new r c v).sum = (r : Val) * c * v)
      ∧ (Matrix.newDefault r c).sum = 0 := by
  constructor
  · intro hrc
    simp only [Matrix.sum, Matrix.new, foldl_add_replicate, u32_of_lt hrc]
    push_cast
    ring
  · simp only [Matrix.sum, Matrix.newDefault, Matrix.new, foldl_add_replicate]
    ring

/-- Witness of C5: the 10000x10000 matrix of the benchmarks, filled with `1e-5`. -/
theorem fresh_sum_witness :
    10000 * 10000 < 2 ^ 32
      ∧ (Matrix.new 10000 10000 (1 / 100000)).sum = (10000 : Val) * 10000 * (1 / 100000) :=
  ⟨by decide, (fresh_sum 10000 10000 (1 / 100000)).1 (by decide)⟩

/-- Counterexample to C5 as stated: `Matrix(65536, 65536, 1.0)` has an empty buffer, so
its sum is `0` and not `65536 * 65536 * 1`. -/
theorem fresh_sum_wrapped_shape :
    (Matrix.new 65536 65536 1).sum = 0 ∧ (Matrix.new 65536 65536 1).sum ≠ (65536 : Val) * 65536 * 1 := by
  have h : (Matrix.new 65536 65536 1).sum = 0 := by decide
  refine ⟨h, ?_⟩
  rw [h]
  norm_num

/-- C6, as the code has it. Eager variant, element access: for every matrix and all `row`,
`col`, the read-only and the mutable `operator()(row, col)` fail with an out-of-range error
exactly when `row >= rows` or `col >= cols`, for a read and for a write through the
mutable one alike; a 3x3 matrix accessed at `(3, 0)` fails so; and
on a matrix built by the program whose `rows * cols` is below `2 ^ 32`, every access with
`row < rows` and `col < cols` returns the stored element without error. -/
theorem eager_access (m : Matrix) (row col : Nat) (x : Val) :
    (Simple.Matrix.get m row col = .error .out_of_range ↔ row ≥ m.rows ∨ col ≥ m.cols)
      ∧ (Simple.Matrix.ref m row col = .error .out_of_range ↔ row ≥ m.rows ∨ col ≥ m.cols)
      ∧ (Simple.Matrix.getMut m row col = .error .out_of_range
          ↔ row ≥ m.rows ∨ col ≥ m.cols)
      ∧ (Simple.Matrix.assign m row col x = .error .out_of_range
          ↔ row ≥ m.rows ∨ col ≥ m.cols)
      ∧ (∀ v, Simple.Matrix.get (Matrix.new 3 3 v) 3 0 = .error .out_of_range
          ∧ Simple.Matrix.ref (Matrix.new 3 3 v) 3 0 = .error .out_of_range)
      ∧ (m.WF → m.rows * m.cols < 2 ^ 32 → row < m.rows → col < m.cols →
          ∃ x, m.data_[row * m.cols + col]? = some x
            ∧ Simple.Matrix.get m row col = .ok x
            ∧ Simple.Matrix.ref m row col = .ok (row * m.cols + col)
            ∧ Simple.Matrix.getMut m row col = .ok x) := by
  refine ⟨Simple.get_out_of_range m row col, Simple.ref_out_of_range m row col,
    Simple.getMut_out_of_range m row col, Simple.assign_out_of_range m row col x, ?_, ?_⟩
  · intro v
    exact ⟨by simp [Simple.Matrix.get, Matrix.new], by simp [Simple.Matrix.ref, Matrix.new]⟩
  · intro hwf hrc hr hc
    have hS : m.Shaped m.rows m.cols := hasShape_shaped ⟨hwf, rfl, rfl⟩ hrc
    have hlt : row * m.cols_ + col < m.data_.length := by rw [hS.2.2]; exact flat_lt hr hc
    have hg := Simple.Matrix.get_ok hS hrc hr hc
    have hf := Simple.Matrix.ref_ok hS hrc hr hc
    refine ⟨m.elem row col, ?_, hg, hf, ?_⟩
    · show m.data_[row * m.cols_ + col]? = some (m.data_.getD (row * m.cols_ + col) 0)
      rw [List.getD_eq_getElem?_getD, List.getElem?_eq_getElem hlt]
      rfl
    · simp only [Simple.Matrix.getMut, hf]
      rw [← Matrix.index_flat hS hrc hr hc]
      exact Matrix.read_ok hS hrc hr hc

/-- Witness of C6: the entry `(2, 1)` of the 3x3 matrix filled with 7. -/
theorem eager_access_witness :
    (Matrix.new 3 3 7).WF ∧ (Matrix.new 3 3 7).rows * (Matrix.new 3 3 7).cols < 2 ^ 32
      ∧ 2 < (Matrix.new 3 3 7).rows ∧ 1 < (Matrix.new 3 3 7).cols
      ∧ ∃ x, (Matrix.new 3 3 7).data_[2 * (Matrix.new 3 3 7).cols + 1]? = some x
        ∧ Simple.Matrix.get (Matrix.new 3 3 7) 2 1 = .ok x
        ∧ Simple.Matrix.ref (Matrix.new 3 3 7) 2 1 = .ok (2 * (Matrix.new 3 3 7).cols + 1)
        ∧ Simple.Matrix.getMut (Matrix.new 3 3 7) 2 1 = .ok x :=
  ⟨by decide, by decide, by decide, by decide,
    (eager_access (Matrix.new 3 3 7) 2 1 0).2.2.2.2.2 (by decide) (by decide) (by decide)
      (by decide)⟩

/-- Counterexample to C6 as stated: on `Matrix(65536, 65536)`, whose buffer is empty because
`65536 * 65536` is `0` in `unsigned`, the access `(0, 0)` passes the bounds check in both
accessors and then reads past the buffer: it returns no stored element. -/
theorem eager_access_wrapped_shape :
    (Matrix.new 65536 65536 0).WF
      ∧ 0 < (Matrix.new 65536 65536 0).rows ∧ 0 < (Matrix.new 65536 65536 0).cols
      ∧ Simple.Matrix.get (Matrix.new 65536 65536 0) 0 0 = .error .undefined_behaviour
      ∧ Simple.Matrix.ref (Matrix.new 65536 65536 0) 0 0 = .error .undefined_behaviour
      ∧ Simple.Matrix.getMut (Matrix.new 65536 65536 0) 0 0 = .error .undefined_behaviour := by
  refine ⟨by decide, by decide, by decide, by decide, by decide, by decide⟩

/-- C7. Eager variant, addition: for all matrices `A` and `B`, `operator+(A, B)` fails with
an invalid-argument error exactly when `A.rows() != B.rows()` or `A.cols() != B.cols()`; a
2x2 matrix plus a 3x3 matrix fails so; and when the shapes are equal the element accesses
it performs never raise an out-of-range error. -/
theorem eager_add_failures (A B : Matrix) :
    (Simple.operator_plus A B = .error .invalid_argument
        ↔ A.rows ≠ B.rows ∨ A.cols ≠ B.cols)
      ∧ (∀ v w, Simple.operator_plus (Matrix.new 2 2 v) (Matrix.new 3 3 w)
          = .error .invalid_argument)
      ∧ (A.rows = B.rows → A.cols = B.cols → Simple.operator_plus A B ≠ .error .out_of_range) := by
  refine ⟨Simple.operator_plus_invalid A B, ?_, Simple.operator_plus_no_out_of_range A B⟩
  intro v w
  exact (Simple.operator_plus_invalid _ _).2 (Or.inl (by simp [Matrix.new, Matrix.rows]))

/-- Witness of C7: two 2x2 matrices. -/
theorem eager_add_failures_witness :
    (Matrix.new 2 2 1).rows = (Matrix.new 2 2 3).rows
      ∧ (Matrix.new 2 2 1).cols = (Matrix.new 2 2 3).cols
      ∧ Simple.operator_plus (Matrix.new 2 2 1) (Matrix.new 2 2 3) ≠ .error .out_of_range :=
  ⟨by decide, by decide,
    (eager_add_failures (Matrix.new 2 2 1) (Matrix.new 2 2 3)).2.2 (by decide) (by decide)⟩

/-- C8, as the code has it. Materialisation is faithful: in both lazy variants, for every
expression `e` (a matrix or any tree of addition nodes) over matrices of one shape `(r, c)`
with `r * c < 2 ^ 32`, the matrix `Matrix(e)` exists, has `rows() = e.rows()`,
`cols() = e.cols()` and `Matrix(e)(i, j) = e(i, j)` at every `i < e.rows()`, `j < e.cols()`,
and every entry of its buffer is written exactly once. -/
theorem materialise_faithful (r c : Nat) (hrc : r * c < 2 ^ 32) (e1 : CRTP.MatrixExpr)
    (e2 : Virtual.MatrixExpr) :
    (e1.Over r c → ∃ R log, CRTP.Matrix.ofExpr e1 = .ok R
        ∧ CRTP.Matrix.ofExprTraced e1 = .ok (R, log)
        ∧ R.rows = e1.rows ∧ R.cols = e1.cols
        ∧ (∀ i j, i < e1.rows → j < e1.cols →
            ∃ x, e1.call i j = .ok x ∧ (CRTP.MatrixExpr.matrix R).call i j = .ok x)
        ∧ (∀ p, p < R.data_.length → log.count p = 1) ∧ (∀ p ∈ log, p < R.data_.length))
      ∧ (e2.Over r c → ∃ R log, Virtual.Matrix.ofExpr e2 = .ok R
        ∧ Virtual.Matrix.ofExprTraced e2 = .ok (R, log)
        ∧ R.rows = e2.rows ∧ R.cols = e2.cols
        ∧ (∀ i j, i < e2.rows → j < e2.cols →
            ∃ x, e2.call i j = .ok x ∧ (Virtual.MatrixExpr.matrix R).call i j = .ok x)
        ∧ (∀ p, p < R.data_.length → log.count p = 1) ∧ (∀ p ∈ log, p < R.data_.length)) := by
  constructor
  · intro h
    obtain ⟨R, hR, hT, hS, hv⟩ := CRTP.ofExprTraced_ok_crtp hrc h
    have hlen : R.data_.length = r * c := (hasShape_shaped hS hrc).2.2
    refine ⟨R, List.range (r * c), hR, hT, hS.2.1.trans (CRTP.over_rows_eq_crtp h).symm,
      hS.2.2.trans (CRTP.over_cols_eq_crtp h).symm, ?_, ?_, ?_⟩
    · intro i j hi hj
      rw [CRTP.over_rows_eq_crtp h] at hi
      rw [CRTP.over_cols_eq_crtp h] at hj
      refine ⟨e1.val i j, CRTP.expr_call_ok_crtp hrc hi hj h, ?_⟩
      rw [CRTP.matrix_call_ok_crtp hrc hS hi hj, hv i j hi hj]
    · intro p hp
      exact count_range_of_lt (by omega)
    · intro p hp
      rw [hlen]
      exact List.mem_range.1 hp
  · intro h
    obtain ⟨R, hR, hT, hS, hv⟩ := Virtual.ofExprTraced_ok_virtual hrc h
    have hlen : R.data_.length = r * c := (hasShape_shaped hS hrc).2.2
    refine ⟨R, List.range (r * c), hR, hT, hS.2.1.trans (Virtual.over_rows_eq_virtual h).symm,
      hS.2.2.trans (Virtual.over_cols_eq_virtual h).symm, ?_, ?_, ?_⟩
    · intro i j hi hj
      rw [Virtual.over_rows_eq_virtual h] at hi
      rw [Virtual.over_cols_eq_virtual h] at hj
      refine ⟨e2.val i j, Virtual.expr_call_ok_virtual hrc hi hj h, ?_⟩
      rw [Virtual.matrix_call_ok_virtual hrc hS hi hj, hv i j hi hj]
    · intro p hp
      exact count_range_of_lt (by omega)
    · intro p hp
      rw [hlen]
      exact List.mem_range.1 hp

/-- Witness of C8: a tree of two addition nodes over three 2x2 matrices, in each lazy
variant. -/
theorem materialise_faithful_witness :
    2 * 2 < 2 ^ 32
      ∧ (CRTP.MatrixExpr.add (.matrix (Matrix.new 2 2 1))
          (.add (.matrix (Matrix.new 2 2 2)) (.matrix (Matrix.new 2 2 3)))).Over 2 2
      ∧ ∃ R log, CRTP.Matrix.ofExpr (CRTP.MatrixExpr.add (.matrix (Matrix.new 2 2 1))
            (.add (.matrix (Matrix.new 2 2 2)) (.matrix (Matrix.new 2 2 3)))) = .ok R
        ∧ CRTP.Matrix.ofExprTraced (CRTP.MatrixExpr.add (.matrix (Matrix.new 2 2 1))
            (.add (.matrix (Matrix.new 2 2 2)) (.matrix (Matrix.new 2 2 3)))) = .ok (R, log)
        ∧ R.rows = (CRTP.MatrixExpr.add (.matrix (Matrix.new 2 2 1))
            (.add (.matrix (Matrix.new 2 2 2)) (.matrix (Matrix.new 2 2 3)))).rows
        ∧ R.cols = (CRTP.MatrixExpr.add (.matrix (Matrix.new 2 2 1))
            (.add (.matrix (Matrix.new 2 2 2)) (.matrix (Matrix.new 2 2 3)))).cols
        ∧ (∀ i j, i < (CRTP.MatrixExpr.add (.matrix (Matrix.new 2 2 1))
              (.add (.matrix (Matrix.new 2 2 2)) (.matrix (Matrix.new 2 2 3)))).rows →
            j < (CRTP.MatrixExpr.add (.matrix (Matrix.new 2 2 1))
              (.add (.matrix (Matrix.new 2 2 2)) (.matrix (Matrix.new 2 2 3)))).cols →
            ∃ x, (CRTP.MatrixExpr.add (.matrix (Matrix.new 2 2 1))
                (.add (.matrix (Matrix.new 2 2 2)) (.matrix (Matrix.new 2 2 3)))).call i j = .ok x
              ∧ (CRTP.MatrixExpr.matrix R).call i j = .ok x)
        ∧ (∀ p, p < R.data_.length → log.count p = 1) ∧ (∀ p ∈ log, p < R.data_.length) :=
  ⟨by decide,
    ⟨(by decide : (Matrix.new 2 2 1).HasShape 2 2),
      (by decide : (Matrix.new 2 2 2).HasShape 2 2),
      (by decide : (Matrix.new 2 2 3).HasShape 2 2)⟩,
    (materialise_faithful 2 2 (by decide)
      (.add (.matrix (Matrix.new 2 2 1))
        (.add (.matrix (Matrix.new 2 2 2)) (.matrix (Matrix.new 2 2 3))))
      (.matrix (Matrix.new 2 2 1))).1
      ⟨(by decide : (Matrix.new 2 2 1).HasShape 2 2),
        (by decide : (Matrix.new 2 2 2).HasShape 2 2),
        (by decide : (Matrix.new 2 2 3).HasShape 2 2)⟩⟩

/-- Counterexample to C8 as stated: the expression made of the matrix
`Matrix(65536, 65536)`, whose buffer is empty because `65536 * 65536` is `0` in `unsigned`.
Its shape is not empty, and its materialisation reads past the buffer at `(0, 0)`: there is
no matrix `Matrix(e)`, in either lazy variant. -/
theorem materialise_wrapped_shape :
    (CRTP.MatrixExpr.matrix (Matrix.new 65536 65536 0)).Over 65536 65536
      ∧ (Virtual.MatrixExpr.matrix (Matrix.new 65536 65536 0)).Over 65536 65536
      ∧ CRTP.Matrix.ofExpr (.matrix (Matrix.new 65536 65536 0)) = .error .undefined_behaviour
      ∧ Virtual.Matrix.ofExpr (.matrix (Matrix.new 65536 65536 0))
        = .error .undefined_behaviour :=
  ⟨(by decide : (Matrix.new 65536 65536 0).HasShape 65536 65536),
    (by decide : (Matrix.new 65536 65536 0).HasShape 65536 65536), by decide, by decide⟩

/-- C9, as the code has it. Matrix invariant: for all `unsigned` `rows` and `cols`, every
matrix built by the `(rows, cols, fill)` constructor or by a constructor from an expression,
in any of the three variants, has a buffer whose length is `rows * cols` reduced modulo
`2 ^ 32`, hence the exact product whenever `rows * cols < 2 ^ 32`; element writes and
additions keep `rows`, `cols` and the buffer length as they are. -/
theorem buffer_length (rows cols : Nat) (v : Val) (e1 : CRTP.MatrixExpr)
    (e2 : Virtual.MatrixExpr) (m A B : Matrix) (row col : Nat) (x : Val) :
    ((Matrix.new rows cols v).rows = rows ∧ (Matrix.new rows cols v).cols = cols
        ∧ (Matrix.new rows cols v).data_.length = u32 (rows * cols)
        ∧ (rows * cols < 2 ^ 32 → (Matrix.new rows cols v).data_.length = rows * cols))
      ∧ (∀ R, CRTP.Matrix.ofExpr e1 = .ok R → R.rows = e1.rows ∧ R.cols = e1.cols
          ∧ R.data_.length = u32 (e1.rows * e1.cols)
          ∧ (e1.rows * e1.cols < 2 ^ 32 → R.data_.length = e1.rows * e1.cols))
      ∧ (∀ R, Virtual.Matrix.ofExpr e2 = .ok R → R.rows = e2.rows ∧ R.cols = e2.cols
          ∧ R.data_.length = u32 (e2.rows * e2.cols)
          ∧ (e2.rows * e2.cols < 2 ^ 32 → R.data_.length = e2.rows * e2.cols))
      ∧ (∀ t, Simple.Matrix.assign m row col x = .ok t →
          t.rows = m.rows ∧ t.cols = m.cols ∧ t.data_.length = m.data_.length)
      ∧ (∀ t, CRTP.Matrix.assign m row col x = .ok t →
          t.rows = m.rows ∧ t.cols = m.cols ∧ t.data_.length = m.data_.length)
      ∧ (∀ t, Virtual.Matrix.assign m row col x = .ok t →
          t.rows = m.rows ∧ t.cols = m.cols ∧ t.data_.length = m.data_.length)
      ∧ (∀ s, Simple.operator_plus_state A B = .ok s →
          s.a = A ∧ s.b = B ∧ s.result.rows = A.rows ∧ s.result.cols = A.cols
            ∧ s.result.data_.length = u32 (A.rows * A.cols)
            ∧ (A.rows * A.cols < 2 ^ 32 → s.result.data_.length = A.rows * A.cols)) := by
  refine ⟨⟨rfl, rfl, by simp [Matrix.new], ?_⟩, ?_, ?_, ?_, ?_, ?_, ?_⟩
  · intro h
    simp [Matrix.new, u32_of_lt h]
  · intro R h
    obtain ⟨h1, h2, h3⟩ := ofExpr_keeps_crtp h
    exact ⟨h1, h2, h3, fun hlt => by rw [h3, u32_of_lt hlt]⟩
  · intro R h
    obtain ⟨h1, h2, h3⟩ := ofExpr_keeps_virtual h
    exact ⟨h1, h2, h3, fun hlt => by rw [h3, u32_of_lt hlt]⟩
  · intro t h
    exact Simple.assign_keeps h
  · intro t h
    exact assign_keeps_crtp h
  · intro t h
    exact assign_keeps_virtual h
  · intro s h
    obtain ⟨h1, h2, h3, h4, h5⟩ := operator_plus_keeps h
    exact ⟨h1, h2, h3, h4, h5, fun hlt => by rw [h5, u32_of_lt hlt]⟩

/-- Witness of C9: the 10000x10000 matrix of the benchmarks has `10000 * 10000` entries,
and the sum of two 2x2 matrices has the buffer of a 2x2 matrix. -/
theorem buffer_length_witness :
    10000 * 10000 < 2 ^ 32
      ∧ (Matrix.new 10000 10000 (1 / 100000)).data_.length = 10000 * 10000
      ∧ Simple.operator_plus_state (Matrix.new 2 2 1) (Matrix.new 2 2 1)
        = .ok ⟨Matrix.new 2 2 1, Matrix.new 2 2 1, Matrix.new 2 2 2⟩
      ∧ (Matrix.new 2 2 2).data_.length = u32 ((Matrix.new 2 2 1).rows * (Matrix.new 2 2 1).cols) :=
  ⟨by decide,
    (buffer_length 10000 10000 (1 / 100000) (.matrix (Matrix.new 2 2 1))
      (.matrix (Matrix.new 2 2 1)) (Matrix.new 2 2 1) (Matrix.new 2 2 1) (Matrix.new 2 2 1)
      0 0 0).1.2.2.2 (by decide),
    by decide!,
    ((buffer_length 10000 10000 (1 / 100000) (.matrix (Matrix.new 2 2 1))
      (.matrix (Matrix.new 2 2 1)) (Matrix.new 2 2 1) (Matrix.new 2 2 1) (Matrix.new 2 2 1)
      0 0 0).2.2.2.2.2.2 ⟨Matrix.new 2 2 1, Matrix.new 2 2 1, Matrix.new 2 2 2⟩
        (by decide!)).2.2.2.2.1⟩

/-- Counterexample to C9 as stated: `Matrix(65536, 65536)` has a buffer of length `0`, not
`65536 * 65536`. -/
theorem buffer_length_wrapped_shape :
    65536 < 2 ^ 32 ∧ (Matrix.new 65536 65536 0).data_.length = 0
      ∧ (Matrix.new 65536 65536 0).data_.length ≠ 65536 * 65536 := by
  refine ⟨by decide, by decide, by decide⟩

/-- C10, as the code has it. Instance counters of one tracked type, as a state starting at
`(0, 0)`: a construction by the constructor of the counter class, with
`created < INT_MAX`, changes the state to `(created + 1, destroyed)`; a construction by the
copy constructor, which the language generates, leaves the state as it is; a destruction
with `destroyed < INT_MAX` changes it to `(created, destroyed + 1)`; neither counter
decreases along a sequence of constructions, copies and destructions that runs without
signed overflow; and after `k` constructions by the constructor of the class, any number of
copies and `d` destructions, with `k, d <= INT_MAX = 2 ^ 31 - 1`, `created_count() = k` and
`deleted_count() = d`; for `CompteurInstances`, `instancesExistantes()` is then
`created - destroyed`. -/
theorem counters (s : InstanceCounter) (q : CompteurInstances) (evs : List Event) :
    (InstanceCounter.init.created_count = 0 ∧ InstanceCounter.init.deleted_count = 0
        ∧ CompteurInstances.init.totalCreations = 0
        ∧ CompteurInstances.init.totalDestructions = 0)
      ∧ (s.created_count < INT_MAX →
          s.step .construction = .ok ⟨s.created_count + 1, s.deleted_count⟩)
      ∧ s.step .copy = .ok ⟨s.created_count, s.deleted_count⟩
      ∧ (s.deleted_count < INT_MAX →
          s.step .destruction = .ok ⟨s.created_count, s.deleted_count + 1⟩)
      ∧ (∀ t, InstanceCounter.run evs s = .ok t →
          s.created_count ≤ t.created_count ∧ s.deleted_count ≤ t.deleted_count)
      ∧ ((evs.count .construction : Int) ≤ INT_MAX → (evs.count .destruction : Int) ≤ INT_MAX →
          ∃ t, InstanceCounter.run evs .init = .ok t
            ∧ t.created_count = evs.count .construction
            ∧ t.deleted_count = evs.count .destruction)
      ∧ (q.totalCreations < INT_MAX →
          q.step .construction = .ok ⟨q.totalCreations + 1, q.totalDestructions⟩)
      ∧ q.step .copy = .ok ⟨q.totalCreations, q.totalDestructions⟩
      ∧ (q.totalDestructions < INT_MAX →
          q.step .destruction = .ok ⟨q.totalCreations, q.totalDestructions + 1⟩)
      ∧ (∀ t, CompteurInstances.run evs q = .ok t →
          q.totalCreations ≤ t.totalCreations ∧ q.totalDestructions ≤ t.totalDestructions)
      ∧ ((evs.count .construction : Int) ≤ INT_MAX → (evs.count .destruction : Int) ≤ INT_MAX →
          ∃ t, CompteurInstances.run evs .init = .ok t
            ∧ t.totalCreations = evs.count .construction
            ∧ t.totalDestructions = evs.count .destruction
            ∧ t.instancesExistantes = .ok (t.totalCreations - t.totalDestructions)) := by
  refine ⟨⟨rfl, rfl, rfl, rfl⟩, ?_, rfl, ?_, ?_, ?_, ?_, rfl, ?_, ?_, ?_⟩
  · intro h
    simp only [InstanceCounter.step, InstanceCounter.construct, InstanceCounter.created_count,
      InstanceCounter.deleted_count] at h ⊢
    rw [incr_ok h]
  · intro h
    simp only [InstanceCounter.step, InstanceCounter.destruct, InstanceCounter.created_count,
      InstanceCounter.deleted_count] at h ⊢
    rw [incr_ok h]
  · intro t h
    exact InstanceCounter.run_mono_ic evs s t h
  · intro h1 h2
    have h := InstanceCounter.run_counts_ic evs .init
      (by simpa [InstanceCounter.init] using h1) (by simpa [InstanceCounter.init] using h2)
    refine ⟨_, h, ?_, ?_⟩
    · simp [InstanceCounter.created_count, InstanceCounter.init]
    · simp [InstanceCounter.deleted_count, InstanceCounter.init]
  · intro h
    simp only [CompteurInstances.step, CompteurInstances.construct,
      CompteurInstances.totalCreations, CompteurInstances.totalDestructions] at h ⊢
    rw [incr_ok h]
  · intro h
    simp only [CompteurInstances.step, CompteurInstances.destruct,
      CompteurInstances.totalCreations, CompteurInstances.totalDestructions] at h ⊢
    rw [incr_ok h]
  · intro t h
    exact CompteurInstances.run_mono_ci evs q t h
  · intro h1 h2
    have h := CompteurInstances.run_counts_ci evs .init
      (by simpa [CompteurInstances.init] using h1) (by simpa [CompteurInstances.init] using h2)
    refine ⟨_, h, ?_, ?_, ?_⟩
    · simp [CompteurInstances.totalCreations, CompteurInstances.init]
    · simp [CompteurInstances.totalDestructions, CompteurInstances.init]
    · apply CompteurInstances.instancesExistantes_ok
      · simp [CompteurInstances.init]
      · simpa [CompteurInstances.init] using h1
      · simp [CompteurInstances.init]
      · simpa [CompteurInstances.init] using h2

/-- Witness of C10: two constructions by the constructor of the class, one copy and one
destruction, from the initial state. -/
theorem counters_witness :
    ((([Event.construction, .copy, .construction, .destruction].count .construction : Nat)
        : Int) ≤ INT_MAX)
      ∧ ((([Event.construction, .copy, .construction, .destruction].count .destruction : Nat)
        : Int) ≤ INT_MAX)
      ∧ ∃ t, InstanceCounter.run [.construction, .copy, .construction, .destruction] .init
          = .ok t
        ∧ t.created_count
          = [Event.construction, .copy, .construction, .destruction].count .construction
        ∧ t.deleted_count
          = [Event.construction, .copy, .construction, .destruction].count .destruction :=
  ⟨by decide, by decide,
    (counters .init .init [.construction, .copy, .construction, .destruction]).2.2.2.2.2.1
      (by decide) (by decide)⟩

/-- Counterexample to C10 as stated. An object constructed as a copy of another is a
construction that changes no counter: after one object is constructed and a second one is
copied from it, two objects were constructed and `created_count()` is `1`; after both are
destroyed `deleted_count()` is `2` and `instancesExistantes()` is `-1`. And `2 ^ 31 - 1`
constructions by the constructor of the class bring `created_count_` to `INT_MAX`: the next
one is a signed overflow, so after `2 ^ 31` constructions `created_count()` is not
`2 ^ 31`. -/
theorem counters_uncounted_construction :
    InstanceCounter.step ⟨1, 0⟩ .copy = .ok ⟨1, 0⟩
      ∧ InstanceCounter.step ⟨1, 0⟩ .copy ≠ .ok ⟨1 + 1, 0⟩
      ∧ ([Event.construction, .copy].filter (fun ev => decide (ev ≠ .destruction))).length = 2
      ∧ InstanceCounter.run [.construction, .copy] .init = .ok ⟨1, 0⟩
      ∧ InstanceCounter.run [.construction, .copy, .destruction, .destruction] .init
        = .ok ⟨1, 2⟩
      ∧ CompteurInstances.run [.construction, .copy, .destruction, .destruction] .init
        = .ok ⟨1, 2⟩
      ∧ CompteurInstances.instancesExistantes ⟨1, 2⟩ = .ok (-1)
      ∧ InstanceCounter.run (List.replicate 2147483647 .construction) .init
        = .ok ⟨2147483647, 0⟩
      ∧ InstanceCounter.construct ⟨2147483647, 0⟩ = .error .undefined_behaviour
      ∧ InstanceCounter.run (List.replicate 2147483648 .construction) .init
        = .error .undefined_behaviour := by
  exact ⟨by decide, by decide, by decide, by decide, by decide, by decide, by decide,
    InstanceCounter.run_constructions 2147483647 (by decide), by decide,
    InstanceCounter.run_overflow_ic 2147483648 .init (by decide) (by decide)⟩

/-! ## Writing one entry -/

theorem flat_inj {c i j i2 j2 : Nat} (hj : j < c) (hj2 : j2 < c)
    (h : i2 * c + j2 = i * c + j) : i2 = i ∧ j2 = j := by
  have h1 := flat_div (i := i) hj
  have h2 := flat_div (i := i2) hj2
  have h3 := flat_mod (i := i) hj
  have h4 := flat_mod (i := i2) hj2
  rw [h] at h2 h4
  exact ⟨h2.symm.trans h1, h4.symm.trans h3⟩

/-- The buffer after the writing of `x` at `(i, j)`: the shape is kept, the entry `(i, j)`
is `x` and the other entries of the shape are as before. -/
theorem set_shaped {m : Matrix} {r c i j : Nat} (hm : m.Shaped r c) (hi : i < r) (hj : j < c)
    (x : Val) :
    Matrix.Shaped r c ⟨m.rows_, m.cols_, m.data_.set (i * c + j) x⟩
      ∧ Matrix.elem ⟨m.rows_, m.cols_, m.data_.set (i * c + j) x⟩ i j = x
      ∧ ∀ i2 j2, i2 < r → j2 < c → (i2, j2) ≠ (i, j) →
          Matrix.elem ⟨m.rows_, m.cols_, m.data_.set (i * c + j) x⟩ i2 j2 = m.elem i2 j2 := by
  have hlt : i * c + j < m.data_.length := by rw [hm.2.2]; exact flat_lt hi hj
  refine ⟨⟨hm.1, hm.2.1, by simp [hm.2.2]⟩, ?_, ?_⟩
  · simp [Matrix.elem, hm.2.1, List.getD_eq_getElem?_getD, List.getElem?_set_self hlt]
  · intro i2 j2 _ hj2 hne
    have hidx : i * c + j ≠ i2 * c + j2 := by
      intro e
      obtain ⟨e1, e2⟩ := flat_inj hj hj2 e.symm
      exact hne (by rw [e1, e2])
    simp only [Matrix.elem, hm.2.1, List.getD_eq_getElem?_getD, List.getElem?_set_ne hidx]

theorem assign_ok_crtp {m : Matrix} {r c i j : Nat} (hm : m.Shaped r c)
    (hrc : r * c < 2 ^ 32) (hi : i < r) (hj : j < c) (x : Val) :
    CRTP.Matrix.assign m i j x = .ok ⟨m.rows_, m.cols_, m.data_.set (i * c + j) x⟩ := by
  have hlt : i * c + j < m.data_.length := by rw [hm.2.2]; exact flat_lt hi hj
  simp only [CRTP.Matrix.assign, vecSet, Matrix.index_flat hm hrc hi hj, hlt, if_true]

theorem assign_ok_virtual {m : Matrix} {r c i j : Nat} (hm : m.Shaped r c)
    (hrc : r * c < 2 ^ 32) (hi : i < r) (hj : j < c) (x : Val) :
    Virtual.Matrix.assign m i j x = .ok ⟨m.rows_, m.cols_, m.data_.set (i * c + j) x⟩ := by
  have hlt : i * c + j < m.data_.length := by rw [hm.2.2]; exact flat_lt hi hj
  simp only [Virtual.Matrix.assign, vecSet, Matrix.index_flat hm hrc hi hj, hlt, if_true]

theorem call_matrix_crtp {m : Matrix} {r c i j : Nat} (hm : m.Shaped r c)
    (hrc : r * c < 2 ^ 32) (hi : i < r) (hj : j < c) :
    (CRTP.MatrixExpr.matrix m).call i j = .ok (m.elem i j) := by
  simpa [CRTP.MatrixExpr.call] using Matrix.read_ok hm hrc hi hj

theorem call_matrix_virtual {m : Matrix} {r c i j : Nat} (hm : m.Shaped r c)
    (hrc : r * c < 2 ^ 32) (hi : i < r) (hj : j < c) :
    (Virtual.MatrixExpr.matrix m).call i j = .ok (m.elem i j) := by
  simpa [Virtual.MatrixExpr.call] using Matrix.read_ok hm hrc hi hj

/-- C11. Element set/get: for every matrix of shape `(r, c)` with `r * c < 2 ^ 32`, every
`i < r`, `j < c` and value `x`, in each of the three variants the writing of `x` through the
mutable accessor at `(i, j)` succeeds; afterwards reading `(i, j)` returns `x`, reading any
other `(i2, j2)` of the shape returns its previous value, and `rows()` and `cols()` are
unchanged. The row-major position `i * cols + j` is injective on the pairs of the shape. -/
theorem set_get (r c : Nat) (hrc : r * c < 2 ^ 32) (m : Matrix) (hm : m.HasShape r c)
    (i j : Nat) (hi : i < r) (hj : j < c) (x : Val) :
    (∃ t, Simple.Matrix.assign m i j x = .ok t ∧ t.rows = m.rows ∧ t.cols = m.cols
        ∧ Simple.Matrix.get t i j = .ok x ∧ Simple.Matrix.getMut t i j = .ok x
        ∧ ∀ i2 j2, i2 < r → j2 < c → (i2, j2) ≠ (i, j) →
            ∃ y, Simple.Matrix.get m i2 j2 = .ok y ∧ Simple.Matrix.get t i2 j2 = .ok y)
      ∧ (∃ t, CRTP.Matrix.assign m i j x = .ok t ∧ t.rows = m.rows ∧ t.cols = m.cols
        ∧ (CRTP.MatrixExpr.matrix t).call i j = .ok x
        ∧ ∀ i2 j2, i2 < r → j2 < c → (i2, j2) ≠ (i, j) →
            ∃ y, (CRTP.MatrixExpr.matrix m).call i2 j2 = .ok y
              ∧ (CRTP.MatrixExpr.matrix t).call i2 j2 = .ok y)
      ∧ (∃ t, Virtual.Matrix.assign m i j x = .ok t ∧ t.rows = m.rows ∧ t.cols = m.cols
        ∧ (Virtual.MatrixExpr.matrix t).call i j = .ok x
        ∧ ∀ i2 j2, i2 < r → j2 < c → (i2, j2) ≠ (i, j) →
            ∃ y, (Virtual.MatrixExpr.matrix m).call i2 j2 = .ok y
              ∧ (Virtual.MatrixExpr.matrix t).call i2 j2 = .ok y)
      ∧ (∀ i2 j2, i2 < r → j2 < c → m.index i2 j2 = m.index i j → i2 = i ∧ j2 = j) := by
  have hS := hasShape_shaped hm hrc
  obtain ⟨hT, hx, hy⟩ := set_shaped hS hi hj x
  refine ⟨⟨_, Simple.Matrix.assign_ok hS hrc hi hj x, rfl, rfl, ?_, ?_, ?_⟩,
    ⟨_, assign_ok_crtp hS hrc hi hj x, rfl, rfl, ?_, ?_⟩,
    ⟨_, assign_ok_virtual hS hrc hi hj x, rfl, rfl, ?_, ?_⟩, ?_⟩
  · rw [Simple.Matrix.get_ok hT hrc hi hj, hx]
  · have h := Matrix.read_ok hT hrc hi hj
    rw [Matrix.index_flat hT hrc hi hj, hx] at h
    simp only [Simple.Matrix.getMut, Simple.Matrix.ref_ok hT hrc hi hj]
    exact h
  · intro i2 j2 hi2 hj2 hne
    exact ⟨m.elem i2 j2, Simple.Matrix.get_ok hS hrc hi2 hj2, by
      rw [Simple.Matrix.get_ok hT hrc hi2 hj2, hy i2 j2 hi2 hj2 hne]⟩
  · rw [call_matrix_crtp hT hrc hi hj, hx]
  · intro i2 j2 hi2 hj2 hne
    exact ⟨m.elem i2 j2, call_matrix_crtp hS hrc hi2 hj2, by
      rw [call_matrix_crtp hT hrc hi2 hj2, hy i2 j2 hi2 hj2 hne]⟩
  · rw [call_matrix_virtual hT hrc hi hj, hx]
  · intro i2 j2 hi2 hj2 hne
    exact ⟨m.elem i2 j2, call_matrix_virtual hS hrc hi2 hj2, by
      rw [call_matrix_virtual hT hrc hi2 hj2, hy i2 j2 hi2 hj2 hne]⟩
  · intro i2 j2 hi2 hj2 h
    rw [Matrix.index_flat hS hrc hi2 hj2, Matrix.index_flat hS hrc hi hj] at h
    exact flat_inj hj hj2 h

/-- Witness of C11: writing 9 at `(1, 2)` of the 2x3 matrix filled with 4. -/
theorem set_get_witness :
    2 * 3 < 2 ^ 32 ∧ (Matrix.new 2 3 4).HasShape 2 3 ∧ 1 < 2 ∧ 2 < 3
      ∧ ∃ t, Simple.Matrix.assign (Matrix.new 2 3 4) 1 2 9 = .ok t
        ∧ t.rows = (Matrix.new 2 3 4).rows ∧ t.cols = (Matrix.new 2 3 4).cols
        ∧ Simple.Matrix.get t 1 2 = .ok 9 ∧ Simple.Matrix.getMut t 1 2 = .ok 9
        ∧ ∀ i2 j2, i2 < 2 → j2 < 3 → (i2, j2) ≠ (1, 2) →
            ∃ y, Simple.Matrix.get (Matrix.new 2 3 4) i2 j2 = .ok y
              ∧ Simple.Matrix.get t i2 j2 = .ok y :=
  ⟨by decide, by decide, by decide, by decide,
    (set_get 2 3 (by decide) (Matrix.new 2 3 4) (by decide) 1 2 (by decide) (by decide) 9).1⟩

/-- C12, at the input where the code departs from it: `A = Matrix(2, 2, 1.0)` and
`B = Matrix(1, 1, 1.0)`. The materialisation of `A + B` runs over the shape of `A`; at
`(0, 1)` the position computed for `B` is `0 * 1 + 1 = 1`, which is not below the length
`1` of the buffer of `B`: the addition node reads past that buffer there, and so does the
materialisation, in both lazy variants. -/
theorem lazy_mismatch_reads_past_buffer :
    (Matrix.new 2 2 1).HasShape 2 2 ∧ (Matrix.new 1 1 1).HasShape 1 1
      ∧ (CRTP.operator_plus (.matrix (Matrix.new 2 2 1)) (.matrix (Matrix.new 1 1 1))).rows = 2
      ∧ (CRTP.operator_plus (.matrix (Matrix.new 2 2 1)) (.matrix (Matrix.new 1 1 1))).cols = 2
      ∧ (Matrix.new 1 1 1).index 0 1 = 1 ∧ (Matrix.new 1 1 1).data_.length = 1
      ∧ (CRTP.MatrixExpr.matrix (Matrix.new 1 1 1)).call 0 1 = .error .undefined_behaviour
      ∧ (CRTP.operator_plus (.matrix (Matrix.new 2 2 1)) (.matrix (Matrix.new 1 1 1))).call 0 1
        = .error .undefined_behaviour
      ∧ CRTP.Matrix.ofExpr
          (CRTP.operator_plus (.matrix (Matrix.new 2 2 1)) (.matrix (Matrix.new 1 1 1)))
        = .error .undefined_behaviour
      ∧ (Virtual.MatrixExpr.matrix (Matrix.new 1 1 1)).call 0 1 = .error .undefined_behaviour
      ∧ (Virtual.operator_plus (.matrix (Matrix.new 2 2 1)) (.matrix (Matrix.new 1 1 1))).call 0 1
        = .error .undefined_behaviour
      ∧ Virtual.Matrix.ofExpr
          (Virtual.operator_plus (.matrix (Matrix.new 2 2 1)) (.matrix (Matrix.new 1 1 1)))
        = .error .undefined_behaviour
      ∧ Simple.operator_plus (Matrix.new 2 2 1) (Matrix.new 1 1 1) = .error .invalid_argument := by
  refine ⟨by decide, by decide, by decide, by decide, by decide, by decide, by decide,
    by decide, by decide, by decide, by decide, by decide, by decide⟩

/-! ## Sums -/

theorem div_lt_rows {r c p : Nat} (h : p < r * c) : p / c < r :=
  Nat.div_lt_of_lt_mul (by rw [Nat.mul_comm]; exact h)

theorem mod_lt_cols {r c p : Nat} (h : p < r * c) : p % c < c := by
  apply Nat.mod_lt
  rcases Nat.eq_zero_or_pos c with h0 | h0
  · subst h0; simp at h
  · exact h0

theorem elem_unflat {m : Matrix} {r c p : Nat} (hm : m.Shaped r c) :
    m.elem (p / c) (p % c) = m.data_.getD p 0 := by
  rw [Matrix.elem, hm.2.1, Nat.div_add_mod']

theorem data_eq_map {m : Matrix} {r c : Nat} (hm : m.Shaped r c) :
    m.data_ = (List.range (r * c)).map (fun p => m.elem (p / c) (p % c)) := by
  apply List.ext_getElem?
  intro p
  by_cases hp : p < r * c
  · have hlt : p < m.data_.length := by rw [hm.2.2]; exact hp
    rw [List.getElem?_map, List.getElem?_range hp, Option.map_some', elem_unflat hm,
      List.getD_eq_getElem?_getD, List.getElem?_eq_getElem hlt]
    rfl
  · rw [List.getElem?_eq_none (by rw [hm.2.2]; omega),
      List.getElem?_eq_none (by simp; omega)]

/-- The sum of a matrix whose entries are given by `g`. -/
theorem sum_of_values {m : Matrix} {r c : Nat} (hm : m.Shaped r c) (g : Nat → Nat → Val)
    (hg : ∀ i j, i < r → j < c → m.elem i j = g i j) :
    m.sum = ((List.range (r * c)).map (fun p => g (p / c) (p % c))).foldl
      (fun acc x => acc + x) 0 := by
  have h : (List.range (r * c)).map (fun p => m.elem (p / c) (p % c))
      = (List.range (r * c)).map (fun p => g (p / c) (p % c)) := by
    apply List.map_congr_left
    intro p hp
    have hp2 := List.mem_range.1 hp
    exact hg _ _ (div_lt_rows hp2) (mod_lt_cols hp2)
  unfold Matrix.sum
  rw [data_eq_map hm, h]

/-- The sum of a matrix all of whose entries are `x`. -/
theorem sum_of_const {m : Matrix} {r c : Nat} (hm : m.Shaped r c) (x : Val)
    (hx : ∀ i j, i < r → j < c → m.elem i j = x) : m.sum = ((r * c : Nat) : Val) * x := by
  rw [sum_of_values hm (fun _ _ => x) hx]
  have h : (List.range (r * c)).map (fun _ => x) = List.replicate (r * c) x := by
    rw [List.eq_replicate_iff]
    refine ⟨by simp, ?_⟩
    intro b hb
    obtain ⟨_, _, e⟩ := List.mem_map.1 hb
    exact e.symm
  rw [h, foldl_add_replicate]
  ring

/-- The two nested summing loops of `MatrixExpr::sum()`: when the accessor gives `g i j`
at every position of the shape, they add the values in row-major order. -/
theorem sum_loops (f : Nat → Nat → Except Err Val) (g : Nat → Nat → Val) (r c : Nat)
    (hf : ∀ i j, i < r → j < c → f i j = .ok (g i j)) :
    forLoop (fun i t1 => forLoop (fun j t2 =>
        match f i j with
        | .ok x => .ok (t2 + x)
        | .error er => .error er) c 0 t1) r 0 (0 : Val)
      = .ok (((List.range (r * c)).map (fun p => g (p / c) (p % c))).foldl
          (fun acc x => acc + x) 0) := by
  have h := nested_rule (fun i j (t2 : Val) =>
        match f i j with
        | .ok x => .ok (t2 + x)
        | .error er => .error er) (fun _ => c) r c
      (fun k t => t = ((List.range k).map (fun p => g (p / c) (p % c))).foldl
          (fun acc x => acc + x) 0) (fun _ => False)
      (fun _ _ _ => rfl)
      (by
        intro i j t hi hj hP
        simp only [hf i j hi hj, Ends]
        rw [List.range_succ, List.map_append, List.foldl_append, ← hP]
        simp [flat_div hj, flat_mod hj])
      0 (by simp)
  obtain ⟨t, ht, hP⟩ := (Ends.ok_iff _ _).1 h
  rw [ht, hP]

theorem new_elem {r c i j : Nat} (v : Val) (hrc : r * c < 2 ^ 32) (hi : i < r) (hj : j < c) :
    (Matrix.new r c v).elem i j = v := by
  have h := flat_lt hi hj
  simp [Matrix.elem, Matrix.new, u32_of_lt hrc, List.getD_eq_getElem?_getD,
    List.getElem?_replicate, h]

theorem expr_sum_ok_crtp {r c : Nat} (hrc : r * c < 2 ^ 32) {e : CRTP.MatrixExpr}
    (h : e.Over r c) :
    e.sum = .ok (((List.range (r * c)).map (fun p => e.val (p / c) (p % c))).foldl
      (fun acc x => acc + x) 0) := by
  unfold CRTP.MatrixExpr.sum
  rw [CRTP.over_rows_eq_crtp h, CRTP.over_cols_eq_crtp h]
  exact sum_loops (fun i j => e.call i j) e.val r c
    (fun i j hi hj => CRTP.expr_call_ok_crtp hrc hi hj h)

theorem expr_sum_ok_virtual {r c : Nat} (hrc : r * c < 2 ^ 32) {e : Virtual.MatrixExpr}
    (h : e.Over r c) :
    e.sum = .ok (((List.range (r * c)).map (fun p => e.val (p / c) (p % c))).foldl
      (fun acc x => acc + x) 0) := by
  unfold Virtual.MatrixExpr.sum
  rw [Virtual.over_rows_eq_virtual h, Virtual.over_cols_eq_virtual h]
  exact sum_loops (fun i j => e.call i j) e.val r c
    (fun i j hi hj => Virtual.expr_call_ok_virtual hrc hi hj h)

theorem chain_elem_crtp {r c : Nat} (hrc : r * c < 2 ^ 32) {a : Matrix} {bs : List Matrix}
    (ha : a.HasShape r c) (hbs : ∀ b ∈ bs, b.HasShape r c) :
    ∃ R, CRTP.Matrix.ofExpr (CRTP.chain a bs) = .ok R ∧ R.HasShape r c
      ∧ ∀ i j, i < r → j < c → R.elem i j = chainVal a bs i j := by
  obtain ⟨R, hR, hS, hv⟩ := CRTP.ofExpr_ok_crtp hrc (CRTP.chain_over_crtp ha hbs)
  exact ⟨R, hR, hS, fun i j hi hj => by rw [hv i j hi hj, CRTP.chain_val_crtp]⟩

theorem chain_elem_virtual {r c : Nat} (hrc : r * c < 2 ^ 32) {a : Matrix} {bs : List Matrix}
    (ha : a.HasShape r c) (hbs : ∀ b ∈ bs, b.HasShape r c) :
    ∃ R, Virtual.Matrix.ofExpr (Virtual.chain a bs) = .ok R ∧ R.HasShape r c
      ∧ ∀ i j, i < r → j < c → R.elem i j = chainVal a bs i j := by
  obtain ⟨R, hR, hS, hv⟩ := Virtual.ofExpr_ok_virtual hrc (Virtual.chain_over_virtual ha hbs)
  exact ⟨R, hR, hS, fun i j hi hj => by rw [hv i j hi hj, Virtual.chain_val_virtual]⟩

theorem chain_elem_simple {r c : Nat} (hrc : r * c < 2 ^ 32) {a : Matrix} {bs : List Matrix}
    (ha : a.HasShape r c) (hbs : ∀ b ∈ bs, b.HasShape r c) :
    ∃ R, Simple.chain a bs = .ok R ∧ R.HasShape r c
      ∧ ∀ i j, i < r → j < c → R.elem i j = chainVal a bs i j := by
  obtain ⟨R, hR, hS, hv⟩ := Simple.chain_ok_simple hrc bs a ha hbs
  refine ⟨R, hR, hS, fun i j hi hj => ?_⟩
  have h := hv i j hi hj
  rw [Simple.Matrix.get_ok (hasShape_shaped hS hrc) hrc hi hj] at h
  exact Except.ok.inj h

/-- The values of the chain of `n + 1` copies of the matrix `Matrix(r, c, v)`. -/
theorem copies_val {r c : Nat} (hrc : r * c < 2 ^ 32) (v : Val) (n : Nat) {i j : Nat}
    (hi : i < r) (hj : j < c) :
    chainVal (Matrix.new r c v) (List.replicate n (Matrix.new r c v)) i j = (n + 1) * v := by
  rw [chainVal_replicate, new_elem v hrc hi hj]

theorem copies_hasShape {r c : Nat} (hr : r < 2 ^ 32) (hc : c < 2 ^ 32) (v : Val) (n : Nat) :
    ∀ b ∈ List.replicate n (Matrix.new r c v), b.HasShape r c := by
  intro b hb
  rw [List.eq_of_mem_replicate hb]
  exact Matrix.new_hasShape r c v hr hc

theorem copies_sum_crtp {r c : Nat} (hr : r < 2 ^ 32) (hc : c < 2 ^ 32) (hrc : r * c < 2 ^ 32)
    (v : Val) (n : Nat) :
    ∃ R, CRTP.Matrix.ofExpr (CRTP.chain (Matrix.new r c v)
        (List.replicate n (Matrix.new r c v))) = .ok R
      ∧ R.sum = ((r * c : Nat) : Val) * ((n + 1) * v) := by
  obtain ⟨R, hR, hS, hv⟩ := chain_elem_crtp hrc (Matrix.new_hasShape r c v hr hc)
    (copies_hasShape hr hc v n)
  exact ⟨R, hR, sum_of_const (hasShape_shaped hS hrc) _
    (fun i j hi hj => by rw [hv i j hi hj, copies_val hrc v n hi hj])⟩

theorem copies_sum_virtual {r c : Nat} (hr : r < 2 ^ 32) (hc : c < 2 ^ 32)
    (hrc : r * c < 2 ^ 32) (v : Val) (n : Nat) :
    ∃ R, Virtual.Matrix.ofExpr (Virtual.chain (Matrix.new r c v)
        (List.replicate n (Matrix.new r c v))) = .ok R
      ∧ R.sum = ((r * c : Nat) : Val) * ((n + 1) * v) := by
  obtain ⟨R, hR, hS, hv⟩ := chain_elem_virtual hrc (Matrix.new_hasShape r c v hr hc)
    (copies_hasShape hr hc v n)
  exact ⟨R, hR, sum_of_const (hasShape_shaped hS hrc) _
    (fun i j hi hj => by rw [hv i j hi hj, copies_val hrc v n hi hj])⟩

theorem copies_sum_simple {r c : Nat} (hr : r < 2 ^ 32) (hc : c < 2 ^ 32)
    (hrc : r * c < 2 ^ 32) (v : Val) (n : Nat) :
    ∃ R, Simple.chain (Matrix.new r c v) (List.replicate n (Matrix.new r c v)) = .ok R
      ∧ R.sum = ((r * c : Nat) : Val) * ((n + 1) * v) := by
  obtain ⟨R, hR, hS, hv⟩ := chain_elem_simple hrc (Matrix.new_hasShape r c v hr hc)
    (copies_hasShape hr hc v n)
  exact ⟨R, hR, sum_of_const (hasShape_shaped hS hrc) _
    (fun i j hi hj => by rw [hv i j hi hj, copies_val hrc v n hi hj])⟩

/-- C16. Sum of an N-way chain: for `unsigned` `r`, `c` with `r * c < 2 ^ 32`, every fill
value `v` and `N >= 2`, the result `R` of the chain `M + ... + M` with `N` occurrences of
`M = Matrix(r, c, v)` exists in each variant and has `R.sum() = N * r * c * v`. For
`M = Matrix(2, 2, 1.0)` and `N = 4` the sum is `16`; for the eager benchmark
(`r = c = 10000`, `v = 1e-5`, `N = 2, 4, 6`) the sums are `2000`, `4000` and `6000`. -/
theorem chain_sum (r c : Nat) (hr : r < 2 ^ 32) (hc : c < 2 ^ 32) (hrc : r * c < 2 ^ 32)
    (v : Val) (N : Nat) (hN : 2 ≤ N) :
    (∃ R1 R2 R3, CRTP.Matrix.ofExpr (CRTP.chain (Matrix.new r c v)
          (List.replicate (N - 1) (Matrix.new r c v))) = .ok R1
        ∧ Virtual.Matrix.ofExpr (Virtual.chain (Matrix.new r c v)
          (List.replicate (N - 1) (Matrix.new r c v))) = .ok R2
        ∧ Simple.chain (Matrix.new r c v) (List.replicate (N - 1) (Matrix.new r c v)) = .ok R3
        ∧ R1.sum = N * r * c * v ∧ R2.sum = N * r * c * v ∧ R3.sum = N * r * c * v)
      ∧ (∃ R1 R2 R3, CRTP.Matrix.ofExpr (CRTP.chain (Matrix.new 2 2 1)
          (List.replicate 3 (Matrix.new 2 2 1))) = .ok R1
        ∧ Virtual.Matrix.ofExpr (Virtual.chain (Matrix.new 2 2 1)
          (List.replicate 3 (Matrix.new 2 2 1))) = .ok R2
        ∧ Simple.chain (Matrix.new 2 2 1) (List.replicate 3 (Matrix.new 2 2 1)) = .ok R3
        ∧ R1.sum = 16 ∧ R2.sum = 16 ∧ R3.sum = 16)
      ∧ (∃ R2 R4 R6,
        Simple.chain (Matrix.new 10000 10000 (1 / 100000))
          (List.replicate 1 (Matrix.new 10000 10000 (1 / 100000))) = .ok R2
        ∧ Simple.chain (Matrix.new 10000 10000 (1 / 100000))
          (List.replicate 3 (Matrix.new 10000 10000 (1 / 100000))) = .ok R4
        ∧ Simple.chain (Matrix.new 10000 10000 (1 / 100000))
          (List.replicate 5 (Matrix.new 10000 10000 (1 / 100000))) = .ok R6
        ∧ R2.sum = 2000 ∧ R4.sum = 4000 ∧ R6.sum = 6000) := by
  have hcast : (((N - 1 : Nat) : Val) + 1) = (N : Val) := by
    have : N - 1 + 1 = N := by omega
    exact_mod_cast this
  refine ⟨?_, ?_, ?_⟩
  · obtain ⟨R1, h1, s1⟩ := copies_sum_crtp hr hc hrc v (N - 1)
    obtain ⟨R2, h2, s2⟩ := copies_sum_virtual hr hc hrc v (N - 1)
    obtain ⟨R3, h3, s3⟩ := copies_sum_simple hr hc hrc v (N - 1)
    refine ⟨R1, R2, R3, h1, h2, h3, ?_, ?_, ?_⟩
    · rw [s1, hcast]; push_cast; ring
    · rw [s2, hcast]; push_cast; ring
    · rw [s3, hcast]; push_cast; ring
  · obtain ⟨R1, h1, s1⟩ := copies_sum_crtp (r := 2) (c := 2) (by decide) (by decide)
      (by decide) 1 3
    obtain ⟨R2, h2, s2⟩ := copies_sum_virtual (r := 2) (c := 2) (by decide) (by decide)
      (by decide) 1 3
    obtain ⟨R3, h3, s3⟩ := copies_sum_simple (r := 2) (c := 2) (by decide) (by decide)
      (by decide) 1 3
    refine ⟨R1, R2, R3, h1, h2, h3, ?_, ?_, ?_⟩
    · rw [s1]; norm_num
    · rw [s2]; norm_num
    · rw [s3]; norm_num
  · obtain ⟨R2, h2, s2⟩ := copies_sum_simple (r := 10000) (c := 10000) (by decide) (by decide)
      (by decide) (1 / 100000) 1
    obtain ⟨R4, h4, s4⟩ := copies_sum_simple (r := 10000) (c := 10000) (by decide) (by decide)
      (by decide) (1 / 100000) 3
    obtain ⟨R6, h6, s6⟩ := copies_sum_simple (r := 10000) (c := 10000) (by decide) (by decide)
      (by decide) (1 / 100000) 5
    refine ⟨R2, R4, R6, h2, h4, h6, ?_, ?_, ?_⟩
    · rw [s2]; norm_num
    · rw [s4]; norm_num
    · rw [s6]; norm_num

/-- Witness of C16: the 3-way chain of the 3x4 matrix filled with `1/2`. -/
theorem chain_sum_witness :
    3 < 2 ^ 32 ∧ 4 < 2 ^ 32 ∧ 3 * 4 < 2 ^ 32 ∧ 2 ≤ 3
      ∧ ∃ R1 R2 R3, CRTP.Matrix.ofExpr (CRTP.chain (Matrix.new 3 4 (1 / 2))
          (List.replicate (3 - 1) (Matrix.new 3 4 (1 / 2)))) = .ok R1
        ∧ Virtual.Matrix.ofExpr (Virtual.chain (Matrix.new 3 4 (1 / 2))
          (List.replicate (3 - 1) (Matrix.new 3 4 (1 / 2)))) = .ok R2
        ∧ Simple.chain (Matrix.new 3 4 (1 / 2))
          (List.replicate (3 - 1) (Matrix.new 3 4 (1 / 2))) = .ok R3
        ∧ R1.sum = (3 : Nat) * (3 : Nat) * (4 : Nat) * (1 / 2)
        ∧ R2.sum = (3 : Nat) * (3 : Nat) * (4 : Nat) * (1 / 2)
        ∧ R3.sum = (3 : Nat) * (3 : Nat) * (4 : Nat) * (1 / 2) :=
  ⟨by decide, by decide, by decide, by decide,
    (chain_sum 3 4 (by decide) (by decide) (by decide) (1 / 2) 3 (by decide)).1⟩

/-- C18. Two sum implementations agree: in both lazy variants, for every expression `e`
over matrices of one shape `(r, c)` with `r * c < 2 ^ 32`, the generic
`MatrixExpr::sum()` of `e` returns the value of `Matrix(e).sum()`; in particular, for a
matrix, the base-class sum and `Matrix::sum` give the same value. -/
theorem sums_agree (r c : Nat) (hrc : r * c < 2 ^ 32) (e1 : CRTP.MatrixExpr)
    (e2 : Virtual.MatrixExpr) (m : Matrix) :
    (e1.Over r c → ∃ R, CRTP.Matrix.ofExpr e1 = .ok R ∧ e1.sum = .ok R.sum)
      ∧ (e2.Over r c → ∃ R, Virtual.Matrix.ofExpr e2 = .ok R ∧ e2.sum = .ok R.sum)
      ∧ (m.HasShape r c → (CRTP.MatrixExpr.matrix m).sum = .ok m.sum
          ∧ (Virtual.MatrixExpr.matrix m).sum = .ok m.sum) := by
  refine ⟨?_, ?_, ?_⟩
  · intro h
    obtain ⟨R, hR, hS, hv⟩ := CRTP.ofExpr_ok_crtp hrc h
    exact ⟨R, hR, by rw [expr_sum_ok_crtp hrc h, sum_of_values (hasShape_shaped hS hrc) e1.val hv]⟩
  · intro h
    obtain ⟨R, hR, hS, hv⟩ := Virtual.ofExpr_ok_virtual hrc h
    exact ⟨R, hR, by
      rw [expr_sum_ok_virtual hrc h, sum_of_values (hasShape_shaped hS hrc) e2.val hv]⟩
  · intro h
    constructor
    · rw [expr_sum_ok_crtp hrc (show (CRTP.MatrixExpr.matrix m).Over r c from h),
        sum_of_values (hasShape_shaped h hrc) (CRTP.MatrixExpr.matrix m).val
          (fun _ _ _ _ => rfl)]
    · rw [expr_sum_ok_virtual hrc (show (Virtual.MatrixExpr.matrix m).Over r c from h),
        sum_of_values (hasShape_shaped h hrc) (Virtual.MatrixExpr.matrix m).val
          (fun _ _ _ _ => rfl)]

/-- Witness of C18: the sum of two 2x2 matrices, in the CRTP variant. -/
theorem sums_agree_witness :
    2 * 2 < 2 ^ 32
      ∧ (CRTP.MatrixExpr.add (.matrix (Matrix.new 2 2 1)) (.matrix (Matrix.new 2 2 2))).Over 2 2
      ∧ ∃ R, CRTP.Matrix.ofExpr
          (CRTP.MatrixExpr.add (.matrix (Matrix.new 2 2 1)) (.matrix (Matrix.new 2 2 2))) = .ok R
        ∧ (CRTP.MatrixExpr.add (.matrix (Matrix.new 2 2 1)) (.matrix (Matrix.new 2 2 2))).sum
          = .ok R.sum :=
  ⟨by decide,
    ⟨(by decide : (Matrix.new 2 2 1).HasShape 2 2), (by decide : (Matrix.new 2 2 2).HasShape 2 2)⟩,
    (sums_agree 2 2 (by decide) (.add (.matrix (Matrix.new 2 2 1)) (.matrix (Matrix.new 2 2 2)))
      (.matrix (Matrix.new 2 2 1)) (Matrix.new 2 2 1)).1
      ⟨(by decide : (Matrix.new 2 2 1).HasShape 2 2),
        (by decide : (Matrix.new 2 2 2).HasShape 2 2)⟩⟩

/-! ## Counters along the statements -/

theorem construct_eq_ic {s t : InstanceCounter} (h : s.construct = .ok t) :
    t = ⟨s.created_count_ + 1, s.deleted_count_⟩ := by
  unfold InstanceCounter.construct at h
  cases hi : incr s.created_count_ with
  | error e => rw [hi] at h; cases h
  | ok k =>
    rw [hi] at h
    cases h
    rw [incr_le hi]

theorem destruct_eq_ic {s t : InstanceCounter} (h : s.destruct = .ok t) :
    t = ⟨s.created_count_, s.deleted_count_ + 1⟩ := by
  unfold InstanceCounter.destruct at h
  cases hi : incr s.deleted_count_ with
  | error e => rw [hi] at h; cases h
  | ok k =>
    rw [hi] at h
    cases h
    rw [incr_le hi]

theorem construct_ok_ic (c d : Int) (h : c < INT_MAX) :
    InstanceCounter.construct ⟨c, d⟩ = .ok ⟨c + 1, d⟩ := by
  simp only [InstanceCounter.construct, incr_ok h]

theorem destruct_ok_ic (c d : Int) (h : d < INT_MAX) :
    InstanceCounter.destruct ⟨c, d⟩ = .ok ⟨c, d + 1⟩ := by
  simp only [InstanceCounter.destruct, incr_ok h]

theorem run_destructions_eq : ∀ (k : Nat) (s t : InstanceCounter),
    InstanceCounter.run (List.replicate k .destruction) s = .ok t →
    t = ⟨s.created_count_, s.deleted_count_ + k⟩
  | 0, s, t, h => by
    cases h
    simp
  | k + 1, s, t, h => by
    rw [List.replicate_succ] at h
    unfold InstanceCounter.run at h
    cases hs : s.step .destruction with
    | error e => rw [hs] at h; cases h
    | ok u =>
      rw [hs] at h
      have hu := destruct_eq_ic (show s.destruct = .ok u from hs)
      have ht := run_destructions_eq k u t h
      rw [ht, hu]
      simp only [InstanceCounter.mk.injEq, true_and]
      push_cast
      ring

theorem run_destructions_ok : ∀ (k : Nat) (c d : Int), d + k ≤ INT_MAX →
    InstanceCounter.run (List.replicate k .destruction) ⟨c, d⟩ = .ok ⟨c, d + k⟩
  | 0, c, d, _ => by simp [InstanceCounter.run]
  | k + 1, c, d, h => by
    push_cast at h
    have hlt : d < INT_MAX := by
      have : (0 : Int) ≤ (k : Int) := Int.ofNat_nonneg _
      omega
    rw [List.replicate_succ]
    simp only [InstanceCounter.run, InstanceCounter.step, destruct_ok_ic c d hlt]
    rw [run_destructions_ok k c (d + 1) (by omega)]
    simp only [Except.ok.injEq, InstanceCounter.mk.injEq, true_and]
    push_cast
    ring

namespace Counters

theorem constructMatrix_eq {s t : Counters} (h : s.constructMatrix = .ok t) :
    t = ⟨⟨s.matrix.created_count_ + 1, s.matrix.deleted_count_⟩, s.matrixAdd⟩ := by
  unfold constructMatrix at h
  cases hc : s.matrix.construct with
  | error e => rw [hc] at h; cases h
  | ok u =>
    rw [hc] at h
    cases h
    rw [construct_eq_ic hc]

theorem destructMatrix_eq {s t : Counters} (h : s.destructMatrix = .ok t) :
    t = ⟨⟨s.matrix.created_count_, s.matrix.deleted_count_ + 1⟩, s.matrixAdd⟩ := by
  unfold destructMatrix at h
  cases hc : s.matrix.destruct with
  | error e => rw [hc] at h; cases h
  | ok u =>
    rw [hc] at h
    cases h
    rw [destruct_eq_ic hc]

theorem constructMatrixAdd_eq {s t : Counters} (h : s.constructMatrixAdd = .ok t) :
    t = ⟨s.matrix, ⟨s.matrixAdd.created_count_ + 1, s.matrixAdd.deleted_count_⟩⟩ := by
  unfold constructMatrixAdd at h
  cases hc : s.matrixAdd.construct with
  | error e => rw [hc] at h; cases h
  | ok u =>
    rw [hc] at h
    cases h
    rw [construct_eq_ic hc]

theorem destructMatrixAdd_eq {s t : Counters} (h : s.destructMatrixAdd = .ok t) :
    t = ⟨s.matrix, ⟨s.matrixAdd.created_count_, s.matrixAdd.deleted_count_ + 1⟩⟩ := by
  unfold destructMatrixAdd at h
  cases hc : s.matrixAdd.destruct with
  | error e => rw [hc] at h; cases h
  | ok u =>
    rw [hc] at h
    cases h
    rw [destruct_eq_ic hc]

theorem constructMatrix_ok (m : InstanceCounter) (cm dm : Int) (h : cm < INT_MAX) :
    constructMatrix ⟨⟨cm, dm⟩, m⟩ = .ok ⟨⟨cm + 1, dm⟩, m⟩ := by
  simp only [constructMatrix, construct_ok_ic cm dm h]

theorem destructMatrix_ok (m : InstanceCounter) (cm dm : Int) (h : dm < INT_MAX) :
    destructMatrix ⟨⟨cm, dm⟩, m⟩ = .ok ⟨⟨cm, dm + 1⟩, m⟩ := by
  simp only [destructMatrix, destruct_ok_ic cm dm h]

theorem constructMatrixAdd_ok (m : InstanceCounter) (ca da : Int) (h : ca < INT_MAX) :
    constructMatrixAdd ⟨m, ⟨ca, da⟩⟩ = .ok ⟨m, ⟨ca + 1, da⟩⟩ := by
  simp only [constructMatrixAdd, construct_ok_ic ca da h]

theorem destructMatrixAdd_ok (m : InstanceCounter) (ca da : Int) (h : da < INT_MAX) :
    destructMatrixAdd ⟨m, ⟨ca, da⟩⟩ = .ok ⟨m, ⟨ca, da + 1⟩⟩ := by
  simp only [destructMatrixAdd, destruct_ok_ic ca da h]

theorem destructNodes_eq : ∀ (n : Nat) (s t : Counters), destructNodes n s = .ok t →
    t = ⟨s.matrix, ⟨s.matrixAdd.created_count_, s.matrixAdd.deleted_count_ + n⟩⟩
  | 0, s, t, h => by
    cases h
    simp
  | n + 1, s, t, h => by
    unfold destructNodes at h
    cases hs : s.destructMatrixAdd with
    | error e => rw [hs] at h; cases h
    | ok u =>
      rw [hs] at h
      have hu := destructMatrixAdd_eq hs
      have ht := destructNodes_eq n u t h
      rw [ht, hu]
      simp only [Counters.mk.injEq, InstanceCounter.mk.injEq, true_and]
      push_cast
      ring

theorem destructNodes_ok (m : InstanceCounter) : ∀ (n : Nat) (ca da : Int), da + n ≤ INT_MAX →
    destructNodes n ⟨m, ⟨ca, da⟩⟩ = .ok ⟨m, ⟨ca, da + n⟩⟩
  | 0, ca, da, _ => by simp [destructNodes]
  | n + 1, ca, da, h => by
    push_cast at h
    have hlt : da < INT_MAX := by
      have : (0 : Int) ≤ (n : Int) := Int.ofNat_nonneg _
      omega
    simp only [destructNodes, destructMatrixAdd_ok m ca da hlt]
    rw [destructNodes_ok m n ca (da + 1) (by omega)]
    simp only [Except.ok.injEq, Counters.mk.injEq, InstanceCounter.mk.injEq, true_and]
    push_cast
    ring

end Counters

namespace CRTP

theorem operator_plus_counted_eq_crtp {l r e : MatrixExpr} {s t : Counters}
    (h : operator_plus_counted l r s = .ok (e, t)) :
    e = operator_plus l r
      ∧ t = ⟨s.matrix, ⟨s.matrixAdd.created_count_ + 1, s.matrixAdd.deleted_count_⟩⟩ := by
  unfold operator_plus_counted at h
  cases hc : s.constructMatrixAdd with
  | error er => rw [hc] at h; cases h
  | ok u =>
    rw [hc] at h
    cases h
    exact ⟨rfl, Counters.constructMatrixAdd_eq hc⟩

theorem chain_counted_eq_crtp : ∀ (bs : List Matrix) (e e2 : MatrixExpr) (s t : Counters),
    chain_counted e bs s = .ok (e2, t) →
    e2 = bs.foldl (fun e b => operator_plus e (.matrix b)) e
      ∧ t = ⟨s.matrix, ⟨s.matrixAdd.created_count_ + bs.length, s.matrixAdd.deleted_count_⟩⟩
  | [], e, e2, s, t, h => by
    cases h
    simp
  | b :: bs, e, e2, s, t, h => by
    unfold chain_counted at h
    cases hc : operator_plus_counted e (.matrix b) s with
    | error er => rw [hc] at h; cases h
    | ok p =>
      obtain ⟨e3, u⟩ := p
      rw [hc] at h
      obtain ⟨h1, h2⟩ := operator_plus_counted_eq_crtp hc
      obtain ⟨h3, h4⟩ := chain_counted_eq_crtp bs e3 e2 u t h
      refine ⟨by rw [h3, h1, List.foldl_cons], ?_⟩
      rw [h4, h2]
      simp only [List.length_cons, Counters.mk.injEq, InstanceCounter.mk.injEq, true_and,
        and_true]
      push_cast
      ring

theorem chain_counted_ok_crtp (m : InstanceCounter) : ∀ (bs : List Matrix) (e : MatrixExpr)
    (ca da : Int), ca + bs.length ≤ INT_MAX →
    chain_counted e bs ⟨m, ⟨ca, da⟩⟩
      = .ok (bs.foldl (fun e b => operator_plus e (.matrix b)) e, ⟨m, ⟨ca + bs.length, da⟩⟩)
  | [], e, ca, da, _ => by simp [chain_counted]
  | b :: bs, e, ca, da, h => by
    simp only [List.length_cons] at h
    push_cast at h
    have hlt : ca < INT_MAX := by
      have : (0 : Int) ≤ (bs.length : Int) := Int.ofNat_nonneg _
      omega
    simp only [chain_counted, operator_plus_counted, Counters.constructMatrixAdd_ok m ca da hlt]
    rw [chain_counted_ok_crtp m bs _ (ca + 1) da (by omega)]
    simp only [List.foldl_cons, List.length_cons, Except.ok.injEq, Prod.mk.injEq,
      Counters.mk.injEq, InstanceCounter.mk.injEq, true_and, and_true]
    push_cast
    ring

theorem ofExpr_counted_eq_crtp {e : MatrixExpr} {R : Matrix} {s t : Counters}
    (h : Matrix.ofExpr_counted e s = .ok (R, t)) :
    Matrix.ofExpr e = .ok R
      ∧ t = ⟨⟨s.matrix.created_count_ + 1, s.matrix.deleted_count_⟩, s.matrixAdd⟩ := by
  unfold Matrix.ofExpr_counted at h
  cases hc : s.constructMatrix with
  | error er => rw [hc] at h; cases h
  | ok u =>
    rw [hc] at h
    cases hm : Matrix.ofExpr e with
    | error er => rw [hm] at h; cases h
    | ok R2 =>
      rw [hm] at h
      cases h
      exact ⟨rfl, Counters.constructMatrix_eq hc⟩

/-- What the statement `Matrix res{ a + b + ... };` leaves when it ends. -/
theorem declare_eq_crtp {a b : Matrix} {bs : List Matrix} {s w : Counters} {R : Matrix}
    (h : declare a b bs s = .ok (R, w)) :
    Matrix.ofExpr (chain a (b :: bs)) = .ok R
      ∧ w = ⟨⟨s.matrix.created_count_ + 1, s.matrix.deleted_count_⟩,
        ⟨s.matrixAdd.created_count_ + (bs.length + 1 : Nat),
          s.matrixAdd.deleted_count_ + (bs.length + 1 : Nat)⟩⟩ := by
  unfold declare at h
  cases h1 : chain_counted (.matrix a) (b :: bs) s with
  | error er => rw [h1] at h; cases h
  | ok p =>
    obtain ⟨e, t⟩ := p
    rw [h1] at h
    cases h2 : Matrix.ofExpr_counted e t with
    | error er => simp only [h2] at h; cases h
    | ok q =>
      obtain ⟨R2, u⟩ := q
      simp only [h2] at h
      cases h3 : u.destructNodes (bs.length + 1) with
      | error er => rw [h3] at h; cases h
      | ok w2 =>
        rw [h3] at h
        cases h
        obtain ⟨e1, e2⟩ := chain_counted_eq_crtp _ _ _ _ _ h1
        obtain ⟨e3, e4⟩ := ofExpr_counted_eq_crtp h2
        have e5 := Counters.destructNodes_eq _ _ _ h3
        refine ⟨by rw [← e3, e1]; rfl, ?_⟩
        rw [e5, e4, e2]
        simp

/-- The statement `Matrix res{ a + b + ... };` ends well when the materialisation does
and the counters have room. -/
theorem declare_ok_crtp {a b : Matrix} {bs : List Matrix} {R : Matrix} (cm dm ca da : Int)
    (hR : Matrix.ofExpr (chain a (b :: bs)) = .ok R) (hcm : cm < INT_MAX)
    (hca : ca + (bs.length + 1 : Nat) ≤ INT_MAX) (hda : da + (bs.length + 1 : Nat) ≤ INT_MAX) :
    declare a b bs ⟨⟨cm, dm⟩, ⟨ca, da⟩⟩
      = .ok (R, ⟨⟨cm + 1, dm⟩, ⟨ca + (bs.length + 1 : Nat), da + (bs.length + 1 : Nat)⟩⟩) := by
  have h1 := chain_counted_ok_crtp ⟨cm, dm⟩ (b :: bs) (.matrix a) ca da
    (by simpa using hca)
  have hR2 : Matrix.ofExpr
      (List.foldl (fun e b => operator_plus e (.matrix b)) (.matrix a) (b :: bs)) = .ok R := hR
  simp only [declare, h1, Matrix.ofExpr_counted, Counters.constructMatrix_ok _ cm dm hcm, hR2]
  rw [Counters.destructNodes_ok _ _ _ _ hda]
  simp

/-- The run of the body of `main`, for every `size` whose square fits in `unsigned`: the
three sums and the four counters. -/
theorem main_with_run_crtp (size : Nat) (hs : size < 2 ^ 32) (hss : size * size < 2 ^ 32)
    (fill : Val) :
    main_with size fill = .ok ⟨((size * size : Nat) : Val) * (2 * fill),
      ((size * size : Nat) : Val) * (4 * fill), ((size * size : Nat) : Val) * (6 * fill),
      4, 0, 9, 9⟩ := by
  obtain ⟨R1, h1, s1⟩ := copies_sum_crtp hs hs hss fill 1
  obtain ⟨R2, h2, s2⟩ := copies_sum_crtp hs hs hss fill 3
  obtain ⟨R3, h3, s3⟩ := copies_sum_crtp hs hs hss fill 5
  have hm : (2 : Int) ^ 31 - 1 = 2147483647 := by norm_num
  have h0 : Matrix.new_counted size size fill Counters.init
      = .ok (TP2.Matrix.new size size fill, ⟨⟨1, 0⟩, ⟨0, 0⟩⟩) := by
    have hlt : (0 : Int) < INT_MAX := by decide
    simp only [Matrix.new_counted, Counters.init, InstanceCounter.init,
      Counters.constructMatrix_ok _ 0 0 hlt]
    rfl
  unfold main_with
  rw [h0]
  generalize TP2.Matrix.new size size fill = M at h1 h2 h3 ⊢
  have d1 : declare M M [] ⟨⟨1, 0⟩, ⟨0, 0⟩⟩ = .ok (R1, ⟨⟨2, 0⟩, ⟨1, 1⟩⟩) := by
    have h := @declare_ok_crtp M M [] R1 1 0 0 0 h1 (by simp [INT_MAX, hm])
      (by simp [INT_MAX, hm]) (by simp [INT_MAX, hm])
    simpa using h
  have d2 : declare M M [M, M] ⟨⟨2, 0⟩, ⟨1, 1⟩⟩ = .ok (R2, ⟨⟨3, 0⟩, ⟨4, 4⟩⟩) := by
    have h := @declare_ok_crtp M M [M, M] R2 2 0 1 1 h2 (by simp [INT_MAX, hm])
      (by simp [INT_MAX, hm]) (by simp [INT_MAX, hm])
    simpa using h
  have d3 : declare M M [M, M, M, M] ⟨⟨3, 0⟩, ⟨4, 4⟩⟩ = .ok (R3, ⟨⟨4, 0⟩, ⟨9, 9⟩⟩) := by
    have h := @declare_ok_crtp M M [M, M, M, M] R3 3 0 4 4 h3 (by simp [INT_MAX, hm])
      (by simp [INT_MAX, hm]) (by simp [INT_MAX, hm])
    simpa using h
  simp only [d1, d2, d3, s1, s2, s3, InstanceCounter.created_count,
    InstanceCounter.deleted_count]
  norm_num

end CRTP

namespace Virtual

theorem operator_plus_counted_eq_virtual {l r e : MatrixExpr} {s t : Counters}
    (h : operator_plus_counted l r s = .ok (e, t)) :
    e = operator_plus l r
      ∧ t = ⟨s.matrix, ⟨s.matrixAdd.created_count_ + 1, s.matrixAdd.deleted_count_⟩⟩ := by
  unfold operator_plus_counted at h
  cases hc : s.constructMatrixAdd with
  | error er => rw [hc] at h; cases h
  | ok u =>
    rw [hc] at h
    cases h
    exact ⟨rfl, Counters.constructMatrixAdd_eq hc⟩

theorem chain_counted_eq_virtual : ∀ (bs : List Matrix) (e e2 : MatrixExpr) (s t : Counters),
    chain_counted e bs s = .ok (e2, t) →
    e2 = bs.foldl (fun e b => operator_plus e (.matrix b)) e
      ∧ t = ⟨s.matrix, ⟨s.matrixAdd.created_count_ + bs.length, s.matrixAdd.deleted_count_⟩⟩
  | [], e, e2, s, t, h => by
    cases h
    simp
  | b :: bs, e, e2, s, t, h => by
    unfold chain_counted at h
    cases hc : operator_plus_counted e (.matrix b) s with
    | error er => rw [hc] at h; cases h
    | ok p =>
      obtain ⟨e3, u⟩ := p
      rw [hc] at h
      obtain ⟨h1, h2⟩ := operator_plus_counted_eq_virtual hc
      obtain ⟨h3, h4⟩ := chain_counted_eq_virtual bs e3 e2 u t h
      refine ⟨by rw [h3, h1, List.foldl_cons], ?_⟩
      rw [h4, h2]
      simp only [List.length_cons, Counters.mk.injEq, InstanceCounter.mk.injEq, true_and,
        and_true]
      push_cast
      ring

theorem chain_counted_ok_virtual (m : InstanceCounter) : ∀ (bs : List Matrix) (e : MatrixExpr)
    (ca da : Int), ca + bs.length ≤ INT_MAX →
    chain_counted e bs ⟨m, ⟨ca, da⟩⟩
      = .ok (bs.foldl (fun e b => operator_plus e (.matrix b)) e, ⟨m, ⟨ca + bs.length, da⟩⟩)
  | [], e, ca, da, _ => by simp [chain_counted]
  | b :: bs, e, ca, da, h => by
    simp only [List.length_cons] at h
    push_cast at h
    have hlt : ca < INT_MAX := by
      have : (0 : Int) ≤ (bs.length : Int) := Int.ofNat_nonneg _
      omega
    simp only [chain_counted, operator_plus_counted, Counters.constructMatrixAdd_ok m ca da hlt]
    rw [chain_counted_ok_virtual m bs _ (ca + 1) da (by omega)]
    simp only [List.foldl_cons, List.length_cons, Except.ok.injEq, Prod.mk.injEq,
      Counters.mk.injEq, InstanceCounter.mk.injEq, true_and, and_true]
    push_cast
    ring

theorem ofExpr_counted_eq_virtual {e : MatrixExpr} {R : Matrix} {s t : Counters}
    (h : Matrix.ofExpr_counted e s = .ok (R, t)) :
    Matrix.ofExpr e = .ok R
      ∧ t = ⟨⟨s.matrix.created_count_ + 1, s.matrix.deleted_count_⟩, s.matrixAdd⟩ := by
  unfold Matrix.ofExpr_counted at h
  cases hc : s.constructMatrix with
  | error er => rw [hc] at h; cases h
  | ok u =>
    rw [hc] at h
    cases hm : Matrix.ofExpr e with
    | error er => rw [hm] at h; cases h
    | ok R2 =>
      rw [hm] at h
      cases h
      exact ⟨rfl, Counters.constructMatrix_eq hc⟩

/-- What the statement `Matrix res{ a + b + ... };` leaves when it ends. -/
theorem declare_eq_virtual {a b : Matrix} {bs : List Matrix} {s w : Counters} {R : Matrix}
    (h : declare a b bs s = .ok (R, w)) :
    Matrix.ofExpr (chain a (b :: bs)) = .ok R
      ∧ w = ⟨⟨s.matrix.created_count_ + 1, s.matrix.deleted_count_⟩,
        ⟨s.matrixAdd.created_count_ + (bs.length + 1 : Nat),
          s.matrixAdd.deleted_count_ + (bs.length + 1 : Nat)⟩⟩ := by
  unfold declare at h
  cases h1 : chain_counted (.matrix a) (b :: bs) s with
  | error er => rw [h1] at h; cases h
  | ok p =>
    obtain ⟨e, t⟩ := p
    rw [h1] at h
    cases h2 : Matrix.ofExpr_counted e t with
    | error er => simp only [h2] at h; cases h
    | ok q =>
      obtain ⟨R2, u⟩ := q
      simp only [h2] at h
      cases h3 : u.destructNodes (bs.length + 1) with
      | error er => rw [h3] at h; cases h
      | ok w2 =>
        rw [h3] at h
        cases h
        obtain ⟨e1, e2⟩ := chain_counted_eq_virtual _ _ _ _ _ h1
        obtain ⟨e3, e4⟩ := ofExpr_counted_eq_virtual h2
        have e5 := Counters.destructNodes_eq _ _ _ h3
        refine ⟨by rw [← e3, e1]; rfl, ?_⟩
        rw [e5, e4, e2]
        simp

/-- The statement `Matrix res{ a + b + ... };` ends well when the materialisation does
and the counters have room. -/
theorem declare_ok_virtual {a b : Matrix} {bs : List Matrix} {R : Matrix} (cm dm ca da : Int)
    (hR : Matrix.ofExpr (chain a (b :: bs)) = .ok R) (hcm : cm < INT_MAX)
    (hca : ca + (bs.length + 1 : Nat) ≤ INT_MAX) (hda : da + (bs.length + 1 : Nat) ≤ INT_MAX) :
    declare a b bs ⟨⟨cm, dm⟩, ⟨ca, da⟩⟩
      = .ok (R, ⟨⟨cm + 1, dm⟩, ⟨ca + (bs.length + 1 : Nat), da + (bs.length + 1 : Nat)⟩⟩) := by
  have h1 := chain_counted_ok_virtual ⟨cm, dm⟩ (b :: bs) (.matrix a) ca da
    (by simpa using hca)
  have hR2 : Matrix.ofExpr
      (List.foldl (fun e b => operator_plus e (.matrix b)) (.matrix a) (b :: bs)) = .ok R := hR
  simp only [declare, h1, Matrix.ofExpr_counted, Counters.constructMatrix_ok _ cm dm hcm, hR2]
  rw [Counters.destructNodes_ok _ _ _ _ hda]
  simp

/-- The run of the body of `main`, for every `size` whose square fits in `unsigned`: the
three sums and the four counters. -/
theorem main_with_run_virtual (size : Nat) (hs : size < 2 ^ 32) (hss : size * size < 2 ^ 32)
    (fill : Val) :
    main_with size fill = .ok ⟨((size * size : Nat) : Val) * (2 * fill),
      ((size * size : Nat) : Val) * (4 * fill), ((size * size : Nat) : Val) * (6 * fill),
      4, 0, 9, 9⟩ := by
  obtain ⟨R1, h1, s1⟩ := copies_sum_virtual hs hs hss fill 1
  obtain ⟨R2, h2, s2⟩ := copies_sum_virtual hs hs hss fill 3
  obtain ⟨R3, h3, s3⟩ := copies_sum_virtual hs hs hss fill 5
  have hm : (2 : Int) ^ 31 - 1 = 2147483647 := by norm_num
  have h0 : Matrix.new_counted size size fill Counters.init
      = .ok (TP2.Matrix.new size size fill, ⟨⟨1, 0⟩, ⟨0, 0⟩⟩) := by
    have hlt : (0 : Int) < INT_MAX := by decide
    simp only [Matrix.new_counted, Counters.init, InstanceCounter.init,
      Counters.constructMatrix_ok _ 0 0 hlt]
    rfl
  unfold main_with
  rw [h0]
  generalize TP2.Matrix.new size size fill = M at h1 h2 h3 ⊢
  have d1 : declare M M [] ⟨⟨1, 0⟩, ⟨0, 0⟩⟩ = .ok (R1, ⟨⟨2, 0⟩, ⟨1, 1⟩⟩) := by
    have h := @declare_ok_virtual M M [] R1 1 0 0 0 h1 (by simp [INT_MAX, hm])
      (by simp [INT_MAX, hm]) (by simp [INT_MAX, hm])
    simpa using h
  have d2 : declare M M [M, M] ⟨⟨2, 0⟩, ⟨1, 1⟩⟩ = .ok (R2, ⟨⟨3, 0⟩, ⟨4, 4⟩⟩) := by
    have h := @declare_ok_virtual M M [M, M] R2 2 0 1 1 h2 (by simp [INT_MAX, hm])
      (by simp [INT_MAX, hm]) (by simp [INT_MAX, hm])
    simpa using h
  have d3 : declare M M [M, M, M, M] ⟨⟨3, 0⟩, ⟨4, 4⟩⟩ = .ok (R3, ⟨⟨4, 0⟩, ⟨9, 9⟩⟩) := by
    have h := @declare_ok_virtual M M [M, M, M, M] R3 3 0 4 4 h3 (by simp [INT_MAX, hm])
      (by simp [INT_MAX, hm]) (by simp [INT_MAX, hm])
    simpa using h
  simp only [d1, d2, d3, s1, s2, s3, InstanceCounter.created_count,
    InstanceCounter.deleted_count]
  norm_num

end Virtual

theorem main_run_crtp : CRTP.main = .ok ⟨2000, 4000, 6000, 4, 0, 9, 9⟩ := by
  have h := CRTP.main_with_run_crtp 10000 (by decide) (by decide) (1 / 100000)
  show CRTP.main_with 10000 (1 / 100000) = _
  rw [h]
  norm_num

theorem main_run_virtual : Virtual.main = .ok ⟨2000, 4000, 6000, 4, 0, 9, 9⟩ := by
  have h := Virtual.main_with_run_virtual 10000 (by decide) (by decide) (1 / 100000)
  show Virtual.main_with 10000 (1 / 100000) = _
  rw [h]
  norm_num

/-- C13. Per-type counter independence, in the virtual variant and in the CRTP variant
alike: the construction or the destruction of an addition node, hence `operator+` and the
end of a full expression, leave the counter pair of `Matrix` as it is; the construction or
the destruction of a `Matrix`, by either constructor, leaves the counter pair of the
addition nodes as it is; and below `INT_MAX` each of these events does take place, on its
own pair only. -/
theorem counters_independent (s : Counters) (n : Nat) (l r : CRTP.MatrixExpr)
    (l2 r2 : Virtual.MatrixExpr) (rows cols : Nat) (v : Val) :
    ((∀ t, s.constructMatrixAdd = .ok t → t.matrix = s.matrix)
        ∧ (∀ t, s.destructMatrixAdd = .ok t → t.matrix = s.matrix)
        ∧ (∀ t, s.destructNodes n = .ok t → t.matrix = s.matrix)
        ∧ (∀ e t, CRTP.operator_plus_counted l r s = .ok (e, t) → t.matrix = s.matrix)
        ∧ (∀ e t, Virtual.operator_plus_counted l2 r2 s = .ok (e, t) → t.matrix = s.matrix))
      ∧ ((∀ t, s.constructMatrix = .ok t → t.matrixAdd = s.matrixAdd)
        ∧ (∀ t, s.destructMatrix = .ok t → t.matrixAdd = s.matrixAdd)
        ∧ (∀ R t, CRTP.Matrix.new_counted rows cols v s = .ok (R, t) →
            t.matrixAdd = s.matrixAdd)
        ∧ (∀ R t, Virtual.Matrix.new_counted rows cols v s = .ok (R, t) →
            t.matrixAdd = s.matrixAdd)
        ∧ (∀ R t, CRTP.Matrix.ofExpr_counted l s = .ok (R, t) → t.matrixAdd = s.matrixAdd)
        ∧ (∀ R t, Virtual.Matrix.ofExpr_counted l2 s = .ok (R, t) → t.matrixAdd = s.matrixAdd))
      ∧ ((s.matrixAdd.created_count < INT_MAX → s.constructMatrixAdd
            = .ok ⟨s.matrix, ⟨s.matrixAdd.created_count + 1, s.matrixAdd.deleted_count⟩⟩)
        ∧ (s.matrixAdd.deleted_count < INT_MAX → s.destructMatrixAdd
            = .ok ⟨s.matrix, ⟨s.matrixAdd.created_count, s.matrixAdd.deleted_count + 1⟩⟩)
        ∧ (s.matrix.created_count < INT_MAX → s.constructMatrix
            = .ok ⟨⟨s.matrix.created_count + 1, s.matrix.deleted_count⟩, s.matrixAdd⟩)
        ∧ (s.matrix.deleted_count < INT_MAX → s.destructMatrix
            = .ok ⟨⟨s.matrix.created_count, s.matrix.deleted_count + 1⟩, s.matrixAdd⟩)) := by
  refine ⟨⟨?_, ?_, ?_, ?_, ?_⟩, ⟨?_, ?_, ?_, ?_, ?_, ?_⟩, ⟨?_, ?_, ?_, ?_⟩⟩
  · intro t h
    rw [Counters.constructMatrixAdd_eq h]
  · intro t h
    rw [Counters.destructMatrixAdd_eq h]
  · intro t h
    rw [Counters.destructNodes_eq n s t h]
  · intro e t h
    rw [(CRTP.operator_plus_counted_eq_crtp h).2]
  · intro e t h
    rw [(Virtual.operator_plus_counted_eq_virtual h).2]
  · intro t h
    rw [Counters.constructMatrix_eq h]
  · intro t h
    rw [Counters.destructMatrix_eq h]
  · intro R t h
    unfold CRTP.Matrix.new_counted at h
    cases hc : s.constructMatrix with
    | error e => rw [hc] at h; cases h
    | ok u =>
      rw [hc] at h
      cases h
      rw [Counters.constructMatrix_eq hc]
  · intro R t h
    unfold Virtual.Matrix.new_counted at h
    cases hc : s.constructMatrix with
    | error e => rw [hc] at h; cases h
    | ok u =>
      rw [hc] at h
      cases h
      rw [Counters.constructMatrix_eq hc]
  · intro R t h
    rw [(CRTP.ofExpr_counted_eq_crtp h).2]
  · intro R t h
    rw [(Virtual.ofExpr_counted_eq_virtual h).2]
  · intro h
    obtain ⟨m, ⟨ca, da⟩⟩ := s
    exact Counters.constructMatrixAdd_ok m ca da h
  · intro h
    obtain ⟨m, ⟨ca, da⟩⟩ := s
    exact Counters.destructMatrixAdd_ok m ca da h
  · intro h
    obtain ⟨⟨cm, dm⟩, m⟩ := s
    exact Counters.constructMatrix_ok m cm dm h
  · intro h
    obtain ⟨⟨cm, dm⟩, m⟩ := s
    exact Counters.destructMatrix_ok m cm dm h

/-- Witness of C13: from the counters `(2, 1)` of `Matrix` and `(5, 3)` of the addition
nodes, the construction of an addition node. -/
theorem counters_independent_witness :
    Counters.constructMatrixAdd ⟨⟨2, 1⟩, ⟨5, 3⟩⟩ = .ok ⟨⟨2, 1⟩, ⟨6, 3⟩⟩
      ∧ (⟨⟨2, 1⟩, ⟨6, 3⟩⟩ : Counters).matrix = (⟨⟨2, 1⟩, ⟨5, 3⟩⟩ : Counters).matrix :=
  ⟨by decide,
    (counters_independent ⟨⟨2, 1⟩, ⟨5, 3⟩⟩ 0 (.matrix (Matrix.new 1 1 0))
      (.matrix (Matrix.new 1 1 0)) (.matrix (Matrix.new 1 1 0)) (.matrix (Matrix.new 1 1 0))
      1 1 0).1.1 ⟨⟨2, 1⟩, ⟨6, 3⟩⟩ (by decide)⟩

/-- C14. Lazy variants allocate no intermediate matrix. Whenever the statement
`Matrix res{ a + b + b1 + ... };`, with `k` operators `+`, runs to its end, it has
constructed exactly `k` addition nodes and exactly one `Matrix`, the result, which is the
materialised chain, and it has destroyed the `k` nodes and no `Matrix`; it does run to its
end when the matrices have one shape `(r, c)` with `r * c < 2 ^ 32` and the counters have
room. For the benchmark `main` (`m1`, then chains with 1, 3 and 5 additions) the counters
printed are 4 and 0 for `Matrix` and 9 and 9 for the addition nodes, in the CRTP and in
the virtual variant. -/
theorem lazy_allocation (a b : Matrix) (bs : List Matrix) (s : Counters) :
    (∀ R t, CRTP.declare a b bs s = .ok (R, t) →
        CRTP.Matrix.ofExpr (CRTP.chain a (b :: bs)) = .ok R
        ∧ t.matrixAdd.created_count = s.matrixAdd.created_count + (bs.length + 1 : Nat)
        ∧ t.matrixAdd.deleted_count = s.matrixAdd.deleted_count + (bs.length + 1 : Nat)
        ∧ t.matrix.created_count = s.matrix.created_count + 1
        ∧ t.matrix.deleted_count = s.matrix.deleted_count)
      ∧ (∀ R t, Virtual.declare a b bs s = .ok (R, t) →
        Virtual.Matrix.ofExpr (Virtual.chain a (b :: bs)) = .ok R
        ∧ t.matrixAdd.created_count = s.matrixAdd.created_count + (bs.length + 1 : Nat)
        ∧ t.matrixAdd.deleted_count = s.matrixAdd.deleted_count + (bs.length + 1 : Nat)
        ∧ t.matrix.created_count = s.matrix.created_count + 1
        ∧ t.matrix.deleted_count = s.matrix.deleted_count)
      ∧ (∀ r c, r * c < 2 ^ 32 → a.HasShape r c → (∀ x ∈ b :: bs, x.HasShape r c) →
          s.matrix.created_count < INT_MAX →
          s.matrixAdd.created_count + (bs.length + 1 : Nat) ≤ INT_MAX →
          s.matrixAdd.deleted_count + (bs.length + 1 : Nat) ≤ INT_MAX →
          (∃ R t, CRTP.declare a b bs s = .ok (R, t))
            ∧ ∃ R t, Virtual.declare a b bs s = .ok (R, t))
      ∧ (∃ out, CRTP.main = .ok out ∧ out.matrix_created = 4 ∧ out.matrix_deleted = 0
          ∧ out.matrixAdd_created = 9 ∧ out.matrixAdd_deleted = 9)
      ∧ (∃ out, Virtual.main = .ok out ∧ out.matrix_created = 4 ∧ out.matrix_deleted = 0
          ∧ out.matrixAdd_created = 9 ∧ out.matrixAdd_deleted = 9) := by
  refine ⟨?_, ?_, ?_, ⟨_, main_run_crtp, rfl, rfl, rfl, rfl⟩,
    ⟨_, main_run_virtual, rfl, rfl, rfl, rfl⟩⟩
  · intro R t h
    obtain ⟨h1, h2⟩ := CRTP.declare_eq_crtp h
    rw [h2]
    exact ⟨h1, rfl, rfl, rfl, rfl⟩
  · intro R t h
    obtain ⟨h1, h2⟩ := Virtual.declare_eq_virtual h
    rw [h2]
    exact ⟨h1, rfl, rfl, rfl, rfl⟩
  · intro r c hrc ha hbs h1 h2 h3
    obtain ⟨⟨cm, dm⟩, ⟨ca, da⟩⟩ := s
    obtain ⟨R1, hR1, _⟩ := CRTP.ofExpr_ok_crtp hrc (CRTP.chain_over_crtp ha hbs)
    obtain ⟨R2, hR2, _⟩ := Virtual.ofExpr_ok_virtual hrc (Virtual.chain_over_virtual ha hbs)
    exact ⟨⟨R1, _, CRTP.declare_ok_crtp cm dm ca da hR1 h1 h2 h3⟩,
      ⟨R2, _, Virtual.declare_ok_virtual cm dm ca da hR2 h1 h2 h3⟩⟩

/-- Witness of C14: the statement `Matrix res{ a + b + b1 };` on 2x2 matrices, from the
initial counters. -/
theorem lazy_allocation_witness :
    CRTP.declare (Matrix.new 2 2 1) (Matrix.new 2 2 2) [Matrix.new 2 2 3] Counters.init
        = .ok (Matrix.new 2 2 6, ⟨⟨1, 0⟩, ⟨2, 2⟩⟩)
      ∧ CRTP.Matrix.ofExpr (CRTP.chain (Matrix.new 2 2 1) [Matrix.new 2 2 2, Matrix.new 2 2 3])
        = .ok (Matrix.new 2 2 6)
      ∧ (⟨⟨1, 0⟩, ⟨2, 2⟩⟩ : Counters).matrixAdd.created_count
        = Counters.init.matrixAdd.created_count + ([Matrix.new 2 2 3].length + 1 : Nat)
      ∧ (⟨⟨1, 0⟩, ⟨2, 2⟩⟩ : Counters).matrixAdd.deleted_count
        = Counters.init.matrixAdd.deleted_count + ([Matrix.new 2 2 3].length + 1 : Nat)
      ∧ (⟨⟨1, 0⟩, ⟨2, 2⟩⟩ : Counters).matrix.created_count
        = Counters.init.matrix.created_count + 1
      ∧ (⟨⟨1, 0⟩, ⟨2, 2⟩⟩ : Counters).matrix.deleted_count
        = Counters.init.matrix.deleted_count :=
  ⟨by decide!,
    (lazy_allocation (Matrix.new 2 2 1) (Matrix.new 2 2 2) [Matrix.new 2 2 3] Counters.init).1
      (Matrix.new 2 2 6) ⟨⟨1, 0⟩, ⟨2, 2⟩⟩ (by decide!)⟩

/-- C17, as the code has it. Output of the lazy benchmarks: for the `main` of the CRTP and
of the virtual variant as written (`size = 10000`, `m1 = Matrix(size, size, 1e-5)`), the
program runs to its end and the sums of `res1 = m1 + m1`, `res2 = m1 + m1 + m1 + m1` and
`res3 = m1 + m1 + m1 + m1 + m1 + m1` are `2000`, `4000` and `6000`. -/
theorem lazy_benchmark_sums :
    (∃ out, CRTP.main = .ok out ∧ out.res1_sum = 2000 ∧ out.res2_sum = 4000
        ∧ out.res3_sum = 6000)
      ∧ (∃ out, Virtual.main = .ok out ∧ out.res1_sum = 2000 ∧ out.res2_sum = 4000
        ∧ out.res3_sum = 6000) :=
  ⟨⟨_, main_run_crtp, rfl, rfl, rfl⟩, ⟨_, main_run_virtual, rfl, rfl, rfl⟩⟩

/-- Counterexample to C17 as stated: the sums that the `main` of the two lazy programs
computes are not the `1`, `2` and `3` of the output recorded at the end of the two
files. -/
theorem lazy_benchmark_sums_not_recorded :
    (∀ out, CRTP.main = .ok out →
        out.res1_sum ≠ 1 ∧ out.res2_sum ≠ 2 ∧ out.res3_sum ≠ 3)
      ∧ (∀ out, Virtual.main = .ok out →
        out.res1_sum ≠ 1 ∧ out.res2_sum ≠ 2 ∧ out.res3_sum ≠ 3)
      ∧ CRTP.main ≠ .error .undefined_behaviour
      ∧ Virtual.main ≠ .error .undefined_behaviour := by
  refine ⟨?_, ?_, ?_, ?_⟩
  · intro out h
    rw [main_run_crtp] at h
    cases h
    refine ⟨?_, ?_, ?_⟩ <;> norm_num
  · intro out h
    rw [main_run_virtual] at h
    cases h
    refine ⟨?_, ?_, ?_⟩ <;> norm_num
  · rw [main_run_crtp]
    simp
  · rw [main_run_virtual]
    simp

namespace Simple

theorem operator_plus_counted_eq_simple {a b r : Matrix} {s t : InstanceCounter}
    (h : operator_plus_counted a b s = .ok (r, t)) :
    operator_plus a b = .ok r ∧ t = ⟨s.created_count_ + 1, s.deleted_count_⟩ := by
  unfold operator_plus_counted at h
  by_cases hne : a.rows ≠ b.rows ∨ a.cols ≠ b.cols
  · simp only [hne, if_true] at h
    cases h
  · simp only [hne, if_false] at h
    cases hc : s.construct with
    | error e => rw [hc] at h; cases h
    | ok u =>
      rw [hc] at h
      cases hl : plusLoops ⟨a, b, Matrix.newDefault a.rows a.cols⟩ with
      | error e => simp only [hl] at h; cases h
      | ok st =>
        simp only [hl] at h
        cases h
        exact ⟨by simp only [operator_plus, operator_plus_state, hne, if_false, hl],
          construct_eq_ic hc⟩

theorem operator_plus_counted_ok_simple {a b r : Matrix} (c d : Int)
    (h : operator_plus a b = .ok r) (hc : c < INT_MAX) :
    operator_plus_counted a b ⟨c, d⟩ = .ok (r, ⟨c + 1, d⟩) := by
  unfold operator_plus operator_plus_state at h
  by_cases hne : a.rows ≠ b.rows ∨ a.cols ≠ b.cols
  · simp only [hne, if_true] at h
    cases h
  · simp only [hne, if_false] at h
    cases hl : plusLoops ⟨a, b, Matrix.newDefault a.rows a.cols⟩ with
    | error e => simp only [hl] at h; cases h
    | ok st =>
      simp only [hl] at h
      cases h
      simp only [operator_plus_counted, hne, if_false, construct_ok_ic c d hc, hl]

theorem chain_snoc : ∀ (pre : List Matrix) (a b : Matrix),
    chain a (pre ++ [b])
      = match chain a pre with
        | .ok c => operator_plus c b
        | .error e => .error e
  | [], a, b => by
    simp only [List.nil_append, chain]
    cases operator_plus a b <;> rfl
  | x :: pre, a, b => by
    simp only [List.cons_append, chain]
    cases h : operator_plus a x with
    | error e => rfl
    | ok r => exact chain_snoc pre r b

/-- The additions of a statement, one after the other: every matrix they construct is the
result of the chain up to some operator. -/
theorem chain_counted_eq_simple (a : Matrix) : ∀ (bs pre : List Matrix) (cur : Matrix)
    (temps : List Matrix) (s : InstanceCounter) (res : Matrix) (temps2 : List Matrix)
    (t : InstanceCounter),
    chain a pre = .ok cur →
    (∀ M ∈ temps ++ [cur], ∃ k, 1 ≤ k ∧ k ≤ pre.length ∧ chain a (pre.take k) = .ok M) →
    chain_counted cur temps bs s = .ok (res, temps2, t) →
    chain a (pre ++ bs) = .ok res
      ∧ (∀ M ∈ temps2 ++ [res], ∃ k, 1 ≤ k ∧ k ≤ (pre ++ bs).length
          ∧ chain a ((pre ++ bs).take k) = .ok M)
      ∧ temps2.length = temps.length + bs.length
      ∧ t = ⟨s.created_count_ + bs.length, s.deleted_count_⟩
  | [], pre, cur, temps, s, res, temps2, t, hcur, hmem, h => by
    cases h
    exact ⟨by simpa using hcur, by simpa using hmem, by simp, by simp⟩
  | b :: bs, pre, cur, temps, s, res, temps2, t, hcur, hmem, h => by
    unfold chain_counted at h
    cases hp : operator_plus_counted cur b s with
    | error e => rw [hp] at h; cases h
    | ok p =>
      obtain ⟨r, u⟩ := p
      rw [hp] at h
      obtain ⟨h1, h2⟩ := operator_plus_counted_eq_simple hp
      have hr : chain a (pre ++ [b]) = .ok r := by
        rw [chain_snoc, hcur]
        exact h1
      have hmem2 : ∀ M ∈ (temps ++ [cur]) ++ [r], ∃ k, 1 ≤ k ∧ k ≤ (pre ++ [b]).length
          ∧ chain a ((pre ++ [b]).take k) = .ok M := by
        intro M hM
        rcases List.mem_append.1 hM with hM1 | hM2
        · obtain ⟨k, k1, k2, k3⟩ := hmem M hM1
          refine ⟨k, k1, by simp; omega, ?_⟩
          rw [List.take_append_of_le_length k2]
          exact k3
        · have e : M = r := by simpa using hM2
          subst e
          refine ⟨(pre ++ [b]).length, by simp, le_refl _, ?_⟩
          rw [List.take_length]
          exact hr
      have ih := chain_counted_eq_simple a bs (pre ++ [b]) r (temps ++ [cur]) u res temps2 t
        hr hmem2 h
      have e : pre ++ [b] ++ bs = pre ++ b :: bs := by simp
      rw [e] at ih
      obtain ⟨i1, i2, i3, i4⟩ := ih
      refine ⟨i1, i2, by rw [i3]; simp; omega, ?_⟩
      rw [i4, h2]
      simp only [List.length_cons, InstanceCounter.mk.injEq, and_true]
      push_cast
      ring

theorem chain_counted_ok_simple {r c : Nat} (hrc : r * c < 2 ^ 32) : ∀ (bs : List Matrix)
    (cur : Matrix) (temps : List Matrix) (cc d : Int), cur.HasShape r c →
    (∀ x ∈ bs, x.HasShape r c) → cc + bs.length ≤ INT_MAX →
    ∃ res temps2, chain_counted cur temps bs ⟨cc, d⟩ = .ok (res, temps2, ⟨cc + bs.length, d⟩)
  | [], cur, temps, cc, d, _, _, _ => ⟨cur, temps, by simp [chain_counted]⟩
  | b :: bs, cur, temps, cc, d, hcur, hbs, h => by
    simp only [List.length_cons] at h
    push_cast at h
    have hlt : cc < INT_MAX := by
      have : (0 : Int) ≤ (bs.length : Int) := Int.ofNat_nonneg _
      omega
    obtain ⟨R, hR, hS, _⟩ := operator_plus_ok hcur (hbs b (List.mem_cons_self b bs)) hrc
    obtain ⟨res, temps2, hres⟩ := chain_counted_ok_simple hrc bs R (temps ++ [cur]) (cc + 1) d
      hS (fun x hx => hbs x (List.mem_cons_of_mem b hx)) (by omega)
    refine ⟨res, temps2, ?_⟩
    simp only [chain_counted, operator_plus_counted_ok_simple cc d hR hlt, hres]
    simp only [List.length_cons, Except.ok.injEq, Prod.mk.injEq, InstanceCounter.mk.injEq,
      true_and, and_true]
    push_cast
    ring

/-- What the statement `Matrix res{ a + b + ... };` of the eager program leaves when it
ends. -/
theorem declare_eq_simple {a b : Matrix} {bs : List Matrix} {s w : InstanceCounter}
    {res : Matrix} {temps : List Matrix} (h : declare a b bs s = .ok (res, temps, w)) :
    chain a (b :: bs) = .ok res
      ∧ (∀ M ∈ temps ++ [res], ∃ k, 1 ≤ k ∧ k ≤ bs.length + 1
          ∧ chain a ((b :: bs).take k) = .ok M)
      ∧ temps.length = bs.length
      ∧ w = ⟨s.created_count_ + (bs.length + 1 : Nat), s.deleted_count_ + (bs.length : Nat)⟩ := by
  unfold declare at h
  cases h1 : operator_plus_counted a b s with
  | error e => rw [h1] at h; cases h
  | ok p =>
    obtain ⟨r1, t⟩ := p
    rw [h1] at h
    cases h2 : chain_counted r1 [] bs t with
    | error e => simp only [h2] at h; cases h
    | ok q =>
      obtain ⟨res2, temps2, u⟩ := q
      simp only [h2] at h
      cases h3 : InstanceCounter.run (List.replicate temps2.length .destruction) u with
      | error e => rw [h3] at h; cases h
      | ok w2 =>
        rw [h3] at h
        cases h
        obtain ⟨e1, e2⟩ := operator_plus_counted_eq_simple h1
        have hr1 : chain a [b] = .ok r1 := by
          simp only [chain, e1]
        have hmem : ∀ M ∈ ([] : List Matrix) ++ [r1], ∃ k, 1 ≤ k ∧ k ≤ [b].length
            ∧ chain a ([b].take k) = .ok M := by
          intro M hM
          have e : M = r1 := by simpa using hM
          subst e
          exact ⟨1, le_refl _, le_refl _, hr1⟩
        obtain ⟨i1, i2, i3, i4⟩ := chain_counted_eq_simple a bs [b] r1 [] t res temps u
          hr1 hmem h2
        have e5 := run_destructions_eq _ _ _ h3
        refine ⟨i1, ?_, by simpa using i3, ?_⟩
        · intro M hM
          obtain ⟨k, k1, k2, k3⟩ := i2 M hM
          exact ⟨k, k1, by simpa [Nat.add_comm] using k2, k3⟩
        · rw [e5, i4, e2]
          have e6 : temps.length = bs.length := by simpa using i3
          simp only [e6, InstanceCounter.mk.injEq, and_true]
          push_cast
          ring

/-- The statement `Matrix res{ a + b + ... };` of the eager program ends well on matrices
of one shape when the counters have room. -/
theorem declare_ok_simple {r c : Nat} (hrc : r * c < 2 ^ 32) {a b : Matrix} {bs : List Matrix}
    (cc d : Int) (ha : a.HasShape r c) (hbs : ∀ x ∈ b :: bs, x.HasShape r c)
    (hcc : cc + (bs.length + 1 : Nat) ≤ INT_MAX) (hd : d + (bs.length : Nat) ≤ INT_MAX) :
    ∃ res temps, declare a b bs ⟨cc, d⟩
      = .ok (res, temps, ⟨cc + (bs.length + 1 : Nat), d + (bs.length : Nat)⟩) := by
  push_cast at hcc
  have hlt : cc < INT_MAX := by
    have : (0 : Int) ≤ (bs.length : Int) := Int.ofNat_nonneg _
    omega
  obtain ⟨R1, hR1, hS1, _⟩ := operator_plus_ok ha (hbs b (List.mem_cons_self b bs)) hrc
  have h1 := operator_plus_counted_ok_simple cc d hR1 hlt
  obtain ⟨res, temps, h2⟩ := chain_counted_ok_simple hrc bs R1 [] (cc + 1) d hS1
    (fun x hx => hbs x (List.mem_cons_of_mem b hx)) (by omega)
  have hr1 : chain a [b] = .ok R1 := by
    simp only [chain, hR1]
  have hmem : ∀ M ∈ ([] : List Matrix) ++ [R1], ∃ k, 1 ≤ k ∧ k ≤ [b].length
      ∧ chain a ([b].take k) = .ok M := by
    intro M hM
    have e : M = R1 := by simpa using hM
    subst e
    exact ⟨1, le_refl _, le_refl _, hr1⟩
  obtain ⟨_, _, i3, _⟩ := chain_counted_eq_simple a bs [b] R1 [] _ res temps _ hr1 hmem h2
  have e6 : temps.length = bs.length := by simpa using i3
  refine ⟨res, temps, ?_⟩
  simp only [declare, h1, h2, e6, run_destructions_ok bs.length _ d hd]
  simp only [Except.ok.injEq, Prod.mk.injEq, InstanceCounter.mk.injEq, true_and, and_true]
  push_cast
  ring

end Simple

theorem replicate_hasShape {r c : Nat} {M : Matrix} (hM : M.HasShape r c) (n : Nat) :
    ∀ x ∈ List.replicate n M, x.HasShape r c := by
  intro x hx
  rw [List.eq_of_mem_replicate hx]
  exact hM

namespace Simple

/-- The statement `Matrix res{ M + M + ... };` with `n + 1` operators, on a matrix `M`
whose chain of copies is `R`. -/
theorem declare_copies {r c : Nat} (hrc : r * c < 2 ^ 32) {M R : Matrix} (n : Nat) (cc d : Int)
    (hM : M.HasShape r c) (hR : chain M (List.replicate (n + 1) M) = .ok R)
    (hcc : cc + (n + 1 : Nat) ≤ INT_MAX) (hd : d + (n : Nat) ≤ INT_MAX) :
    ∃ temps, declare M M (List.replicate n M) ⟨cc, d⟩
      = .ok (R, temps, ⟨cc + (n + 1 : Nat), d + (n : Nat)⟩) := by
  obtain ⟨res, temps, h⟩ := @declare_ok_simple r c hrc M M (List.replicate n M) cc d hM
    (replicate_hasShape hM (n + 1)) (by simpa using hcc) (by simpa using hd)
  have e := (declare_eq_simple h).1
  have e2 : chain M (M :: List.replicate n M) = .ok R := hR
  rw [e2] at e
  have e3 : R = res := Except.ok.inj e
  subst e3
  exact ⟨temps, by simpa using h⟩

/-- The run of the body of `main`, for every `size` whose square fits in `unsigned`: the
three sums and the two counters. -/
theorem main_with_run_simple (size : Nat) (hs : size < 2 ^ 32) (hss : size * size < 2 ^ 32)
    (fill : Val) :
    main_with size fill = .ok ⟨((size * size : Nat) : Val) * (2 * fill),
      ((size * size : Nat) : Val) * (4 * fill), ((size * size : Nat) : Val) * (6 * fill),
      10, 6⟩ := by
  obtain ⟨R1, h1, s1⟩ := copies_sum_simple hs hs hss fill 1
  obtain ⟨R2, h2, s2⟩ := copies_sum_simple hs hs hss fill 3
  obtain ⟨R3, h3, s3⟩ := copies_sum_simple hs hs hss fill 5
  have hM := TP2.Matrix.new_hasShape size size fill hs hs
  have hm : (2 : Int) ^ 31 - 1 = 2147483647 := by norm_num
  have h0 : Matrix.new_counted size size fill InstanceCounter.init
      = .ok (TP2.Matrix.new size size fill, ⟨1, 0⟩) := by
    have hlt : (0 : Int) < INT_MAX := by decide
    simp only [Matrix.new_counted, InstanceCounter.init, construct_ok_ic 0 0 hlt]
    rfl
  unfold main_with
  rw [h0]
  generalize TP2.Matrix.new size size fill = M at h1 h2 h3 hM ⊢
  obtain ⟨t1, d1⟩ := declare_copies hss 0 1 0 hM h1 (by simp [INT_MAX, hm])
    (by simp [INT_MAX, hm])
  obtain ⟨t2, d2⟩ := declare_copies hss 2 2 0 hM h2 (by simp [INT_MAX, hm])
    (by simp [INT_MAX, hm])
  obtain ⟨t3, d3⟩ := declare_copies hss 4 5 2 hM h3 (by simp [INT_MAX, hm])
    (by simp [INT_MAX, hm])
  have d1b : declare M M [] ⟨1, 0⟩ = .ok (R1, t1, ⟨2, 0⟩) := by simpa using d1
  have d2b : declare M M [M, M] ⟨2, 0⟩ = .ok (R2, t2, ⟨5, 2⟩) := by simpa using d2
  have d3b : declare M M [M, M, M, M] ⟨5, 2⟩ = .ok (R3, t3, ⟨10, 6⟩) := by simpa using d3
  simp only [d1b, d2b, d3b, s1, s2, s3, InstanceCounter.created_count,
    InstanceCounter.deleted_count]
  norm_num

end Simple

theorem main_run_simple : Simple.main = .ok ⟨2000, 4000, 6000, 10, 6⟩ := by
  have h := Simple.main_with_run_simple 10000 (by decide) (by decide) (1 / 100000)
  show Simple.main_with 10000 (1 / 100000) = _
  rw [h]
  norm_num

/-- C15. Eager variant allocates one matrix per addition (the result of `operator+` being
returned in place, as in the recorded run). Whenever the statement
`Matrix res{ a + b + b1 + ... };`, with `N` operators `+`, runs to its end, it has
constructed exactly `N` new `Matrix` objects and destroyed `N - 1`, its temporaries; every
one of the `N` is the result of the chain up to one of the operators, the last being `res`.
It does run to its end on matrices of one shape `(r, c)` with `r * c < 2 ^ 32` when the
counters have room, and every one of the `N` matrices then has the `r * c` entries of the
shape, each holding the sum up to its operator. For the benchmark `main` (`m1`, then chains
with 1, 3 and 5 additions) the counters printed are 10 and 6. -/
theorem eager_allocation (a b : Matrix) (bs : List Matrix) (s : InstanceCounter) :
    (∀ res temps t, Simple.declare a b bs s = .ok (res, temps, t) →
        Simple.chain a (b :: bs) = .ok res
        ∧ t.created_count = s.created_count + (bs.length + 1 : Nat)
        ∧ t.deleted_count = s.deleted_count + (bs.length : Nat)
        ∧ temps.length = bs.length
        ∧ ∀ M ∈ temps ++ [res], ∃ k, 1 ≤ k ∧ k ≤ bs.length + 1
            ∧ Simple.chain a ((b :: bs).take k) = .ok M)
      ∧ (∀ r c, r * c < 2 ^ 32 → a.HasShape r c → (∀ x ∈ b :: bs, x.HasShape r c) →
          s.created_count + (bs.length + 1 : Nat) ≤ INT_MAX →
          s.deleted_count + (bs.length : Nat) ≤ INT_MAX →
          ∃ res temps t, Simple.declare a b bs s = .ok (res, temps, t)
            ∧ ∀ M ∈ temps ++ [res], ∃ k, 1 ≤ k ∧ k ≤ bs.length + 1 ∧ M.HasShape r c
              ∧ M.data_.length = r * c
              ∧ ∀ i j, i < r → j < c →
                  Simple.Matrix.get M i j = .ok (chainVal a ((b :: bs).take k) i j))
      ∧ (∃ out, Simple.main = .ok out ∧ out.matrix_created = 10 ∧ out.matrix_deleted = 6) := by
  refine ⟨?_, ?_, ⟨_, main_run_simple, rfl, rfl⟩⟩
  · intro res temps t h
    obtain ⟨h1, h2, h3, h4⟩ := Simple.declare_eq_simple h
    rw [h4]
    exact ⟨h1, rfl, rfl, h3, h2⟩
  · intro r c hrc ha hbs h1 h2
    obtain ⟨cc, d⟩ := s
    obtain ⟨res, temps, h⟩ := Simple.declare_ok_simple hrc cc d ha hbs h1 h2
    refine ⟨res, temps, _, h, ?_⟩
    intro M hM
    obtain ⟨k, k1, k2, k3⟩ := (Simple.declare_eq_simple h).2.1 M hM
    obtain ⟨R, hR, hS, hv⟩ := Simple.chain_ok_simple hrc ((b :: bs).take k) a ha
      (fun x hx => hbs x (List.mem_of_mem_take hx))
    rw [k3] at hR
    have e : M = R := Except.ok.inj hR
    subst e
    exact ⟨k, k1, k2, hS, (hasShape_shaped hS hrc).2.2, hv⟩

/-- Witness of C15: the statement `Matrix res{ a + b + b1 };` on 2x2 matrices filled with
1, 2 and 4, from the initial counters: the temporary is filled with 3 and `res` with 7. -/
theorem eager_allocation_witness :
    Simple.declare (Matrix.new 2 2 1) (Matrix.new 2 2 2) [Matrix.new 2 2 4] InstanceCounter.init
        = .ok (Matrix.new 2 2 7, [Matrix.new 2 2 3], ⟨2, 1⟩)
      ∧ Simple.chain (Matrix.new 2 2 1) [Matrix.new 2 2 2, Matrix.new 2 2 4]
        = .ok (Matrix.new 2 2 7)
      ∧ (⟨2, 1⟩ : InstanceCounter).created_count
        = InstanceCounter.init.created_count + ([Matrix.new 2 2 4].length + 1 : Nat)
      ∧ (⟨2, 1⟩ : InstanceCounter).deleted_count
        = InstanceCounter.init.deleted_count + ([Matrix.new 2 2 4].length : Nat)
      ∧ [Matrix.new 2 2 3].length = [Matrix.new 2 2 4].length
      ∧ ∀ M ∈ [Matrix.new 2 2 3] ++ [Matrix.new 2 2 7],
          ∃ k, 1 ≤ k ∧ k ≤ [Matrix.new 2 2 4].length + 1
            ∧ Simple.chain (Matrix.new 2 2 1) ([Matrix.new 2 2 2, Matrix.new 2 2 4].take k)
              = .ok M :=
  ⟨by decide!,
    (eager_allocation (Matrix.new 2 2 1) (Matrix.new 2 2 2) [Matrix.new 2 2 4]
      InstanceCounter.init).1 (Matrix.new 2 2 7) [Matrix.new 2 2 3] ⟨2, 1⟩ (by decide!)⟩

theorem new_shaped (rows cols : Nat) (v : Val) (hrc : rows * cols < 2 ^ 32) :
    (Matrix.new rows cols v).Shaped rows cols :=
  ⟨rfl, rfl, by simp [Matrix.new, u32_of_lt hrc]⟩

/-- C19, as the code has it. Eager variant, checked access is in-bounds: for every matrix
built by `Matrix(rows, cols, v)` with `rows * cols < 2 ^ 32`, and every `row < rows` and
`col < cols` (every access that passes the bounds check), the index `row * cols + col`
computed in `unsigned` is `row * cols + col` itself and is strictly below the length of the
buffer the constructor allocated, so that both accessors reach an entry of the vector. -/
theorem checked_access_in_bounds (rows cols : Nat) (v : Val) (hrc : rows * cols < 2 ^ 32)
    (row col : Nat) (hrow : row < rows) (hcol : col < cols) :
    (Matrix.new rows cols v).index row col = row * cols + col
      ∧ (Matrix.new rows cols v).index row col < (Matrix.new rows cols v).data_.length
      ∧ Simple.Matrix.get (Matrix.new rows cols v) row col ≠ .error .out_of_range
      ∧ Simple.Matrix.get (Matrix.new rows cols v) row col = .ok v
      ∧ Simple.Matrix.ref (Matrix.new rows cols v) row col = .ok (row * cols + col) := by
  have hS := new_shaped rows cols v hrc
  have hi := Matrix.index_flat hS hrc hrow hcol
  have hg := Simple.Matrix.get_ok hS hrc hrow hcol
  rw [new_elem v hrc hrow hcol] at hg
  refine ⟨hi, ?_, ?_, hg, Simple.Matrix.ref_ok hS hrc hrow hcol⟩
  · rw [hi, hS.2.2]
    exact flat_lt hrow hcol
  · rw [hg]
    simp

/-- Witness of C19: the entry `(9999, 9999)` of the 10000x10000 matrix of the benchmark. -/
theorem checked_access_in_bounds_witness :
    10000 * 10000 < 2 ^ 32 ∧ 9999 < 10000
      ∧ (Matrix.new 10000 10000 (1 / 100000)).index 9999 9999 = 9999 * 10000 + 9999
      ∧ (Matrix.new 10000 10000 (1 / 100000)).index 9999 9999
        < (Matrix.new 10000 10000 (1 / 100000)).data_.length :=
  ⟨by decide, by decide,
    (checked_access_in_bounds 10000 10000 (1 / 100000) (by decide) 9999 9999 (by decide)
      (by decide)).1,
    (checked_access_in_bounds 10000 10000 (1 / 100000) (by decide) 9999 9999 (by decide)
      (by decide)).2.1⟩

/-- Counterexample to C19 as stated: `Matrix(65536, 65536, 0.0)`. Both dimensions are
`unsigned` values, the product `65536 * 65536` is `0` in `unsigned`, and the buffer
allocated has length `0`. The access `(0, 0)` passes the bounds check, since `0 < 65536`;
the position computed is `0`, which is not below the length of the buffer: the vector is
indexed out of range, in the read-only and in the mutable accessor. -/
theorem checked_access_past_buffer :
    65536 < 2 ^ 32 ∧ (0 < (Matrix.new 65536 65536 0).rows ∧ 0 < (Matrix.new 65536 65536 0).cols)
      ∧ (Matrix.new 65536 65536 0).index 0 0 = 0
      ∧ (Matrix.new 65536 65536 0).data_.length = 0
      ∧ ¬ (Matrix.new 65536 65536 0).index 0 0 < (Matrix.new 65536 65536 0).data_.length
      ∧ Simple.Matrix.get (Matrix.new 65536 65536 0) 0 0 = .error .undefined_behaviour
      ∧ Simple.Matrix.ref (Matrix.new 65536 65536 0) 0 0 = .error .undefined_behaviour
      ∧ Simple.Matrix.assign (Matrix.new 65536 65536 0) 0 0 1 = .error .undefined_behaviour := by
  refine ⟨by decide, ⟨by decide, by decide⟩, by decide, by decide, by decide, by decide,
    by decide, by decide⟩

end TP2
